import Mathlib

/-!
# Ticky Bot (tic-tac-toe move oracle): shallow embedding of `src/utils/tickyBot.js`

Modelling conventions.

* A player mark is the string `'X'` or `'O'` (see the JSDoc of `getBestMove`); both are
  truthy, so the guard `squares[a] && ...` of `checkWinner` is the test "cell `a` is not
  `null`".  A cell is `Option Mark`, `none` standing for `null`.
* A board is a JavaScript array, modelled as a `List (Option Mark)`; the assignment
  `squares[i] = v` is `List.set`, the test `squares[i] === null` is `squares[i]? = some none`
  (a read past the end is `undefined`, not `null`), and `cellAt squares i` is the read used
  by `checkWinner`, where `undefined` and `null` are both falsy.
* The numbers handled by the search are integers and the two infinities: type `Score`.
* Functions that assign to `squares` return the final board next to their result.
* `minimax` takes a recursion budget as first argument and answers `none` when the budget
  is exhausted; `getProMove` supplies a budget larger than the number of cells.
* `Math.random()` is a stream `rnd : Nat → ℚ`: `rnd k` is the value of the `k`-th draw made
  by one call of `getBestMove`; every draw is an IEEE 754 binary64 number of `[0, 1)`, see
  `validRnd`.  A double is the rational it denotes.  `roundDouble` is rounding to the nearest
  double, ties to even: the literals `0.3`, `0.4`, `0.5`, `0.6` are `roundDouble` of the
  decimals, and the product `Math.random() * n` is `roundDouble` of the exact product.
  `Math.floor` of a double is exact.
* `plainMinimax`, `minimaxScore`, `humanForcesWin`, `botSafe`, `renameBoard` and the
  relations `Play`, `PlayFrom`, `LegalPlay`, `MinimaxCall` are not functions of the source:
  they are the vocabulary in which the properties of the source functions are stated and
  proved. `emptyCorners`, `drawsBeforeCorners` and `drawsBeforeLast` name subexpressions of
  `getFriendlyMove`.  `MinimaxCall` is tied to `minimax` by `minimaxCall_iff` and the
  unfolding of `minimax` into its loops stated with claim C20.
-/

namespace TickyBot

/-- The two player symbols. -/
inductive Mark where
  | X : Mark
  | O : Mark
  deriving DecidableEq, Repr

/-- The other player symbol. -/
def Mark.other : Mark → Mark
  | Mark.X => Mark.O
  | Mark.O => Mark.X

/-- A cell of the board: `none` is the JavaScript `null`. -/
abbrev Cell := Option Mark

/-- The board array `squares`. -/
abbrev Board := List Cell

/-- The read `squares[i]` where only truthiness and equality with a mark matter: a read past
the end (`undefined`) counts as empty. -/
def cellAt (squares : Board) (i : Nat) : Cell := (squares[i]?).getD none

/-- Difficulty tier; every string other than `'friendly'` selects the pro branch. -/
inductive Difficulty where
  | friendly : Difficulty
  | pro : Difficulty
  deriving DecidableEq, Repr

/-- The numbers of the search: integers, `-Infinity` and `Infinity`. -/
inductive Score where
  | negInf : Score
  | fin : Int → Score
  | posInf : Score
  deriving DecidableEq, Repr

/-- The comparison `a <= b` on numbers. -/
def Score.le : Score → Score → Bool
  | Score.negInf, _ => true
  | Score.fin _, Score.negInf => false
  | Score.fin a, Score.fin b => decide (a ≤ b)
  | Score.fin _, Score.posInf => true
  | Score.posInf, Score.posInf => true
  | Score.posInf, _ => false

/-- The comparison `a > b` on numbers. -/
def Score.gt (a b : Score) : Bool := !(Score.le a b)

/-- The function `Math.max(a, b)`. -/
def Score.max (a b : Score) : Score := if Score.le a b then b else a

/-- The function `Math.min(a, b)`. -/
def Score.min (a b : Score) : Score := if Score.le a b then a else b

/-- The table `lines` of `checkWinner`, in scan order. -/
def lines : List (Nat × Nat × Nat) :=
  [(0, 1, 2), (3, 4, 5), (6, 7, 8), (0, 3, 6), (1, 4, 7), (2, 5, 8), (0, 4, 8), (2, 4, 6)]

/-- The scan loop of `checkWinner` over the remaining lines. -/
def checkLines (squares : Board) : List (Nat × Nat × Nat) → Cell
  | [] => none
  | (a, b, c) :: rest =>
    if (cellAt squares a).isSome ∧ cellAt squares a = cellAt squares b
        ∧ cellAt squares a = cellAt squares c then
      cellAt squares a
    else checkLines squares rest

/-- The function `checkWinner(squares)`. -/
def checkWinner (squares : Board) : Cell := checkLines squares lines

/-- The indices of the empty cells of the array from position `start` on. -/
def emptyFrom : Nat → Board → List Nat
  | _, [] => []
  | start, none :: rest => start :: emptyFrom (start + 1) rest
  | start, some _ :: rest => emptyFrom (start + 1) rest

/-- The function `getEmptySquares(squares)`: indices holding `null`, ascending. -/
def getEmptySquares (squares : Board) : List Nat := emptyFrom 0 squares

/-- The function `isBoardFull(squares)`. -/
def isBoardFull (squares : Board) : Bool := squares.all (fun square => square.isSome)

/-- The maximizing `for` loop of `minimax`; `search sq alpha beta` is the recursive call
`minimax(squares, depth + 1, false, alpha, beta, ...)` on the current array. -/
def maxLoop (search : Board → Score → Score → Option (Board × Score)) (botPlayer : Mark)
    (beta : Score) : List Nat → Board → Score → Score → Option (Board × Score)
  | [], squares, maxScore, _ => some (squares, maxScore)
  | idx :: rest, squares, maxScore, alpha =>
    match search (squares.set idx (some botPlayer)) alpha beta with
    | none => none
    | some (squares1, score) =>
      let squares2 := squares1.set idx none
      let maxScore1 := Score.max score maxScore
      let alpha1 := Score.max alpha score
      if Score.le beta alpha1 then some (squares2, maxScore1)
      else maxLoop search botPlayer beta rest squares2 maxScore1 alpha1

/-- The minimizing `for` loop of `minimax`; `search sq alpha beta` is the recursive call
`minimax(squares, depth + 1, true, alpha, beta, ...)` on the current array. -/
def minLoop (search : Board → Score → Score → Option (Board × Score)) (humanPlayer : Mark)
    (alpha : Score) : List Nat → Board → Score → Score → Option (Board × Score)
  | [], squares, minScore, _ => some (squares, minScore)
  | idx :: rest, squares, minScore, beta =>
    match search (squares.set idx (some humanPlayer)) alpha beta with
    | none => none
    | some (squares1, score) =>
      let squares2 := squares1.set idx none
      let minScore1 := Score.min score minScore
      let beta1 := Score.min beta score
      if Score.le beta1 alpha then some (squares2, minScore1)
      else minLoop search humanPlayer alpha rest squares2 minScore1 beta1

/-- The function `minimax(squares, depth, isMaximizing, alpha, beta, botPlayer, humanPlayer)`
with a recursion budget; the result pairs the array as the call leaves it with the score. -/
def minimax : Nat → Board → Nat → Bool → Score → Score → Mark → Mark → Option (Board × Score)
  | 0, _, _, _, _, _, _, _ => none
  | fuel + 1, squares, depth, isMaximizing, alpha, beta, botPlayer, humanPlayer =>
    let winner := checkWinner squares
    if winner = some botPlayer then some (squares, Score.fin (10 - (depth : Int)))
    else if winner = some humanPlayer then some (squares, Score.fin ((depth : Int) - 10))
    else if isBoardFull squares then some (squares, Score.fin 0)
    else if isMaximizing then
      maxLoop (fun sq a b => minimax fuel sq (depth + 1) false a b botPlayer humanPlayer)
        botPlayer beta (getEmptySquares squares) squares Score.negInf alpha
    else
      minLoop (fun sq a b => minimax fuel sq (depth + 1) true a b botPlayer humanPlayer)
        humanPlayer alpha (getEmptySquares squares) squares Score.posInf beta

/-- What a move selector hands back: a cell index, `null`, or `undefined` (an array read
past the end). -/
inductive Answer where
  | cell : Nat → Answer
  | null : Answer
  | undefined : Answer
  deriving DecidableEq, Repr

/-- The exponent `e` of the binade `[2^e, 2^(e+1))` of a positive number, and the least
normal exponent `-1022` for the numbers below `2^-1022` (the subnormal range). -/
def doubleExp (x : ℚ) : Int := max (Int.log 2 x) (-1022)

/-- The spacing of the doubles in the binade of `x`: the significand has 52 fraction bits. -/
def doubleUlp (x : ℚ) : ℚ := (2 : ℚ) ^ (doubleExp x - 52)

/-- The nearest integer, a tie going to the even one. -/
def roundHalfEven (q : ℚ) : Int :=
  if q - ⌊q⌋ < 1 / 2 then ⌊q⌋
  else if 1 / 2 < q - ⌊q⌋ then ⌊q⌋ + 1
  else if ⌊q⌋ % 2 = 0 then ⌊q⌋ else ⌊q⌋ + 1

/-- The double nearest to a nonnegative number below `2^1024`, ties to even: the value of
a decimal literal and of an arithmetic result. -/
def roundDouble (x : ℚ) : ℚ := (roundHalfEven (x / doubleUlp x) : ℚ) * doubleUlp x

/-- The array read `arr[i]` of an index array at a computed integer position. -/
def elemAt (arr : List Nat) (i : Int) : Answer :=
  if i < 0 then Answer.undefined
  else
    match arr[i.toNat]? with
    | some v => Answer.cell v
    | none => Answer.undefined

/-- The loop of `findWinningMove` over the remaining empty squares. -/
def findWinningLoop (squares : Board) (player : Mark) : List Nat → Option Nat
  | [] => none
  | idx :: rest =>
    let testSquares := squares.set idx (some player)
    if checkWinner testSquares = some player then some idx
    else findWinningLoop squares player rest

/-- The function `findWinningMove(squares, player)`; `none` is the result `null`. -/
def findWinningMove (squares : Board) (player : Mark) : Option Nat :=
  findWinningLoop squares player (getEmptySquares squares)

/-- The function `getFriendlyMove(squares, botPlayer, humanPlayer)`; `rnd k` is the value of
the `k`-th call of `Math.random()` made by the JavaScript call (counted from 0). -/
def getFriendlyMove (squares : Board) (botPlayer humanPlayer : Mark) (rnd : Nat → ℚ) :
    Answer :=
  let emptySquares := getEmptySquares squares
  let winMove :=
    if rnd 0 > roundDouble (3 / 10) then findWinningMove squares botPlayer else none
  match winMove with
  | some m => Answer.cell m
  | none =>
    let blockMove :=
      if rnd 1 > roundDouble (4 / 10) then findWinningMove squares humanPlayer else none
    match blockMove with
    | some m => Answer.cell m
    | none =>
      if squares[4]? = some none ∧ rnd 2 > roundDouble (5 / 10) then Answer.cell 4
      else
        let used := if squares[4]? = some none then 3 else 2
        let corners := [0, 2, 6, 8].filter (fun idx => squares[idx]? = some none)
        if corners.length > 0 ∧ rnd used > roundDouble (6 / 10) then
          elemAt corners ⌊roundDouble (rnd (used + 1) * (corners.length : ℚ))⌋
        else
          let used1 := if corners.length > 0 then used + 1 else used
          elemAt emptySquares ⌊roundDouble (rnd used1 * (emptySquares.length : ℚ))⌋

/-- The `for` loop of `getProMove`; `minimax` runs on the copy `[...squares]`, so the array
it leaves behind is dropped. -/
def proLoop (fuel : Nat) (botPlayer humanPlayer : Mark) :
    List Nat → Board → Score → Answer → Option (Board × Answer)
  | [], squares, _, bestMove => some (squares, bestMove)
  | idx :: rest, squares, bestScore, bestMove =>
    let squares1 := squares.set idx (some botPlayer)
    match minimax fuel squares1 0 false Score.negInf Score.posInf botPlayer humanPlayer with
    | none => none
    | some (_, score) =>
      let squares2 := squares1.set idx none
      if Score.gt score bestScore then
        proLoop fuel botPlayer humanPlayer rest squares2 score (Answer.cell idx)
      else proLoop fuel botPlayer humanPlayer rest squares2 bestScore bestMove

/-- The function `getProMove(squares, botPlayer, humanPlayer)`: the array as the call leaves
it, and the move. -/
def getProMove (squares : Board) (botPlayer humanPlayer : Mark) : Option (Board × Answer) :=
  let emptySquares := getEmptySquares squares
  proLoop (squares.length + 1) botPlayer humanPlayer emptySquares squares Score.negInf
    (elemAt emptySquares 0)

/-- The function `getBestMove(squares, botPlayer, humanPlayer, difficulty)`: the array as the
call leaves it, and the move. -/
def getBestMove (squares : Board) (botPlayer humanPlayer : Mark) (difficulty : Difficulty)
    (rnd : Nat → ℚ) : Option (Board × Answer) :=
  let emptySquares := getEmptySquares squares
  if emptySquares.length = 0 then some (squares, Answer.null)
  else if emptySquares.length = 9 then
    some (squares, elemAt [0, 2, 4, 6, 8] ⌊roundDouble (rnd 0 * 5)⌋)
  else if difficulty = Difficulty.friendly then
    some (squares, getFriendlyMove squares botPlayer humanPlayer rnd)
  else getProMove squares botPlayer humanPlayer

/-- The empty starting board `Array(9).fill(null)`. -/
def emptyBoard : Board := List.replicate 9 none

/-- A random source is admissible when every draw is a double of `[0, 1)`: a number is a
double when rounding leaves it unchanged. -/
def validRnd (rnd : Nat → ℚ) : Prop :=
  ∀ k, 0 ≤ rnd k ∧ rnd k < 1 ∧ roundDouble (rnd k) = rnd k

/-- Positions of a game between the pro-tier bot and an arbitrary human continued from the
position `start` (with the bot to move there iff `startBotToMove`), as the controller drives
it: moves alternate and are made only while no winner exists, each bot move being an answer
of `getBestMove` at difficulty pro, placed on the array as the call left it, and each human
move filling any empty cell. -/
inductive PlayFrom (botPlayer humanPlayer : Mark) (start : Board) (startBotToMove : Bool) :
    Board → Bool → Prop where
  | here : PlayFrom botPlayer humanPlayer start startBotToMove start startBotToMove
  | human (squares : Board) (i : Nat) :
      PlayFrom botPlayer humanPlayer start startBotToMove squares false →
      checkWinner squares = none → i ∈ getEmptySquares squares →
      PlayFrom botPlayer humanPlayer start startBotToMove
        (squares.set i (some humanPlayer)) true
  | bot (squares squares1 : Board) (i : Nat) (rnd : Nat → ℚ) :
      PlayFrom botPlayer humanPlayer start startBotToMove squares true →
      checkWinner squares = none → validRnd rnd →
      getBestMove squares botPlayer humanPlayer Difficulty.pro rnd
        = some (squares1, Answer.cell i) →
      PlayFrom botPlayer humanPlayer start startBotToMove
        (squares1.set i (some botPlayer)) false

/-- Positions of a game between the pro-tier bot and an arbitrary human played from the empty
board, either side moving first. -/
def Play (botPlayer humanPlayer : Mark) (squares : Board) (botToMove : Bool) : Prop :=
  ∃ botFirst, PlayFrom botPlayer humanPlayer emptyBoard botFirst squares botToMove

/-- Positions reached from the empty board by legal alternating play, either side moving
first: each move fills an empty cell with the mover's mark and is made only while no winner
exists. -/
inductive LegalPlay (botPlayer humanPlayer : Mark) : Board → Bool → Prop where
  | start (botFirst : Bool) : LegalPlay botPlayer humanPlayer emptyBoard botFirst
  | human (squares : Board) (i : Nat) :
      LegalPlay botPlayer humanPlayer squares false →
      checkWinner squares = none → i ∈ getEmptySquares squares →
      LegalPlay botPlayer humanPlayer (squares.set i (some humanPlayer)) true
  | bot (squares : Board) (i : Nat) :
      LegalPlay botPlayer humanPlayer squares true →
      checkWinner squares = none → i ∈ getEmptySquares squares →
      LegalPlay botPlayer humanPlayer (squares.set i (some botPlayer)) false

/-- The order of the numbers, read off the comparison `Score.le`. -/
instance : LinearOrder Score where
  le a b := Score.le a b = true
  le_refl a := by cases a <;> simp [Score.le]
  le_trans a b c := by
    cases a <;> cases b <;> cases c <;> simp [Score.le]
    omega
  le_antisymm a b := by
    cases a <;> cases b <;> simp [Score.le]
    omega
  le_total a b := by
    cases a <;> cases b <;> simp [Score.le]
    omega
  decidableLE a b := inferInstanceAs (Decidable (Score.le a b = true))

/-- The score computed by the maximizing loop of `minimax`, the array left out; `child idx
alpha beta` is the score of the recursive call made for the empty square `idx`. -/
def maxLoopV (child : Nat → Score → Score → Score) (beta : Score) :
    List Nat → Score → Score → Score
  | [], maxScore, _ => maxScore
  | idx :: rest, maxScore, alpha =>
    let score := child idx alpha beta
    let maxScore1 := Score.max score maxScore
    let alpha1 := Score.max alpha score
    if Score.le beta alpha1 then maxScore1 else maxLoopV child beta rest maxScore1 alpha1

/-- The score computed by the minimizing loop of `minimax`, the array left out. -/
def minLoopV (child : Nat → Score → Score → Score) (alpha : Score) :
    List Nat → Score → Score → Score
  | [], minScore, _ => minScore
  | idx :: rest, minScore, beta =>
    let score := child idx alpha beta
    let minScore1 := Score.min score minScore
    let beta1 := Score.min beta score
    if Score.le beta1 alpha then minScore1 else minLoopV child alpha rest minScore1 beta1

/-- The score of `minimax` as a function of its arguments alone (every recursive call is
made on the caller's array with one more square filled); `Score.fin 0` once the budget is
used up. -/
def minimaxScore : Nat → Board → Nat → Bool → Score → Score → Mark → Mark → Score
  | 0, _, _, _, _, _, _, _ => Score.fin 0
  | fuel + 1, squares, depth, isMaximizing, alpha, beta, botPlayer, humanPlayer =>
    let winner := checkWinner squares
    if winner = some botPlayer then Score.fin (10 - (depth : Int))
    else if winner = some humanPlayer then Score.fin ((depth : Int) - 10)
    else if isBoardFull squares then Score.fin 0
    else if isMaximizing then
      maxLoopV (fun idx a b => minimaxScore fuel (squares.set idx (some botPlayer))
          (depth + 1) false a b botPlayer humanPlayer)
        beta (getEmptySquares squares) Score.negInf alpha
    else
      minLoopV (fun idx a b => minimaxScore fuel (squares.set idx (some humanPlayer))
          (depth + 1) true a b botPlayer humanPlayer)
        alpha (getEmptySquares squares) Score.posInf beta

/-- The unpruned recursion: the terminal scores of `minimax`, the maximum over all empty
squares when the bot moves and the minimum over all empty squares when the human moves;
`Score.fin 0` once the budget is used up. -/
def plainMinimax : Nat → Board → Nat → Bool → Mark → Mark → Score
  | 0, _, _, _, _, _ => Score.fin 0
  | fuel + 1, squares, depth, isMaximizing, botPlayer, humanPlayer =>
    let winner := checkWinner squares
    if winner = some botPlayer then Score.fin (10 - (depth : Int))
    else if winner = some humanPlayer then Score.fin ((depth : Int) - 10)
    else if isBoardFull squares then Score.fin 0
    else if isMaximizing then
      (getEmptySquares squares).foldl
        (fun acc idx => max acc (plainMinimax fuel (squares.set idx (some botPlayer))
          (depth + 1) false botPlayer humanPlayer))
        Score.negInf
    else
      (getEmptySquares squares).foldl
        (fun acc idx => min acc (plainMinimax fuel (squares.set idx (some humanPlayer))
          (depth + 1) true botPlayer humanPlayer))
        Score.posInf

/-- The move kept by the `for` loop of `getProMove` when `score idx` is the score found for
the empty square `idx`. -/
def pickBest (score : Nat → Score) : List Nat → Score → Answer → Answer
  | [], _, bestMove => bestMove
  | idx :: rest, bestScore, bestMove =>
    if Score.gt (score idx) bestScore then pickBest score rest (score idx) (Answer.cell idx)
    else pickBest score rest bestScore bestMove

/-- The score `getProMove` computes for the empty square `idx`: `minimax` on the array with
the bot's mark in `idx`, depth 0, human to move, full window. -/
def rootScore (squares : Board) (botPlayer humanPlayer : Mark) (idx : Nat) : Score :=
  minimaxScore (squares.length + 1) (squares.set idx (some botPlayer)) 0 false
    Score.negInf Score.posInf botPlayer humanPlayer

/-- The three cells of a line all hold the mark `m`. -/
def lineHeld (squares : Board) (l : Nat × Nat × Nat) (m : Mark) : Prop :=
  cellAt squares l.1 = some m ∧ cellAt squares l.2.1 = some m ∧ cellAt squares l.2.2 = some m

instance (squares : Board) (l : Nat × Nat × Nat) (m : Mark) : Decidable (lineHeld squares l m) :=
  inferInstanceAs (Decidable (_ ∧ _ ∧ _))

/-- What a search with window `(a, b)` promises about its result `r` when the exact value is
`v`: a result at or below `a` is an upper bound of `v`, a result at or above `b` is a lower
bound of `v`, and a result strictly inside the window is `v`. -/
def WindowSound {α : Type} [LinearOrder α] (r v a b : α) : Prop :=
  (r ≤ a → v ≤ r) ∧ (b ≤ r → r ≤ v) ∧ (a < r → r < b → r = v)

/-- The human can force a win from `squares` within the budget: the position is already won
by the human, or it is undecided and either the human is to move and some move leads to a
forced win, or the bot is to move and every move of the bot leads to one. -/
def humanForcesWin : Nat → Board → Bool → Mark → Mark → Bool
  | 0, _, _, _, _ => false
  | fuel + 1, squares, humanToMove, botPlayer, humanPlayer =>
    if checkWinner squares = some botPlayer then false
    else if checkWinner squares = some humanPlayer then true
    else if isBoardFull squares then false
    else if humanToMove then
      (getEmptySquares squares).any
        (fun idx => humanForcesWin fuel (squares.set idx (some humanPlayer)) false
          botPlayer humanPlayer)
    else
      (getEmptySquares squares).all
        (fun idx => humanForcesWin fuel (squares.set idx (some botPlayer)) true
          botPlayer humanPlayer)

/-- The cell holds the mark `m`. -/
def holds : Mark → Cell → Bool
  | Mark.X, some Mark.X => true
  | Mark.O, some Mark.O => true
  | _, _ => false

/-- The three cells all hold the mark `m`. -/
def line3 (m : Mark) (a b c : Cell) : Bool := holds m a && (holds m b && holds m c)

/-- Some line of a nine-cell board is held by `m`. -/
def wins (m : Mark) : Board → Bool
  | [c0, c1, c2, c3, c4, c5, c6, c7, c8] =>
    line3 m c0 c1 c2 || (line3 m c3 c4 c5 || (line3 m c6 c7 c8 || (line3 m c0 c3 c6 ||
    (line3 m c1 c4 c7 || (line3 m c2 c5 c8 || (line3 m c0 c4 c8 || line3 m c2 c4 c6))))))
  | _ => false

/-- The cell at index `i` exists and is empty. -/
def isEmptyAt : Nat → Board → Bool
  | 0, none :: _ => true
  | i + 1, _ :: cs => isEmptyAt i cs
  | _, _ => false

/-- Hands the cell, evaluated, to the continuation. -/
def forceCell {β : Type} : Cell → (Cell → β) → β
  | none, k => k none
  | some Mark.X, k => k (some Mark.X)
  | some Mark.O, k => k (some Mark.O)

/-- Hands the board, evaluated cell by cell, to the continuation. -/
def forceBoard {β : Type} : Board → (Board → β) → β
  | [], k => k []
  | c :: cs, k => forceCell c (fun c1 => forceBoard cs (fun cs1 => k (c1 :: cs1)))

/-- The order in which the checker tries the cells: centre, corners, edges. -/
def tryOrder : List Nat := [4, 0, 2, 6, 8, 1, 3, 5, 7]

/-- A sufficient test that the human cannot force a win: no line is held by the human and,
unless the bot already holds a line, every move of the human (some move of the bot) leads
to a position passing the test. -/
def botSafe : Nat → Board → Bool → Mark → Mark → Bool
  | 0, _, _, _, _ => false
  | fuel + 1, squares, humanToMove, botPlayer, humanPlayer =>
    forceBoard squares (fun b =>
      if wins humanPlayer b then false
      else if wins botPlayer b then true
      else if humanToMove then
        tryOrder.all (fun i => !isEmptyAt i b ||
          botSafe fuel (b.set i (some humanPlayer)) false botPlayer humanPlayer)
      else
        isBoardFull b || tryOrder.any (fun i => isEmptyAt i b &&
          botSafe fuel (b.set i (some botPlayer)) true botPlayer humanPlayer))

/-! ## Concrete boards -/

/-- The board `[X, X, X, O, O, O, _, _, _]`. -/
def twoLinesBoard : Board :=
  [some Mark.X, some Mark.X, some Mark.X, some Mark.O, some Mark.O, some Mark.O,
    none, none, none]

/-- The board `[X, O, _, X, X, _, _, _, O]`, reached by X0, O1, X4, O8, X3. -/
def forkBoard : Board :=
  [some Mark.X, some Mark.O, none, some Mark.X, some Mark.X, none, none, none, some Mark.O]

/-- The full board `[X, O, X, X, O, O, O, X, X]`, without winner. -/
def drawnBoard : Board :=
  [some Mark.X, some Mark.O, some Mark.X, some Mark.X, some Mark.O, some Mark.O,
    some Mark.O, some Mark.X, some Mark.X]

/-- The board `[O, O, _, X, X, _, _, _, _]`. -/
def bothThreatsBoard : Board :=
  [some Mark.O, some Mark.O, none, some Mark.X, some Mark.X, none, none, none, none]

/-- The board `[X, X, _, _, O, _, _, _, _]`. -/
def blockBoard : Board :=
  [some Mark.X, some Mark.X, none, none, some Mark.O, none, none, none, none]

/-- The board `[X, O, X, X, O, O, O, X, _]`, with one empty cell. -/
def lastCellBoard : Board :=
  [some Mark.X, some Mark.O, some Mark.X, some Mark.X, some Mark.O, some Mark.O,
    some Mark.O, some Mark.X, none]

/-! ## Nested calls, renamings and further concrete data -/

/-- The recursive calls one activation of `minimax` can make: on an undecided board, for an
empty square `idx`, the call on the array with the mover's mark in `idx`, one ply deeper and
with the other side to move. Pruning only leaves some of them out. A call is the triple of
its array, its depth and its `isMaximizing` flag. -/
inductive MinimaxCall (botPlayer humanPlayer : Mark) :
    Board × Nat × Bool → Board × Nat × Bool → Prop where
  | maxCall (squares : Board) (depth idx : Nat) :
      checkWinner squares ≠ some botPlayer → checkWinner squares ≠ some humanPlayer →
      isBoardFull squares = false → idx ∈ getEmptySquares squares →
      MinimaxCall botPlayer humanPlayer (squares, depth, true)
        (squares.set idx (some botPlayer), depth + 1, false)
  | minCall (squares : Board) (depth idx : Nat) :
      checkWinner squares ≠ some botPlayer → checkWinner squares ≠ some humanPlayer →
      isBoardFull squares = false → idx ∈ getEmptySquares squares →
      MinimaxCall botPlayer humanPlayer (squares, depth, false)
        (squares.set idx (some humanPlayer), depth + 1, true)

/-- Draws that make the first two coin flips of the friendly tier fail: 0, 0, then 1/2. -/
def skipRnd : Nat → ℚ := fun k => if k < 2 then 0 else 1 / 2

/-- Every draw is the double `0.6`, that is `5404319552844595 / 2^53`, just below 3/5: its
product with 5 rounds to the double 3. -/
def sixTenthsRnd : Nat → ℚ := fun _ => 5404319552844595 / 9007199254740992

/-- The draws 0, then the double `0.4`, that is `3602879701896397 / 2^53`, then 1/2. -/
def fourTenthsRnd : Nat → ℚ :=
  fun k => if k = 0 then 0 else if k = 1 then 3602879701896397 / 9007199254740992 else 1 / 2

/-- The board `[X, O, X, _, _, _, _, _, _]`. -/
def lastStepBoard : Board :=
  [some Mark.X, some Mark.O, some Mark.X, none, none, none, none, none, none]

/-- The draws 0, 0, 1/4, 1/2, then the double `0.8333333333333333`, that is
`3752999689475413 / 2^52`, just below 5/6: its product with 6 rounds to the double 5. -/
def lastStepRnd : Nat → ℚ :=
  fun k => if k < 2 then 0 else if k = 2 then 1 / 4 else if k = 3 then 1 / 2
    else 3752999689475413 / 4503599627370496

/-- The board with every mark renamed by `s`. -/
def renameBoard (s : Mark → Mark) (squares : Board) : Board := squares.map (Option.map s)

/-- The array `corners` of `getFriendlyMove`: the empty cells among 0, 2, 6, 8, in that
order. -/
def emptyCorners (squares : Board) : List Nat :=
  [0, 2, 6, 8].filter (fun idx => squares[idx]? = some none)

/-- The number of draws `getFriendlyMove` has made when it reaches the corner step: the two
coin flips of steps 1 and 2, and the flip of step 3 when the centre is empty. -/
def drawsBeforeCorners (squares : Board) : Nat := if squares[4]? = some none then 3 else 2

/-- The number of draws `getFriendlyMove` has made when it reaches the last step: the flip
of step 4 is made only when a corner is empty. -/
def drawsBeforeLast (squares : Board) : Nat :=
  if (emptyCorners squares).length > 0 then drawsBeforeCorners squares + 1
  else drawsBeforeCorners squares

/-! ## Reads, writes and the list of empty squares -/

theorem cellAt_set_ne (b : Board) (i j : Nat) (v : Cell) (h : i ≠ j) :
    cellAt (b.set i v) j = cellAt b j := by
  simp [cellAt, List.getElem?_set_ne h]

theorem cellAt_set_self (b : Board) (i : Nat) (v : Cell) (h : i < b.length) :
    cellAt (b.set i v) i = v := by
  simp [cellAt, h]

theorem cellAt_of_getElem? (b : Board) (i : Nat) (c : Cell) (h : b[i]? = some c) :
    cellAt b i = c := by
  simp [cellAt, h]

theorem mem_emptyFrom (b : Board) :
    ∀ (s i : Nat), i ∈ emptyFrom s b ↔ s ≤ i ∧ b[i - s]? = some none := by
  induction b with
  | nil => intro s i; simp [emptyFrom]
  | cons c rest ih =>
    intro s i
    have key : ∀ j, s + 1 ≤ j → (c :: rest)[j - s]? = rest[j - (s + 1)]? := by
      intro j hj
      have : j - s = (j - (s + 1)) + 1 := by omega
      rw [this, List.getElem?_cons_succ]
    cases c with
    | none =>
      simp only [emptyFrom, List.mem_cons, ih]
      constructor
      · rintro (rfl | ⟨h1, h2⟩)
        · simp
        · exact ⟨by omega, by rw [key i h1]; exact h2⟩
      · rintro ⟨h1, h2⟩
        by_cases hi : i = s
        · exact Or.inl hi
        · right
          have h3 : s + 1 ≤ i := by omega
          exact ⟨h3, by rw [← key i h3]; exact h2⟩
    | some m =>
      simp only [emptyFrom, ih]
      constructor
      · rintro ⟨h1, h2⟩
        exact ⟨by omega, by rw [key i h1]; exact h2⟩
      · rintro ⟨h1, h2⟩
        by_cases hi : i = s
        · subst hi; simp at h2
        · have h3 : s + 1 ≤ i := by omega
          exact ⟨h3, by rw [← key i h3]; exact h2⟩

theorem mem_getEmptySquares (b : Board) (i : Nat) :
    i ∈ getEmptySquares b ↔ b[i]? = some none := by
  simp [getEmptySquares, mem_emptyFrom]

theorem emptyFrom_sorted (b : Board) : ∀ s, (emptyFrom s b).Pairwise (fun x y => x < y) := by
  induction b with
  | nil => intro s; simp [emptyFrom]
  | cons c rest ih =>
    intro s
    cases c with
    | none =>
      simp only [emptyFrom, List.pairwise_cons]
      refine ⟨?_, ih (s + 1)⟩
      intro x hx
      have := (mem_emptyFrom rest (s + 1) x).1 hx
      omega
    | some m => simpa [emptyFrom] using ih (s + 1)

theorem getEmptySquares_sorted (b : Board) :
    (getEmptySquares b).Pairwise (fun x y => x < y) := emptyFrom_sorted b 0

theorem lt_length_of_getElem? {b : Board} {i : Nat} {c : Cell} (h : b[i]? = some c) :
    i < b.length := by
  rcases List.getElem?_eq_some.1 h with ⟨h1, _⟩
  exact h1

theorem set_restore (b : Board) (i : Nat) (v : Cell) (h : b[i]? = some none) :
    (b.set i v).set i none = b := by
  rw [List.set_set]
  apply List.ext_getElem?
  intro j
  by_cases hij : i = j
  · subst hij
    rw [List.getElem?_set_self (lt_length_of_getElem? h), h]
  · rw [List.getElem?_set_ne hij]

theorem isBoardFull_eq_true_iff (b : Board) :
    isBoardFull b = true ↔ getEmptySquares b = [] := by
  unfold isBoardFull getEmptySquares
  generalize 0 = s
  induction b generalizing s with
  | nil => simp [emptyFrom]
  | cons c rest ih =>
    cases c with
    | none => simp [emptyFrom]
    | some m => simpa [emptyFrom] using ih (s + 1)

theorem isBoardFull_eq_false_iff (b : Board) :
    isBoardFull b = false ↔ getEmptySquares b ≠ [] := by
  rw [Ne, ← isBoardFull_eq_true_iff]; simp

theorem emptyFrom_length_set (b : Board) (m : Mark) :
    ∀ (s i : Nat), b[i]? = some none →
      (emptyFrom s (b.set i (some m))).length + 1 = (emptyFrom s b).length := by
  induction b with
  | nil => intro s i h; simp at h
  | cons c rest ih =>
    intro s i h
    have indep : ∀ (l : Board) (s t : Nat), (emptyFrom s l).length = (emptyFrom t l).length := by
      intro l
      induction l with
      | nil => intro s t; simp [emptyFrom]
      | cons d l ihl =>
        intro s t
        cases d with
        | none => simp [emptyFrom, ihl (s + 1) (t + 1)]
        | some m => simp [emptyFrom, ihl (s + 1) (t + 1)]
    cases i with
    | zero =>
      simp at h
      subst h
      simp [emptyFrom]
    | succ j =>
      simp at h
      have := ih (s + 1) j h
      cases c with
      | none => simp [emptyFrom]; omega
      | some m => simp [emptyFrom]; omega

theorem getEmptySquares_length_set (b : Board) (m : Mark) (i : Nat) (h : b[i]? = some none) :
    (getEmptySquares (b.set i (some m))).length + 1 = (getEmptySquares b).length :=
  emptyFrom_length_set b m 0 i h

theorem mem_getEmptySquares_set (b : Board) (m : Mark) (i j : Nat) (hi : i < b.length) :
    j ∈ getEmptySquares (b.set i (some m)) ↔ j ≠ i ∧ j ∈ getEmptySquares b := by
  rw [mem_getEmptySquares, mem_getEmptySquares]
  by_cases hij : i = j
  · subst hij
    rw [List.getElem?_set_self hi]
    simp
  · rw [List.getElem?_set_ne hij]
    constructor
    · intro h; exact ⟨fun h' => hij h'.symm, h⟩
    · intro h; exact h.2

theorem getEmptySquares_length_le (b : Board) : (getEmptySquares b).length ≤ b.length := by
  unfold getEmptySquares
  generalize 0 = s
  induction b generalizing s with
  | nil => simp [emptyFrom]
  | cons c rest ih =>
    cases c with
    | none => simp [emptyFrom]; exact ih (s + 1)
    | some m => simp [emptyFrom]; have := ih (s + 1); omega

/-! ## The order on scores -/

theorem score_le_iff(a b : Score) : Score.le a b = true ↔ a ≤ b := Iff.rfl

theorem score_max_eq (a b : Score) : Score.max a b = max a b := by
  unfold Score.max
  rcases le_or_lt a b with h | h
  · rw [max_eq_right h]; exact if_pos h
  · rw [max_eq_left h.le]; exact if_neg (not_le.2 h)

theorem score_min_eq (a b : Score) : Score.min a b = min a b := by
  unfold Score.min
  rcases le_or_lt a b with h | h
  · rw [min_eq_left h]; exact if_pos h
  · rw [min_eq_right h.le]; exact if_neg (not_le.2 h)

theorem score_gt_iff (a b : Score) : Score.gt a b = true ↔ b < a := by
  unfold Score.gt
  rw [← not_le]
  show (!Score.le a b) = true ↔ ¬ (Score.le a b = true)
  simp

theorem score_fin_le_fin (x y : Int) : Score.fin x ≤ Score.fin y ↔ x ≤ y := by
  show Score.le _ _ = true ↔ _
  simp [Score.le]

theorem score_fin_lt_fin (x y : Int) : Score.fin x < Score.fin y ↔ x < y := by
  rw [← not_le, ← not_le, score_fin_le_fin]

theorem score_negInf_le (a : Score) : Score.negInf ≤ a := by
  show Score.le _ _ = true
  cases a <;> rfl

theorem score_le_posInf (a : Score) : a ≤ Score.posInf := by
  show Score.le _ _ = true
  cases a <;> rfl

theorem score_negInf_lt_fin (x : Int) : Score.negInf < Score.fin x := by
  rw [← not_le]; show ¬ (Score.le _ _ = true); simp [Score.le]

theorem score_fin_lt_posInf (x : Int) : Score.fin x < Score.posInf := by
  rw [← not_le]; show ¬ (Score.le _ _ = true); simp [Score.le]

/-! ## The search leaves the array as it found it -/

theorem maxLoop_frame (search : Board → Score → Score → Option (Board × Score))
    (botPlayer : Mark) (beta : Score) (b : Board)
    (hs : ∀ sq a bt sq1 v, search sq a bt = some (sq1, v) → sq1 = sq) :
    ∀ (l : List Nat) (ms a : Score) (b1 : Board) (v : Score),
      (∀ idx ∈ l, b[idx]? = some none) →
      maxLoop search botPlayer beta l b ms a = some (b1, v) → b1 = b := by
  intro l
  induction l with
  | nil =>
    intro ms a b1 v _ h
    simp only [maxLoop, Option.some.injEq, Prod.mk.injEq] at h
    exact h.1.symm
  | cons idx rest ih =>
    intro ms a b1 v hl h
    simp only [maxLoop] at h
    cases hsr : search (b.set idx (some botPlayer)) a beta with
    | none => rw [hsr] at h; simp at h
    | some r =>
      obtain ⟨sq1, score⟩ := r
      rw [hsr] at h
      have e1 : sq1 = b.set idx (some botPlayer) := hs _ _ _ _ _ hsr
      have e2 : sq1.set idx none = b := by
        rw [e1]; exact set_restore b idx _ (hl idx (List.mem_cons_self _ _))
      simp only [e2] at h
      split at h
      · simp only [Option.some.injEq, Prod.mk.injEq] at h
        exact h.1.symm
      · exact ih _ _ _ _ (fun j hj => hl j (List.mem_cons_of_mem _ hj)) h

theorem minLoop_frame (search : Board → Score → Score → Option (Board × Score))
    (humanPlayer : Mark) (alpha : Score) (b : Board)
    (hs : ∀ sq a bt sq1 v, search sq a bt = some (sq1, v) → sq1 = sq) :
    ∀ (l : List Nat) (ms bt : Score) (b1 : Board) (v : Score),
      (∀ idx ∈ l, b[idx]? = some none) →
      minLoop search humanPlayer alpha l b ms bt = some (b1, v) → b1 = b := by
  intro l
  induction l with
  | nil =>
    intro ms bt b1 v _ h
    simp only [minLoop, Option.some.injEq, Prod.mk.injEq] at h
    exact h.1.symm
  | cons idx rest ih =>
    intro ms bt b1 v hl h
    simp only [minLoop] at h
    cases hsr : search (b.set idx (some humanPlayer)) alpha bt with
    | none => rw [hsr] at h; simp at h
    | some r =>
      obtain ⟨sq1, score⟩ := r
      rw [hsr] at h
      have e1 : sq1 = b.set idx (some humanPlayer) := hs _ _ _ _ _ hsr
      have e2 : sq1.set idx none = b := by
        rw [e1]; exact set_restore b idx _ (hl idx (List.mem_cons_self _ _))
      simp only [e2] at h
      split at h
      · simp only [Option.some.injEq, Prod.mk.injEq] at h
        exact h.1.symm
      · exact ih _ _ _ _ (fun j hj => hl j (List.mem_cons_of_mem _ hj)) h

/-- Whenever `minimax` returns, whatever the budget, the array is the one it was given. -/
theorem minimax_frame (botPlayer humanPlayer : Mark) :
    ∀ (fuel : Nat) (b : Board) (depth : Nat) (isMax : Bool) (alpha beta : Score)
      (b1 : Board) (v : Score),
      minimax fuel b depth isMax alpha beta botPlayer humanPlayer = some (b1, v) → b1 = b := by
  intro fuel
  induction fuel with
  | zero => intro b depth isMax alpha beta b1 v h; simp [minimax] at h
  | succ fuel ih =>
    intro b depth isMax alpha beta b1 v h
    simp only [minimax] at h
    split at h
    · simp only [Option.some.injEq, Prod.mk.injEq] at h; exact h.1.symm
    · split at h
      · simp only [Option.some.injEq, Prod.mk.injEq] at h; exact h.1.symm
      · split at h
        · simp only [Option.some.injEq, Prod.mk.injEq] at h; exact h.1.symm
        · split at h
          · exact maxLoop_frame _ botPlayer beta b
              (fun sq a bt sq1 v hh => ih sq (depth + 1) false a bt sq1 v hh)
              _ _ _ _ _ (fun idx hidx => (mem_getEmptySquares b idx).1 hidx) h
          · exact minLoop_frame _ humanPlayer alpha b
              (fun sq a bt sq1 v hh => ih sq (depth + 1) true a bt sq1 v hh)
              _ _ _ _ _ (fun idx hidx => (mem_getEmptySquares b idx).1 hidx) h

/-! ## The search returns: its score is `minimaxScore` -/

theorem maxLoop_eq (search : Board → Score → Score → Option (Board × Score))
    (child : Nat → Score → Score → Score) (botPlayer : Mark) (beta : Score) (b : Board) :
    ∀ (l : List Nat) (ms a : Score),
      (∀ idx ∈ l, b[idx]? = some none) →
      (∀ idx ∈ l, ∀ a1 b1, search (b.set idx (some botPlayer)) a1 b1
          = some (b.set idx (some botPlayer), child idx a1 b1)) →
      maxLoop search botPlayer beta l b ms a = some (b, maxLoopV child beta l ms a) := by
  intro l
  induction l with
  | nil => intro ms a _ _; simp [maxLoop, maxLoopV]
  | cons idx rest ih =>
    intro ms a hl hs
    simp only [maxLoop, maxLoopV]
    rw [hs idx (List.mem_cons_self _ _)]
    simp only [set_restore b idx _ (hl idx (List.mem_cons_self _ _))]
    split
    · rfl
    · exact ih _ _ (fun j hj => hl j (List.mem_cons_of_mem _ hj))
        (fun j hj => hs j (List.mem_cons_of_mem _ hj))

theorem minLoop_eq (search : Board → Score → Score → Option (Board × Score))
    (child : Nat → Score → Score → Score) (humanPlayer : Mark) (alpha : Score) (b : Board) :
    ∀ (l : List Nat) (ms bt : Score),
      (∀ idx ∈ l, b[idx]? = some none) →
      (∀ idx ∈ l, ∀ a1 b1, search (b.set idx (some humanPlayer)) a1 b1
          = some (b.set idx (some humanPlayer), child idx a1 b1)) →
      minLoop search humanPlayer alpha l b ms bt = some (b, minLoopV child alpha l ms bt) := by
  intro l
  induction l with
  | nil => intro ms bt _ _; simp [minLoop, minLoopV]
  | cons idx rest ih =>
    intro ms bt hl hs
    simp only [minLoop, minLoopV]
    rw [hs idx (List.mem_cons_self _ _)]
    simp only [set_restore b idx _ (hl idx (List.mem_cons_self _ _))]
    split
    · rfl
    · exact ih _ _ (fun j hj => hl j (List.mem_cons_of_mem _ hj))
        (fun j hj => hs j (List.mem_cons_of_mem _ hj))

/-- With a budget above the number of empty squares `minimax` returns, leaves the array
unchanged and its score is `minimaxScore`. -/
theorem minimax_eq (botPlayer humanPlayer : Mark) :
    ∀ (fuel : Nat) (b : Board) (depth : Nat) (isMax : Bool) (alpha beta : Score),
      (getEmptySquares b).length < fuel →
      minimax fuel b depth isMax alpha beta botPlayer humanPlayer
        = some (b, minimaxScore fuel b depth isMax alpha beta botPlayer humanPlayer) := by
  intro fuel
  induction fuel with
  | zero => intro b depth isMax alpha beta h; omega
  | succ fuel ih =>
    intro b depth isMax alpha beta h
    simp only [minimax, minimaxScore]
    split
    · rfl
    · split
      · rfl
      · split
        · rfl
        · have hrec : ∀ (m : Mark) (idx : Nat), idx ∈ getEmptySquares b →
              (getEmptySquares (b.set idx (some m))).length < fuel := by
            intro m idx hidx
            have := getEmptySquares_length_set b m idx ((mem_getEmptySquares b idx).1 hidx)
            omega
          split
          · exact maxLoop_eq _ _ botPlayer beta b _ _ _
              (fun idx hidx => (mem_getEmptySquares b idx).1 hidx)
              (fun idx hidx a1 b1 => ih _ _ _ _ _ (hrec botPlayer idx hidx))
          · exact minLoop_eq _ _ humanPlayer alpha b _ _ _
              (fun idx hidx => (mem_getEmptySquares b idx).1 hidx)
              (fun idx hidx a1 b1 => ih _ _ _ _ _ (hrec humanPlayer idx hidx))

/-! ## The root loop of the pro tier -/

theorem rootScore_eq (b : Board) (botPlayer humanPlayer : Mark) (idx : Nat) :
    minimax (b.length + 1) (b.set idx (some botPlayer)) 0 false Score.negInf Score.posInf
        botPlayer humanPlayer
      = some (b.set idx (some botPlayer), rootScore b botPlayer humanPlayer idx) := by
  apply minimax_eq
  have := getEmptySquares_length_le (b.set idx (some botPlayer))
  rw [List.length_set] at this
  omega

theorem proLoop_eq (b : Board) (botPlayer humanPlayer : Mark) :
    ∀ (l : List Nat) (bestScore : Score) (bestMove : Answer),
      (∀ idx ∈ l, b[idx]? = some none) →
      proLoop (b.length + 1) botPlayer humanPlayer l b bestScore bestMove
        = some (b, pickBest (rootScore b botPlayer humanPlayer) l bestScore bestMove) := by
  intro l
  induction l with
  | nil => intro bestScore bestMove _; simp [proLoop, pickBest]
  | cons idx rest ih =>
    intro bestScore bestMove hl
    simp only [proLoop, pickBest]
    rw [rootScore_eq]
    simp only [set_restore b idx _ (hl idx (List.mem_cons_self _ _))]
    split
    · exact ih _ _ (fun j hj => hl j (List.mem_cons_of_mem _ hj))
    · exact ih _ _ (fun j hj => hl j (List.mem_cons_of_mem _ hj))

theorem getProMove_eq (b : Board) (botPlayer humanPlayer : Mark) :
    getProMove b botPlayer humanPlayer
      = some (b, pickBest (rootScore b botPlayer humanPlayer) (getEmptySquares b)
          Score.negInf (elemAt (getEmptySquares b) 0)) := by
  unfold getProMove
  exact proLoop_eq b botPlayer humanPlayer _ _ _
    (fun idx hidx => (mem_getEmptySquares b idx).1 hidx)

/-- The loop keeps the first square whose score is strictly above the starting score and not
exceeded later, or the starting move when no score is above the starting score. -/
theorem pickBest_spec (score : Nat → Score) :
    ∀ (l : List Nat) (s : Score) (best : Answer),
      (pickBest score l s best = best ∧ ∀ j ∈ l, score j ≤ s) ∨
      (∃ pre i post, l = pre ++ i :: post ∧ pickBest score l s best = Answer.cell i ∧
        s < score i ∧ (∀ j ∈ pre, score j < score i) ∧ (∀ j ∈ post, score j ≤ score i)) := by
  intro l
  induction l with
  | nil => intro s best; left; simp [pickBest]
  | cons idx rest ih =>
    intro s best
    simp only [pickBest]
    by_cases hgt : Score.gt (score idx) s = true
    · rw [if_pos hgt]
      have hlt : s < score idx := (score_gt_iff _ _).1 hgt
      right
      rcases ih (score idx) (Answer.cell idx) with ⟨h1, h2⟩ | ⟨pre, i, post, hl, h1, h2, h3, h4⟩
      · exact ⟨[], idx, rest, rfl, h1, hlt, by simp, h2⟩
      · refine ⟨idx :: pre, i, post, by simp [hl], h1, lt_trans hlt h2, ?_, h4⟩
        intro j hj
        rcases List.mem_cons.1 hj with rfl | hj
        · exact h2
        · exact h3 j hj
    · rw [if_neg hgt]
      have hle : score idx ≤ s := by
        rw [score_gt_iff] at hgt
        exact not_lt.1 hgt
      rcases ih s best with ⟨h1, h2⟩ | ⟨pre, i, post, hl, h1, h2, h3, h4⟩
      · left
        refine ⟨h1, ?_⟩
        intro j hj
        rcases List.mem_cons.1 hj with rfl | hj
        · exact hle
        · exact h2 j hj
      · right
        refine ⟨idx :: pre, i, post, by simp [hl], h1, h2, ?_, h4⟩
        intro j hj
        rcases List.mem_cons.1 hj with rfl | hj
        · exact lt_of_le_of_lt hle h2
        · exact h3 j hj

theorem elemAt_zero_cons (i : Nat) (l : List Nat) : elemAt (i :: l) 0 = Answer.cell i := by
  simp [elemAt]

/-- On a sorted nonempty list the move kept from the initial state of `getProMove` is the
least index among those of maximal score. -/
theorem pickBest_argmax (score : Nat → Score) (l : List Nat)
    (hsorted : l.Pairwise (fun x y => x < y)) (hne : l ≠ []) :
    ∃ i, pickBest score l Score.negInf (elemAt l 0) = Answer.cell i ∧ i ∈ l ∧
      (∀ j ∈ l, score j ≤ score i) ∧ (∀ j ∈ l, j < i → score j < score i) := by
  rcases pickBest_spec score l Score.negInf (elemAt l 0) with
    ⟨h1, h2⟩ | ⟨pre, i, post, hl, h1, _, h3, h4⟩
  · cases l with
    | nil => exact absurd rfl hne
    | cons i rest =>
      have h0 := h1
      rw [elemAt_zero_cons] at h0
      rw [elemAt_zero_cons]
      refine ⟨i, h0, List.mem_cons_self _ _, ?_, ?_⟩
      · intro j hj
        exact le_trans (h2 j hj) (score_negInf_le _)
      · intro j hj hji
        rcases List.mem_cons.1 hj with rfl | hj
        · omega
        · have := (List.pairwise_cons.1 hsorted).1 j hj
          omega
  · refine ⟨i, h1, by simp [hl], ?_, ?_⟩
    · intro j hj
      rw [hl] at hj
      rcases List.mem_append.1 hj with hj | hj
      · exact (h3 j hj).le
      · rcases List.mem_cons.1 hj with rfl | hj
        · exact le_refl _
        · exact h4 j hj
    · intro j hj hji
      rw [hl] at hj hsorted
      rcases List.mem_append.1 hj with hj | hj
      · exact h3 j hj
      · have hs2 := (List.pairwise_append.1 hsorted).2.1
        rcases List.mem_cons.1 hj with rfl | hj
        · omega
        · have := (List.pairwise_cons.1 hs2).1 j hj
          omega

/-! ## Doubles: rounding to nearest, the literals, and `Math.floor(Math.random() * n)` -/

theorem roundHalfEven_le (q : ℚ) : (roundHalfEven q : ℚ) ≤ q + 1 / 2 := by
  unfold roundHalfEven
  have h1 := Int.floor_le q
  split_ifs with a b c
  · linarith
  · push_cast; linarith
  · linarith
  · push_cast; linarith

theorem roundHalfEven_ge (q : ℚ) : q - 1 / 2 ≤ (roundHalfEven q : ℚ) := by
  unfold roundHalfEven
  have h2 := Int.lt_floor_add_one q
  split_ifs with a b c
  · linarith
  · push_cast; linarith
  · linarith
  · push_cast; linarith

theorem roundHalfEven_nonneg (q : ℚ) (h : 0 ≤ q) : 0 ≤ roundHalfEven q := by
  have h1 : 0 ≤ ⌊q⌋ := Int.floor_nonneg.mpr h
  unfold roundHalfEven
  split_ifs <;> omega

theorem roundHalfEven_intCast (z : ℤ) : roundHalfEven (z : ℚ) = z := by
  unfold roundHalfEven
  simp

theorem roundHalfEven_eq_of_lt (q : ℚ) (k : ℤ) (h1 : (k : ℚ) ≤ q) (h2 : q - k < 1 / 2) :
    roundHalfEven q = k := by
  have hf : ⌊q⌋ = k := Int.floor_eq_iff.mpr ⟨h1, by linarith⟩
  unfold roundHalfEven
  rw [hf, if_pos h2]

theorem roundHalfEven_eq_of_gt (q : ℚ) (k : ℤ) (h1 : 1 / 2 < q - k) (h2 : q < k + 1) :
    roundHalfEven q = k + 1 := by
  have hf : ⌊q⌋ = k := Int.floor_eq_iff.mpr ⟨by linarith, h2⟩
  unfold roundHalfEven
  rw [hf, if_neg (by linarith), if_pos h1]

theorem doubleExp_eq (x : ℚ) (e : Int) (h1 : (2 : ℚ) ^ e ≤ x) (h2 : x < (2 : ℚ) ^ (e + 1))
    (he : -1022 ≤ e) : doubleExp x = e := by
  have hx : 0 < x := lt_of_lt_of_le (zpow_pos (by norm_num) e) h1
  have ha : e ≤ Int.log 2 x := (Int.zpow_le_iff_le_log (by norm_num) hx).mp (by simpa using h1)
  have hb : Int.log 2 x < e + 1 := (Int.lt_zpow_iff_log_lt (by norm_num) hx).mp (by simpa using h2)
  unfold doubleExp
  omega

theorem doubleUlp_pos (x : ℚ) : 0 < doubleUlp x := zpow_pos (by norm_num) _

theorem roundDouble_nonneg (x : ℚ) (h : 0 ≤ x) : 0 ≤ roundDouble x := by
  unfold roundDouble
  have h1 : 0 ≤ roundHalfEven (x / doubleUlp x) :=
    roundHalfEven_nonneg _ (div_nonneg h (doubleUlp_pos x).le)
  exact mul_nonneg (by exact_mod_cast h1) (doubleUlp_pos x).le

theorem roundDouble_zero : roundDouble 0 = 0 := by
  unfold roundDouble
  rw [zero_div]
  have := roundHalfEven_intCast 0
  simp only [Int.cast_zero] at this
  rw [this]
  simp

/-- A number of the binade `[2^e, 2^(e+1))` that is a multiple of the spacing `2^(e-52)` is
a double. -/
theorem roundDouble_of_multiple (x : ℚ) (e z : Int) (h1 : (2 : ℚ) ^ e ≤ x)
    (h2 : x < (2 : ℚ) ^ (e + 1)) (he : -1022 ≤ e) (hz : x = (z : ℚ) * (2 : ℚ) ^ (e - 52)) :
    roundDouble x = x := by
  unfold roundDouble doubleUlp
  rw [doubleExp_eq x e h1 h2 he]
  have hu : (2 : ℚ) ^ (e - 52) ≠ 0 := (zpow_pos (by norm_num) _).ne'
  have : x / (2 : ℚ) ^ (e - 52) = (z : ℚ) := by rw [hz]; field_simp
  rw [this, roundHalfEven_intCast, ← hz]

theorem roundDouble_in_binade (x : ℚ) (e : Int) (h1 : (2 : ℚ) ^ e ≤ x)
    (h2 : x < (2 : ℚ) ^ (e + 1)) (he : -1022 ≤ e) :
    roundDouble x = (roundHalfEven (x / (2 : ℚ) ^ (e - 52)) : ℚ) * (2 : ℚ) ^ (e - 52) := by
  unfold roundDouble doubleUlp
  rw [doubleExp_eq x e h1 h2 he]

/-- The largest double below 1 is `1 - 2^-53`. -/
theorem double_lt_one (r : ℚ) (h1 : r < 1) (hd : roundDouble r = r) :
    r ≤ 1 - 1 / 2 ^ 53 := by
  by_cases hh : r < 1 / 2
  · have : (1 : ℚ) / 2 ≤ 1 - 1 / 2 ^ 53 := by norm_num
    linarith
  · have hh : (1 : ℚ) / 2 ≤ r := not_lt.mp hh
    have hb := roundDouble_in_binade r (-1) (by norm_num; linarith) (by norm_num; linarith)
      (by norm_num)
    rw [hd] at hb
    have e53 : ((2 : ℚ) ^ ((-1 : Int) - 52)) = 1 / 2 ^ 53 := by norm_num [zpow_neg]
    rw [e53] at hb
    generalize roundHalfEven (r / (1 / 2 ^ 53)) = R at hb
    have hR : (R : ℚ) < 2 ^ 53 := by
      have : (R : ℚ) * (1 / 2 ^ 53) < 1 := by rw [← hb]; exact h1
      have h2 : (0 : ℚ) < 2 ^ 53 := by norm_num
      rw [mul_one_div, div_lt_one h2] at this
      exact this
    have hR2 : R < 2 ^ 53 := by exact_mod_cast hR
    have hR3 : R ≤ 2 ^ 53 - 1 := by omega
    have hR4 : (R : ℚ) ≤ 2 ^ 53 - 1 := by exact_mod_cast hR3
    rw [hb]
    have : (R : ℚ) * (1 / 2 ^ 53) ≤ (2 ^ 53 - 1) * (1 / 2 ^ 53) :=
      mul_le_mul_of_nonneg_right hR4 (by norm_num)
    have e2 : ((2 : ℚ) ^ 53 - 1) * (1 / 2 ^ 53) = 1 - 1 / 2 ^ 53 := by norm_num
    linarith

/-- The spacing of the doubles around a positive number below `c` is `2^-52` times a power of
two below `c`. -/
theorem two_pow_doubleExp_lt (x c : ℚ) (hx : 0 < x) (hc : x < c) (h1 : 1 ≤ c) :
    (2 : ℚ) ^ doubleExp x < c := by
  unfold doubleExp
  rcases max_cases (Int.log 2 x) (-1022) with ⟨h, _⟩ | ⟨h, _⟩
  · rw [h]
    have := Int.zpow_log_le_self (R := ℚ) (b := 2) (by norm_num) hx
    simp only [Nat.cast_ofNat] at this
    linarith
  · rw [h]
    have : (2 : ℚ) ^ (-1022 : Int) < 1 := by
      rw [zpow_neg]
      exact inv_lt_one_of_one_lt₀ (by norm_num)
    linarith

/-- The product `r * n` of a double `r` in `[0, 1)` and a length `n`, rounded to a double,
stays below `n`: `Math.floor(Math.random() * n)` is an index of `0 .. n - 1`. -/
theorem floor_mulDouble (r : ℚ) (n : Nat) (h0 : 0 ≤ r) (h1 : r < 1) (hd : roundDouble r = r)
    (hn : 1 ≤ n) (hn9 : n ≤ 9) :
    0 ≤ ⌊roundDouble (r * n)⌋ ∧ ⌊roundDouble (r * n)⌋ < n := by
  have hnq : (1 : ℚ) ≤ n := by exact_mod_cast hn
  have hnq9 : (n : ℚ) ≤ 9 := by exact_mod_cast hn9
  refine ⟨Int.floor_nonneg.mpr (roundDouble_nonneg _ (mul_nonneg h0 (by linarith))), ?_⟩
  rw [Int.floor_lt]
  rcases eq_or_lt_of_le h0 with hz | hpos
  · rw [← hz, zero_mul, roundDouble_zero]
    push_cast
    linarith
  · have hx : 0 < r * n := mul_pos hpos (by linarith)
    have hxn : r * n < n := by nlinarith
    have hr := double_lt_one r h1 hd
    have he := two_pow_doubleExp_lt (r * n) n hx hxn hnq
    generalize hE : doubleExp (r * n) = e at he
    have he52 : e < 52 := by
      have : (2 : ℚ) ^ e < (2 : ℚ) ^ (52 : Int) := by
        have : (9 : ℚ) < (2 : ℚ) ^ (52 : Int) := by norm_num
        linarith
      exact (zpow_lt_zpow_iff_right₀ (by norm_num)).mp this
    unfold roundDouble doubleUlp
    rw [hE]
    have hu : (0 : ℚ) < (2 : ℚ) ^ (e - 52) := zpow_pos (by norm_num) _
    have hsplit : (2 : ℚ) ^ e = (2 : ℚ) ^ (e - 52) * 2 ^ 52 := by
      rw [show ((2 : ℚ) ^ 52) = (2 : ℚ) ^ (52 : Int) by norm_num, ← zpow_add₀ (by norm_num)]
      congr 1
      omega
    have hnat : (2 : ℚ) ^ (e - 52) * (2 : ℚ) ^ ((52 - e).toNat) = 1 := by
      rw [← zpow_natCast, ← zpow_add₀ (by norm_num)]
      rw [Int.toNat_of_nonneg (by omega)]
      simp
    set u := (2 : ℚ) ^ (e - 52) with hudef
    set N : Int := (n : Int) * 2 ^ ((52 - e).toNat) with hN
    have hNu : (N : ℚ) * u = n := by
      rw [hN]
      push_cast
      rw [mul_assoc, mul_comm _ u, hnat, mul_one]
    have hq : r * n / u + 1 / 2 < (N : ℚ) := by
      have : r * n + u / 2 < (N : ℚ) * u := by
        rw [hNu]
        have h3 : u * 2 ^ 52 < n := by rw [← hsplit]; exact he
        have h4 : r * n ≤ (1 - 1 / 2 ^ 53) * n := mul_le_mul_of_nonneg_right hr (by linarith)
        have h5 : u / 2 < (n : ℚ) * (1 / 2 ^ 53) := by
          have : u / 2 = u * 2 ^ 52 * (1 / 2 ^ 53) := by ring
          rw [this]
          exact mul_lt_mul_of_pos_right h3 (by norm_num)
        linarith
      have h6 : (r * n / u + 1 / 2) * u < (N : ℚ) * u := by
        have : (r * n / u + 1 / 2) * u = r * n + u / 2 := by field_simp; ring
        rw [this]
        assumption
      exact lt_of_mul_lt_mul_right h6 hu.le
    have hR : (roundHalfEven (r * n / u) : ℚ) < N :=
      lt_of_le_of_lt (roundHalfEven_le _) hq
    calc (roundHalfEven (r * n / u) : ℚ) * u < (N : ℚ) * u := mul_lt_mul_of_pos_right hR hu
      _ = n := hNu
      _ = ((n : Int) : ℚ) := by push_cast; rfl

theorem roundDouble_three_tenths :
    roundDouble (3 / 10) = 5404319552844595 / 18014398509481984 := by
  rw [roundDouble_in_binade (3 / 10) (-2) (by norm_num) (by norm_num) (by norm_num)]
  rw [roundHalfEven_eq_of_lt _ 5404319552844595 (by norm_num [zpow_neg]) (by norm_num [zpow_neg])]
  norm_num [zpow_neg]

theorem roundDouble_four_tenths :
    roundDouble (4 / 10) = 3602879701896397 / 9007199254740992 := by
  rw [roundDouble_in_binade (4 / 10) (-2) (by norm_num) (by norm_num) (by norm_num)]
  rw [roundHalfEven_eq_of_gt _ 7205759403792793 (by norm_num [zpow_neg]) (by norm_num [zpow_neg])]
  norm_num [zpow_neg]

theorem roundDouble_half : roundDouble (1 / 2) = 1 / 2 :=
  roundDouble_of_multiple (1 / 2) (-1) (2 ^ 52) (by norm_num) (by norm_num) (by norm_num)
    (by norm_num [zpow_neg])

theorem roundDouble_six_tenths :
    roundDouble (6 / 10) = 5404319552844595 / 9007199254740992 := by
  rw [roundDouble_in_binade (6 / 10) (-1) (by norm_num) (by norm_num) (by norm_num)]
  rw [roundHalfEven_eq_of_lt _ 5404319552844595 (by norm_num [zpow_neg]) (by norm_num [zpow_neg])]
  norm_num [zpow_neg]

/-! ## The friendly tier answers with an empty square -/

theorem elemAt_floor (l : List Nat) (r : ℚ) (hne : l ≠ []) (hlen : l.length ≤ 9)
    (h0 : 0 ≤ r) (h1 : r < 1) (hd : roundDouble r = r) :
    ∃ v ∈ l, elemAt l ⌊roundDouble (r * (l.length : ℚ))⌋ = Answer.cell v := by
  have hpos : 0 < l.length := List.length_pos.2 hne
  obtain ⟨hk0, hk1⟩ := floor_mulDouble r l.length h0 h1 hd hpos hlen
  have hlt : ⌊roundDouble (r * (l.length : ℚ))⌋.toNat < l.length := by omega
  refine ⟨l[⌊roundDouble (r * (l.length : ℚ))⌋.toNat], List.getElem_mem _, ?_⟩
  unfold elemAt
  rw [if_neg (by omega), List.getElem?_eq_getElem hlt]

theorem findWinningLoop_mem (b : Board) (p : Mark) :
    ∀ (l : List Nat) (m : Nat), findWinningLoop b p l = some m → m ∈ l := by
  intro l
  induction l with
  | nil => intro m h; simp [findWinningLoop] at h
  | cons idx rest ih =>
    intro m h
    simp only [findWinningLoop] at h
    split at h
    · simp only [Option.some.injEq] at h
      rw [← h]; exact List.mem_cons_self _ _
    · exact List.mem_cons_of_mem _ (ih m h)

theorem findWinningMove_empty (b : Board) (p : Mark) (m : Nat)
    (h : findWinningMove b p = some m) : b[m]? = some none :=
  (mem_getEmptySquares b m).1 (findWinningLoop_mem b p _ m h)

theorem getFriendlyMove_empty (b : Board) (botPlayer humanPlayer : Mark) (rnd : Nat → ℚ)
    (hlen : b.length = 9) (hne : getEmptySquares b ≠ []) (hr : validRnd rnd) :
    ∃ i, getFriendlyMove b botPlayer humanPlayer rnd = Answer.cell i ∧ b[i]? = some none := by
  unfold getFriendlyMove
  simp only
  split
  · rename_i m hm
    refine ⟨m, rfl, ?_⟩
    split at hm
    · exact findWinningMove_empty b _ m hm
    · simp at hm
  · split
    · rename_i m hm
      refine ⟨m, rfl, ?_⟩
      split at hm
      · exact findWinningMove_empty b _ m hm
      · simp at hm
    · by_cases hc : b[4]? = some none ∧ rnd 2 > roundDouble (5 / 10)
      · rw [if_pos hc]; exact ⟨4, rfl, hc.1⟩
      · rw [if_neg hc]
        generalize (if b[4]? = some none then 3 else 2) = used
        by_cases hk : (List.filter (fun idx => decide (b[idx]? = some none))
            [0, 2, 6, 8]).length > 0 ∧ rnd used > roundDouble (6 / 10)
        · rw [if_pos hk]
          have hcne : List.filter (fun idx => decide (b[idx]? = some none)) [0, 2, 6, 8] ≠ [] :=
            List.length_pos.1 hk.1
          have hc9 : (List.filter (fun idx => decide (b[idx]? = some none))
              [0, 2, 6, 8]).length ≤ 9 :=
            le_trans (List.length_filter_le _ _) (by simp)
          obtain ⟨v, hv, he⟩ := elemAt_floor _ (rnd (used + 1)) hcne hc9 (hr _).1 (hr _).2.1
            (hr _).2.2
          refine ⟨v, he, ?_⟩
          have := (List.mem_filter.1 hv).2
          simpa using this
        · rw [if_neg hk]
          generalize (if (List.filter (fun idx => decide (b[idx]? = some none))
            [0, 2, 6, 8]).length > 0 then used + 1 else used) = used1
          have he9 : (getEmptySquares b).length ≤ 9 := by
            have := getEmptySquares_length_le b
            omega
          obtain ⟨v, hv, he⟩ := elemAt_floor _ (rnd used1) hne he9 (hr _).1 (hr _).2.1
            (hr _).2.2
          exact ⟨v, he, (mem_getEmptySquares b v).1 hv⟩

/-! ## `getBestMove` returns, and returns an empty square unless the board is full -/

theorem getEmptySquares_all_of_length (b : Board) (h : (getEmptySquares b).length = b.length) :
    ∀ i, i < b.length → b[i]? = some none := by
  unfold getEmptySquares at h
  revert h
  generalize 0 = s
  induction b generalizing s with
  | nil => intro _ i hi; simp at hi
  | cons c rest ih =>
    intro h i hi
    cases c with
    | none =>
      simp only [emptyFrom, List.length_cons, add_left_inj] at h
      cases i with
      | zero => simp
      | succ j =>
        simp only [List.getElem?_cons_succ]
        exact ih (s + 1) h j (by simpa using hi)
    | some m =>
      simp only [emptyFrom, List.length_cons] at h
      have hle : (emptyFrom (s + 1) rest).length ≤ rest.length := by
        have := getEmptySquares_length_le rest
        unfold getEmptySquares at this
        have indep : ∀ (l : Board) (s t : Nat),
            (emptyFrom s l).length = (emptyFrom t l).length := by
          intro l
          induction l with
          | nil => intro s t; simp [emptyFrom]
          | cons d l ihl =>
            intro s t
            cases d with
            | none => simp [emptyFrom, ihl (s + 1) (t + 1)]
            | some m => simp [emptyFrom, ihl (s + 1) (t + 1)]
        rw [indep rest (s + 1) 0]; exact this
      omega

theorem getBestMove_spec (b : Board) (botPlayer humanPlayer : Mark) (difficulty : Difficulty)
    (rnd : Nat → ℚ) (hlen : b.length = 9) (hr : validRnd rnd)
    (hne : getEmptySquares b ≠ []) :
    ∃ i, getBestMove b botPlayer humanPlayer difficulty rnd = some (b, Answer.cell i)
      ∧ b[i]? = some none := by
  unfold getBestMove
  simp only
  have hlen0 : (getEmptySquares b).length ≠ 0 := by
    intro h; exact hne (List.length_eq_zero.1 h)
  rw [if_neg hlen0]
  split
  · rename_i h9
    have hall := getEmptySquares_all_of_length b (by rw [h9, hlen])
    obtain ⟨v, hv, he⟩ := elemAt_floor [0, 2, 4, 6, 8] (rnd 0) (by simp) (by simp) (hr 0).1
      (hr 0).2.1 (hr 0).2.2
    have he2 : elemAt [0, 2, 4, 6, 8] ⌊roundDouble (rnd 0 * 5)⌋ = Answer.cell v := by
      have : ((([0, 2, 4, 6, 8] : List Nat).length : ℕ) : ℚ) = 5 := by norm_num
      rw [this] at he; exact he
    refine ⟨v, by rw [he2], hall v ?_⟩
    simp at hv
    omega
  · split
    · obtain ⟨i, hi, hc⟩ := getFriendlyMove_empty b botPlayer humanPlayer rnd hlen hne hr
      exact ⟨i, by rw [hi], hc⟩
    · rw [getProMove_eq]
      obtain ⟨i, hi, hmem, _⟩ := pickBest_argmax (rootScore b botPlayer humanPlayer)
        (getEmptySquares b) (getEmptySquares_sorted b) hne
      exact ⟨i, by rw [hi], (mem_getEmptySquares b i).1 hmem⟩

theorem getBestMove_total (b : Board) (botPlayer humanPlayer : Mark) (difficulty : Difficulty)
    (rnd : Nat → ℚ) :
    ∃ a, getBestMove b botPlayer humanPlayer difficulty rnd = some (b, a) := by
  unfold getBestMove
  simp only
  split
  · exact ⟨_, rfl⟩
  · split
    · exact ⟨_, rfl⟩
    · split
      · exact ⟨_, rfl⟩
      · rw [getProMove_eq]; exact ⟨_, rfl⟩

/-! ## The win detector -/

theorem checkLines_cond_iff (b : Board) (x y z : Nat) :
    ((cellAt b x).isSome ∧ cellAt b x = cellAt b y ∧ cellAt b x = cellAt b z) ↔
      ∃ m, lineHeld b (x, y, z) m := by
  unfold lineHeld
  constructor
  · rintro ⟨h1, h2, h3⟩
    obtain ⟨m, hm⟩ := Option.isSome_iff_exists.1 h1
    exact ⟨m, hm, by rw [← h2, hm], by rw [← h3, hm]⟩
  · rintro ⟨m, h1, h2, h3⟩
    simp only at h1 h2 h3
    rw [h1, h2, h3]
    simp

theorem checkLines_eq_some (b : Board) (m : Mark) :
    ∀ ls : List (Nat × Nat × Nat), checkLines b ls = some m ↔
      ∃ pre l post, ls = pre ++ l :: post ∧ lineHeld b l m ∧
        ∀ l1 ∈ pre, ∀ m1, ¬ lineHeld b l1 m1 := by
  intro ls
  induction ls with
  | nil => simp [checkLines]
  | cons l rest ih =>
    obtain ⟨x, y, z⟩ := l
    simp only [checkLines]
    by_cases hc : (cellAt b x).isSome ∧ cellAt b x = cellAt b y ∧ cellAt b x = cellAt b z
    · rw [if_pos hc]
      obtain ⟨m0, hm0⟩ := (checkLines_cond_iff b x y z).1 hc
      have hx : cellAt b x = some m0 := hm0.1
      constructor
      · intro h
        have : m0 = m := by rw [hx] at h; exact Option.some.inj h
        subst this
        exact ⟨[], (x, y, z), rest, rfl, hm0, by simp⟩
      · rintro ⟨pre, l, post, hl, hheld, hpre⟩
        cases pre with
        | nil =>
          simp only [List.nil_append, List.cons.injEq] at hl
          rw [← hl.1] at hheld
          exact hheld.1
        | cons p pre1 =>
          simp only [List.cons_append, List.cons.injEq] at hl
          exact absurd hm0 (by rw [hl.1]; exact hpre p (List.mem_cons_self _ _) m0)
    · rw [if_neg hc, ih]
      have hno : ∀ m1, ¬ lineHeld b (x, y, z) m1 :=
        fun m1 h => hc ((checkLines_cond_iff b x y z).2 ⟨m1, h⟩)
      constructor
      · rintro ⟨pre, l, post, hl, hheld, hpre⟩
        refine ⟨(x, y, z) :: pre, l, post, by simp [hl], hheld, ?_⟩
        intro l1 hl1 m1
        rcases List.mem_cons.1 hl1 with rfl | h
        · exact hno m1
        · exact hpre l1 h m1
      · rintro ⟨pre, l, post, hl, hheld, hpre⟩
        cases pre with
        | nil =>
          simp only [List.nil_append, List.cons.injEq] at hl
          rw [← hl.1] at hheld
          exact absurd hheld (hno m)
        | cons p pre1 =>
          simp only [List.cons_append, List.cons.injEq] at hl
          exact ⟨pre1, l, post, hl.2, hheld,
            fun l1 hl1 m1 => hpre l1 (List.mem_cons_of_mem _ hl1) m1⟩

theorem checkLines_eq_none (b : Board) :
    ∀ ls : List (Nat × Nat × Nat), checkLines b ls = none ↔
      ∀ l ∈ ls, ∀ m, ¬ lineHeld b l m := by
  intro ls
  induction ls with
  | nil => simp [checkLines]
  | cons l rest ih =>
    obtain ⟨x, y, z⟩ := l
    simp only [checkLines]
    by_cases hc : (cellAt b x).isSome ∧ cellAt b x = cellAt b y ∧ cellAt b x = cellAt b z
    · rw [if_pos hc]
      obtain ⟨m0, hm0⟩ := (checkLines_cond_iff b x y z).1 hc
      have hx : cellAt b x = some m0 := hm0.1
      constructor
      · intro h; rw [hx] at h; exact absurd h (by simp)
      · intro h; exact absurd hm0 (h _ (List.mem_cons_self _ _) m0)
    · rw [if_neg hc, ih]
      have hno : ∀ m1, ¬ lineHeld b (x, y, z) m1 :=
        fun m1 h => hc ((checkLines_cond_iff b x y z).2 ⟨m1, h⟩)
      constructor
      · intro h l hl m
        rcases List.mem_cons.1 hl with rfl | h1
        · exact hno m
        · exact h l h1 m
      · intro h l hl m
        exact h l (List.mem_cons_of_mem _ hl) m

theorem checkWinner_eq_some_iff (b : Board) (m : Mark) :
    checkWinner b = some m ↔
      ∃ pre l post, lines = pre ++ l :: post ∧ lineHeld b l m ∧
        ∀ l1 ∈ pre, ∀ m1, ¬ lineHeld b l1 m1 :=
  checkLines_eq_some b m lines

theorem checkWinner_eq_none_iff (b : Board) :
    checkWinner b = none ↔ ∀ l ∈ lines, ∀ m, ¬ lineHeld b l m :=
  checkLines_eq_none b lines

theorem checkWinner_some_held (b : Board) (m : Mark) (h : checkWinner b = some m) :
    ∃ l ∈ lines, lineHeld b l m := by
  obtain ⟨pre, l, post, hl, hheld, _⟩ := (checkWinner_eq_some_iff b m).1 h
  exact ⟨l, by rw [hl]; simp, hheld⟩

theorem lineHeld_unique (b : Board) (l : Nat × Nat × Nat) (m m1 : Mark)
    (h : lineHeld b l m) (h1 : lineHeld b l m1) : m = m1 := by
  have := h.1.symm.trans h1.1
  exact Option.some.inj this

/-- A line held by `m` makes `checkWinner` answer `m` as soon as no line is held by another
mark. -/
theorem checkWinner_of_held (b : Board) (m : Mark) (l : Nat × Nat × Nat) (hl : l ∈ lines)
    (hheld : lineHeld b l m) (honly : ∀ l1 ∈ lines, ∀ m1, lineHeld b l1 m1 → m1 = m) :
    checkWinner b = some m := by
  cases hw : checkWinner b with
  | none => exact absurd hheld ((checkWinner_eq_none_iff b).1 hw l hl m)
  | some m1 =>
    obtain ⟨l1, hl1, h1⟩ := checkWinner_some_held b m1 hw
    rw [honly l1 hl1 m1 h1]

/-! ## Alpha-beta pruning against the unpruned recursion -/

theorem windowSound_self {α : Type} [LinearOrder α] (r a b : α) : WindowSound r r a b :=
  ⟨fun _ => le_refl r, fun _ => le_refl r, fun _ _ => rfl⟩

/-- One iteration of the maximizing loop. -/
theorem windowSound_max_step {α : Type} [LinearOrder α] (a b ms r1 v1 t r2 : α)
    (hms : ms ≤ a) (hab : a < b) (hchild : WindowSound r1 v1 a b)
    (hrest : max a r1 < b → WindowSound r2 (max r1 t) (max a r1) b) :
    WindowSound (if b ≤ max a r1 then max r1 ms else r2) (max v1 t) a b := by
  obtain ⟨c1, c2, c3⟩ := hchild
  by_cases hcut : b ≤ max a r1
  · rw [if_pos hcut]
    have hbr : b ≤ r1 := by
      rcases le_max_iff.1 hcut with h | h
      · exact absurd h (not_le.2 hab)
      · exact h
    have hmax : max r1 ms = r1 := max_eq_left (le_trans hms (le_trans hab.le hbr))
    rw [hmax]
    refine ⟨?_, ?_, ?_⟩
    · intro h; exact absurd (lt_of_lt_of_le hab hbr) (not_lt.2 h)
    · intro _; exact le_trans (c2 hbr) (le_max_left _ _)
    · intro _ h; exact absurd hbr (not_le.2 h)
  · rw [if_neg hcut]
    have hlt : max a r1 < b := not_le.1 hcut
    have hr1b : r1 < b := lt_of_le_of_lt (le_max_right _ _) hlt
    obtain ⟨i1, i2, i3⟩ := hrest hlt
    refine ⟨?_, ?_, ?_⟩
    · intro h
      have h1 := i1 (le_trans h (le_max_left _ _))
      have hr : r1 ≤ r2 := le_trans (le_max_left _ _) h1
      have ht : t ≤ r2 := le_trans (le_max_right _ _) h1
      exact max_le (le_trans (c1 (le_trans hr h)) hr) ht
    · intro h
      rcases le_max_iff.1 (i2 h) with h1 | h1
      · exact absurd (lt_of_lt_of_le hr1b h) (not_lt.2 h1)
      · exact le_trans h1 (le_max_right _ _)
    · intro h1 h2
      rcases le_or_lt r2 (max a r1) with h3 | h3
      · have h4 := i1 h3
        have hr : r1 ≤ r2 := le_trans (le_max_left _ _) h4
        have ht : t ≤ r2 := le_trans (le_max_right _ _) h4
        have hr2 : r2 ≤ r1 := by
          rcases le_max_iff.1 h3 with h5 | h5
          · exact absurd h1 (not_lt.2 h5)
          · exact h5
        have he : r2 = r1 := le_antisymm hr2 hr
        have hv : r1 = v1 := c3 (he ▸ h1) hr1b
        rw [← hv, ← he]
        exact (max_eq_left ht).symm
      · have h4 := i3 h3 h2
        have hr : r1 < r2 := lt_of_le_of_lt (le_max_right _ _) h3
        have ht : t = r2 := by
          rcases le_total r1 t with h5 | h5
          · rw [max_eq_right h5] at h4; exact h4.symm
          · rw [max_eq_left h5] at h4; exact absurd h4.symm (ne_of_lt hr)
        have hv : v1 ≤ r2 := by
          rcases le_or_lt r1 a with h5 | h5
          · exact le_trans (c1 h5) hr.le
          · rw [← c3 h5 hr1b]; exact hr.le
        rw [ht]
        exact (max_eq_right hv).symm

/-- One iteration of the minimizing loop. -/
theorem windowSound_min_step {α : Type} [LinearOrder α] (a b ms r1 v1 t r2 : α)
    (hms : b ≤ ms) (hab : a < b) (hchild : WindowSound r1 v1 a b)
    (hrest : a < min b r1 → WindowSound r2 (min r1 t) a (min b r1)) :
    WindowSound (if min b r1 ≤ a then min r1 ms else r2) (min v1 t) a b := by
  obtain ⟨c1, c2, c3⟩ := hchild
  by_cases hcut : min b r1 ≤ a
  · rw [if_pos hcut]
    have hbr : r1 ≤ a := by
      rcases min_le_iff.1 hcut with h | h
      · exact absurd h (not_le.2 hab)
      · exact h
    have hmin : min r1 ms = r1 := min_eq_left (le_trans hbr (le_trans hab.le hms))
    rw [hmin]
    refine ⟨?_, ?_, ?_⟩
    · intro _; exact le_trans (min_le_left _ _) (c1 hbr)
    · intro h; exact absurd (lt_of_le_of_lt hbr hab) (not_lt.2 h)
    · intro h _; exact absurd hbr (not_le.2 h)
  · rw [if_neg hcut]
    have hlt : a < min b r1 := not_le.1 hcut
    have hr1a : a < r1 := lt_of_lt_of_le hlt (min_le_right _ _)
    obtain ⟨i1, i2, i3⟩ := hrest hlt
    refine ⟨?_, ?_, ?_⟩
    · intro h
      rcases min_le_iff.1 (i1 h) with h1 | h1
      · exact absurd (lt_of_le_of_lt h hr1a) (not_lt.2 h1)
      · exact le_trans (min_le_right _ _) h1
    · intro h
      have h1 := i2 (le_trans (min_le_left _ _) h)
      have hr : r2 ≤ r1 := le_trans h1 (min_le_left _ _)
      have ht : r2 ≤ t := le_trans h1 (min_le_right _ _)
      exact le_min (le_trans hr (c2 (le_trans h hr))) ht
    · intro h1 h2
      rcases le_or_lt (min b r1) r2 with h3 | h3
      · have h4 := i2 h3
        have hr : r2 ≤ r1 := le_trans h4 (min_le_left _ _)
        have ht : r2 ≤ t := le_trans h4 (min_le_right _ _)
        have hr2 : r1 ≤ r2 := by
          rcases min_le_iff.1 h3 with h5 | h5
          · exact absurd h2 (not_lt.2 h5)
          · exact h5
        have he : r2 = r1 := le_antisymm hr hr2
        have hv : r1 = v1 := c3 hr1a (he ▸ h2)
        rw [← hv, ← he]
        exact (min_eq_left ht).symm
      · have h4 := i3 h1 h3
        have hr : r2 < r1 := lt_of_lt_of_le h3 (min_le_right _ _)
        have ht : t = r2 := by
          rcases le_total r1 t with h5 | h5
          · rw [min_eq_left h5] at h4; exact absurd h4 (ne_of_lt hr)
          · rw [min_eq_right h5] at h4; exact h4.symm
        have hv : r2 ≤ v1 := by
          rcases le_or_lt b r1 with h5 | h5
          · exact le_trans hr.le (c2 h5)
          · rw [← c3 hr1a h5]; exact hr.le
        rw [ht]
        exact (min_eq_right hv).symm

theorem foldl_max_assoc {α : Type} [LinearOrder α] (f : Nat → α) :
    ∀ (l : List Nat) (x y : α),
      l.foldl (fun acc idx => max acc (f idx)) (max x y)
        = max x (l.foldl (fun acc idx => max acc (f idx)) y) := by
  intro l
  induction l with
  | nil => intro x y; rfl
  | cons idx rest ih =>
    intro x y
    simp only [List.foldl_cons]
    rw [max_assoc, ih]

theorem foldl_min_assoc {α : Type} [LinearOrder α] (f : Nat → α) :
    ∀ (l : List Nat) (x y : α),
      l.foldl (fun acc idx => min acc (f idx)) (min x y)
        = min x (l.foldl (fun acc idx => min acc (f idx)) y) := by
  intro l
  induction l with
  | nil => intro x y; rfl
  | cons idx rest ih =>
    intro x y
    simp only [List.foldl_cons]
    rw [min_assoc, ih]

/-- The maximizing loop is sound for its window when every recursive call is. -/
theorem maxLoopV_sound (child : Nat → Score → Score → Score) (value : Nat → Score)
    (beta : Score) :
    ∀ (l : List Nat) (ms a : Score), ms ≤ a → a < beta →
      (∀ idx ∈ l, ∀ a1, a1 < beta → WindowSound (child idx a1 beta) (value idx) a1 beta) →
      WindowSound (maxLoopV child beta l ms a)
        (l.foldl (fun acc idx => max acc (value idx)) ms) a beta := by
  intro l
  induction l with
  | nil =>
    intro ms a _ _ _
    exact windowSound_self _ _ _
  | cons idx rest ih =>
    intro ms a hms hab hchild
    simp only [maxLoopV, List.foldl_cons, score_max_eq, score_le_iff]
    rw [max_comm ms (value idx), foldl_max_assoc]
    apply windowSound_max_step a beta ms _ _ _ _ hms hab
      (hchild idx (List.mem_cons_self _ _) a hab)
    intro hlt
    have := ih (max (child idx a beta) ms) (max a (child idx a beta))
      (max_le (le_max_right _ _) (le_trans hms (le_max_left _ _))) hlt
      (fun j hj => hchild j (List.mem_cons_of_mem _ hj))
    rw [foldl_max_assoc] at this
    exact this

/-- The minimizing loop is sound for its window when every recursive call is. -/
theorem minLoopV_sound (child : Nat → Score → Score → Score) (value : Nat → Score)
    (alpha : Score) :
    ∀ (l : List Nat) (ms b : Score), b ≤ ms → alpha < b →
      (∀ idx ∈ l, ∀ b1, alpha < b1 → WindowSound (child idx alpha b1) (value idx) alpha b1) →
      WindowSound (minLoopV child alpha l ms b)
        (l.foldl (fun acc idx => min acc (value idx)) ms) alpha b := by
  intro l
  induction l with
  | nil =>
    intro ms b _ _ _
    exact windowSound_self _ _ _
  | cons idx rest ih =>
    intro ms b hms hab hchild
    simp only [minLoopV, List.foldl_cons, score_min_eq, score_le_iff]
    rw [min_comm ms (value idx), foldl_min_assoc]
    apply windowSound_min_step alpha b ms _ _ _ _ hms hab
      (hchild idx (List.mem_cons_self _ _) b hab)
    intro hlt
    have := ih (min (child idx alpha b) ms) (min b (child idx alpha b))
      (le_min (min_le_right _ _) (le_trans (min_le_left _ _) hms)) hlt
      (fun j hj => hchild j (List.mem_cons_of_mem _ hj))
    rw [foldl_min_assoc] at this
    exact this

/-- Alpha-beta pruning is sound: for every window `alpha < beta` the pruned score relates to
the unpruned one as `WindowSound` says. -/
theorem minimaxScore_sound (botPlayer humanPlayer : Mark) :
    ∀ (fuel : Nat) (b : Board) (depth : Nat) (isMax : Bool) (alpha beta : Score),
      alpha < beta →
      WindowSound (minimaxScore fuel b depth isMax alpha beta botPlayer humanPlayer)
        (plainMinimax fuel b depth isMax botPlayer humanPlayer) alpha beta := by
  intro fuel
  induction fuel with
  | zero => intro b depth isMax alpha beta _; exact windowSound_self _ _ _
  | succ fuel ih =>
    intro b depth isMax alpha beta hab
    simp only [minimaxScore, plainMinimax]
    split
    · exact windowSound_self _ _ _
    · split
      · exact windowSound_self _ _ _
      · split
        · exact windowSound_self _ _ _
        · split
          · exact maxLoopV_sound _ _ beta _ _ _ (score_negInf_le _) hab
              (fun idx _ a1 ha1 => ih _ _ _ a1 beta ha1)
          · exact minLoopV_sound _ _ alpha _ _ _ (score_le_posInf _) hab
              (fun idx _ b1 hb1 => ih _ _ _ alpha b1 hb1)

/-! ## Folds of `max` and `min` -/

theorem foldl_max_le_iff {α : Type} [LinearOrder α] (f : Nat → α) (c : α) :
    ∀ (l : List Nat) (x : α),
      l.foldl (fun acc idx => max acc (f idx)) x ≤ c ↔ x ≤ c ∧ ∀ idx ∈ l, f idx ≤ c := by
  intro l
  induction l with
  | nil => intro x; simp
  | cons idx rest ih =>
    intro x
    simp only [List.foldl_cons, ih, max_le_iff, List.mem_cons, forall_eq_or_imp]
    tauto

theorem foldl_max_lt_iff {α : Type} [LinearOrder α] (f : Nat → α) (c : α) :
    ∀ (l : List Nat) (x : α),
      l.foldl (fun acc idx => max acc (f idx)) x < c ↔ x < c ∧ ∀ idx ∈ l, f idx < c := by
  intro l
  induction l with
  | nil => intro x; simp
  | cons idx rest ih =>
    intro x
    simp only [List.foldl_cons, ih, max_lt_iff, List.mem_cons, forall_eq_or_imp]
    tauto

theorem le_foldl_min_iff {α : Type} [LinearOrder α] (f : Nat → α) (c : α) :
    ∀ (l : List Nat) (x : α),
      c ≤ l.foldl (fun acc idx => min acc (f idx)) x ↔ c ≤ x ∧ ∀ idx ∈ l, c ≤ f idx := by
  intro l
  induction l with
  | nil => intro x; simp
  | cons idx rest ih =>
    intro x
    simp only [List.foldl_cons, ih, le_min_iff, List.mem_cons, forall_eq_or_imp]
    tauto

theorem lt_foldl_min_iff {α : Type} [LinearOrder α] (f : Nat → α) (c : α) :
    ∀ (l : List Nat) (x : α),
      c < l.foldl (fun acc idx => min acc (f idx)) x ↔ c < x ∧ ∀ idx ∈ l, c < f idx := by
  intro l
  induction l with
  | nil => intro x; simp
  | cons idx rest ih =>
    intro x
    simp only [List.foldl_cons, ih, lt_min_iff, List.mem_cons, forall_eq_or_imp]
    tauto

theorem foldl_max_attained {α : Type} [LinearOrder α] (f : Nat → α) :
    ∀ (l : List Nat) (x : α),
      l.foldl (fun acc idx => max acc (f idx)) x = x ∨
        ∃ idx ∈ l, l.foldl (fun acc idx => max acc (f idx)) x = f idx := by
  intro l
  induction l with
  | nil => intro x; left; rfl
  | cons idx rest ih =>
    intro x
    simp only [List.foldl_cons]
    rcases ih (max x (f idx)) with h | ⟨j, hj, h⟩
    · rcases max_choice x (f idx) with h1 | h1
      · left; rw [h, h1]
      · right; exact ⟨idx, List.mem_cons_self _ _, by rw [h, h1]⟩
    · right; exact ⟨j, List.mem_cons_of_mem _ hj, h⟩

theorem foldl_min_attained {α : Type} [LinearOrder α] (f : Nat → α) :
    ∀ (l : List Nat) (x : α),
      l.foldl (fun acc idx => min acc (f idx)) x = x ∨
        ∃ idx ∈ l, l.foldl (fun acc idx => min acc (f idx)) x = f idx := by
  intro l
  induction l with
  | nil => intro x; left; rfl
  | cons idx rest ih =>
    intro x
    simp only [List.foldl_cons]
    rcases ih (min x (f idx)) with h | ⟨j, hj, h⟩
    · rcases min_choice x (f idx) with h1 | h1
      · left; rw [h, h1]
      · right; exact ⟨idx, List.mem_cons_self _ _, by rw [h, h1]⟩
    · right; exact ⟨j, List.mem_cons_of_mem _ hj, h⟩

/-- The maximum over a nonempty list, started from `-Infinity`, is one of the values. -/
theorem foldl_max_negInf_attained (f : Nat → Score) (l : List Nat) (hne : l ≠ []) :
    ∃ idx ∈ l, l.foldl (fun acc idx => max acc (f idx)) Score.negInf = f idx := by
  rcases foldl_max_attained f l Score.negInf with h | h
  · cases l with
    | nil => exact absurd rfl hne
    | cons i rest =>
      refine ⟨i, List.mem_cons_self _ _, ?_⟩
      have h1 : f i ≤ (i :: rest).foldl (fun acc idx => max acc (f idx)) Score.negInf :=
        ((foldl_max_le_iff f _ (i :: rest) Score.negInf).1 (le_refl _)).2 i
          (List.mem_cons_self _ _)
      rw [h] at h1 ⊢
      exact le_antisymm (score_negInf_le _) h1
  · exact h

/-- The minimum over a nonempty list, started from `Infinity`, is one of the values. -/
theorem foldl_min_posInf_attained (f : Nat → Score) (l : List Nat) (hne : l ≠ []) :
    ∃ idx ∈ l, l.foldl (fun acc idx => min acc (f idx)) Score.posInf = f idx := by
  rcases foldl_min_attained f l Score.posInf with h | h
  · cases l with
    | nil => exact absurd rfl hne
    | cons i rest =>
      refine ⟨i, List.mem_cons_self _ _, ?_⟩
      have h1 : (i :: rest).foldl (fun acc idx => min acc (f idx)) Score.posInf ≤ f i :=
        ((le_foldl_min_iff f _ (i :: rest) Score.posInf).1 (le_refl _)).2 i
          (List.mem_cons_self _ _)
      rw [h] at h1 ⊢
      exact le_antisymm h1 (score_le_posInf _)
  · exact h

/-! ## The unpruned score is a finite number, and pruning with the full window is exact -/

theorem plainMinimax_fin (botPlayer humanPlayer : Mark) :
    ∀ (fuel : Nat) (b : Board) (depth : Nat) (isMax : Bool),
      ∃ v, plainMinimax fuel b depth isMax botPlayer humanPlayer = Score.fin v := by
  intro fuel
  induction fuel with
  | zero => intro b depth isMax; exact ⟨0, rfl⟩
  | succ fuel ih =>
    intro b depth isMax
    simp only [plainMinimax]
    split
    · exact ⟨_, rfl⟩
    · split
      · exact ⟨_, rfl⟩
      · split
        · exact ⟨_, rfl⟩
        · rename_i hfull
          have hne : getEmptySquares b ≠ [] :=
            (isBoardFull_eq_false_iff b).1 (by simpa using hfull)
          split
          · obtain ⟨idx, _, h⟩ := foldl_max_negInf_attained
              (fun idx => plainMinimax fuel (b.set idx (some botPlayer)) (depth + 1) false
                botPlayer humanPlayer) _ hne
            rw [h]; exact ih _ _ _
          · obtain ⟨idx, _, h⟩ := foldl_min_posInf_attained
              (fun idx => plainMinimax fuel (b.set idx (some humanPlayer)) (depth + 1) true
                botPlayer humanPlayer) _ hne
            rw [h]; exact ih _ _ _

/-- Called with the full window, `minimax` computes exactly the unpruned score. -/
theorem minimaxScore_full_window (botPlayer humanPlayer : Mark) (fuel : Nat) (b : Board)
    (depth : Nat) (isMax : Bool) :
    minimaxScore fuel b depth isMax Score.negInf Score.posInf botPlayer humanPlayer
      = plainMinimax fuel b depth isMax botPlayer humanPlayer := by
  obtain ⟨v, hv⟩ := plainMinimax_fin botPlayer humanPlayer fuel b depth isMax
  have hwin : Score.negInf < Score.posInf := lt_trans (score_negInf_lt_fin 0) (score_fin_lt_posInf 0)
  obtain ⟨h1, h2, h3⟩ := minimaxScore_sound botPlayer humanPlayer fuel b depth isMax
    Score.negInf Score.posInf hwin
  rw [hv] at h1 h2 h3 ⊢
  rcases lt_or_le Score.negInf
      (minimaxScore fuel b depth isMax Score.negInf Score.posInf botPlayer humanPlayer)
    with hlo | hlo
  · rcases lt_or_le
        (minimaxScore fuel b depth isMax Score.negInf Score.posInf botPlayer humanPlayer)
        Score.posInf with hhi | hhi
    · exact h3 hlo hhi
    · exact absurd (le_trans hhi (h2 hhi)) (not_le.2 (score_fin_lt_posInf v))
  · exact absurd (le_trans (h1 hlo) hlo) (not_le.2 (score_negInf_lt_fin v))

theorem rootScore_eq_plain (b : Board) (botPlayer humanPlayer : Mark) (idx : Nat) :
    rootScore b botPlayer humanPlayer idx
      = plainMinimax (b.length + 1) (b.set idx (some botPlayer)) 0 false
          botPlayer humanPlayer :=
  minimaxScore_full_window botPlayer humanPlayer _ _ _ _

/-- Scores at depth `depth` lie between `depth - 10` and `10 - depth` as long as the game
cannot go beyond ply 10. -/
theorem plainMinimax_bounds (botPlayer humanPlayer : Mark) :
    ∀ (fuel : Nat) (b : Board) (depth : Nat) (isMax : Bool),
      depth + (getEmptySquares b).length ≤ 10 →
      ∃ v, plainMinimax fuel b depth isMax botPlayer humanPlayer = Score.fin v ∧
        (depth : Int) - 10 ≤ v ∧ v ≤ 10 - (depth : Int) := by
  intro fuel
  induction fuel with
  | zero => intro b depth isMax h; exact ⟨0, rfl, by omega, by omega⟩
  | succ fuel ih =>
    intro b depth isMax h
    simp only [plainMinimax]
    split
    · exact ⟨_, rfl, by omega, by omega⟩
    · split
      · exact ⟨_, rfl, by omega, by omega⟩
      · split
        · exact ⟨_, rfl, by omega, by omega⟩
        · rename_i hfull
          have hne : getEmptySquares b ≠ [] :=
            (isBoardFull_eq_false_iff b).1 (by simpa using hfull)
          have hrec : ∀ (m : Mark) (idx : Nat), idx ∈ getEmptySquares b →
              depth + 1 + (getEmptySquares (b.set idx (some m))).length ≤ 10 := by
            intro m idx hidx
            have := getEmptySquares_length_set b m idx ((mem_getEmptySquares b idx).1 hidx)
            omega
          split
          · obtain ⟨idx, hidx, h1⟩ := foldl_max_negInf_attained
              (fun idx => plainMinimax fuel (b.set idx (some botPlayer)) (depth + 1) false
                botPlayer humanPlayer) _ hne
            rw [h1]
            obtain ⟨v, hv, h2, h3⟩ := ih (b.set idx (some botPlayer)) (depth + 1) false
              (hrec botPlayer idx hidx)
            exact ⟨v, hv, by push_cast at h2; omega, by push_cast at h3; omega⟩
          · obtain ⟨idx, hidx, h1⟩ := foldl_min_posInf_attained
              (fun idx => plainMinimax fuel (b.set idx (some humanPlayer)) (depth + 1) true
                botPlayer humanPlayer) _ hne
            rw [h1]
            obtain ⟨v, hv, h2, h3⟩ := ih (b.set idx (some humanPlayer)) (depth + 1) true
              (hrec humanPlayer idx hidx)
            exact ⟨v, hv, by push_cast at h2; omega, by push_cast at h3; omega⟩

/-! ## The sign of the score and forced wins -/

theorem any_congr_mem {α : Type} (l : List α) (f g : α → Bool) (h : ∀ x ∈ l, f x = g x) :
    l.any f = l.any g := by
  induction l with
  | nil => rfl
  | cons a rest ih =>
    simp only [List.any_cons]
    rw [h a (List.mem_cons_self _ _), ih (fun x hx => h x (List.mem_cons_of_mem _ hx))]

theorem all_congr_mem {α : Type} (l : List α) (f g : α → Bool) (h : ∀ x ∈ l, f x = g x) :
    l.all f = l.all g := by
  induction l with
  | nil => rfl
  | cons a rest ih =>
    simp only [List.all_cons]
    rw [h a (List.mem_cons_self _ _), ih (fun x hx => h x (List.mem_cons_of_mem _ hx))]

/-- Any two budgets above the number of empty squares give the same verdict. -/
theorem humanForcesWin_fuel (botPlayer humanPlayer : Mark) :
    ∀ (fuel1 fuel2 : Nat) (b : Board) (t : Bool),
      (getEmptySquares b).length < fuel1 → (getEmptySquares b).length < fuel2 →
      humanForcesWin fuel1 b t botPlayer humanPlayer
        = humanForcesWin fuel2 b t botPlayer humanPlayer := by
  intro fuel1
  induction fuel1 with
  | zero => intro fuel2 b t h; omega
  | succ n ih =>
    intro fuel2 b t h1 h2
    cases fuel2 with
    | zero => omega
    | succ m =>
      simp only [humanForcesWin]
      have hrec : ∀ (mk : Mark) (idx : Nat), idx ∈ getEmptySquares b →
          (getEmptySquares (b.set idx (some mk))).length < n ∧
          (getEmptySquares (b.set idx (some mk))).length < m := by
        intro mk idx hidx
        have := getEmptySquares_length_set b mk idx ((mem_getEmptySquares b idx).1 hidx)
        omega
      split
      · rfl
      · split
        · rfl
        · split
          · rfl
          · split
            · exact any_congr_mem _ _ _ (fun idx hidx =>
                ih m _ _ (hrec humanPlayer idx hidx).1 (hrec humanPlayer idx hidx).2)
            · exact all_congr_mem _ _ _ (fun idx hidx =>
                ih m _ _ (hrec botPlayer idx hidx).1 (hrec botPlayer idx hidx).2)

/-- While the game cannot go beyond ply 9, the unpruned score is negative exactly when the
human can force a win. -/
theorem plainMinimax_neg_iff (botPlayer humanPlayer : Mark) :
    ∀ (fuel : Nat) (b : Board) (depth : Nat) (isMax : Bool),
      depth + (getEmptySquares b).length ≤ 9 →
      (plainMinimax fuel b depth isMax botPlayer humanPlayer < Score.fin 0 ↔
        humanForcesWin fuel b (!isMax) botPlayer humanPlayer = true) := by
  intro fuel
  induction fuel with
  | zero =>
    intro b depth isMax _
    simp [plainMinimax, humanForcesWin]
  | succ fuel ih =>
    intro b depth isMax h
    simp only [plainMinimax, humanForcesWin]
    split
    · rw [score_fin_lt_fin]
      simp only [Bool.false_eq_true, iff_false, not_lt]
      omega
    · split
      · rw [score_fin_lt_fin]
        simp only [iff_true]
        omega
      · split
        · simp
        · have hrec : ∀ (m : Mark) (idx : Nat), idx ∈ getEmptySquares b →
              depth + 1 + (getEmptySquares (b.set idx (some m))).length ≤ 9 := by
            intro m idx hidx
            have := getEmptySquares_length_set b m idx ((mem_getEmptySquares b idx).1 hidx)
            omega
          cases isMax with
          | true =>
            simp only [if_true, Bool.not_true, Bool.false_eq_true, if_false]
            rw [foldl_max_lt_iff, List.all_eq_true]
            constructor
            · rintro ⟨_, h2⟩ idx hidx
              exact (ih _ _ false (hrec botPlayer idx hidx)).1 (h2 idx hidx)
            · intro h2
              exact ⟨score_negInf_lt_fin 0, fun idx hidx =>
                (ih _ _ false (hrec botPlayer idx hidx)).2 (h2 idx hidx)⟩
          | false =>
            simp only [Bool.false_eq_true, if_false, Bool.not_false, if_true]
            rw [← not_le, le_foldl_min_iff, List.any_eq_true]
            constructor
            · intro h2
              by_contra h3
              apply h2
              refine ⟨score_le_posInf _, fun idx hidx => ?_⟩
              by_contra h4
              exact h3 ⟨idx, hidx, (ih _ _ true (hrec humanPlayer idx hidx)).1 (not_le.1 h4)⟩
            · rintro ⟨idx, hidx, h2⟩ ⟨_, h3⟩
              exact absurd ((ih _ _ true (hrec humanPlayer idx hidx)).2 h2)
                (not_lt.2 (h3 idx hidx))

/-! ## A sufficient test for positions the human cannot win by force -/

theorem holds_iff (m : Mark) (c : Cell) : holds m c = true ↔ c = some m := by
  cases m <;> rcases c with _ | ⟨_ | _⟩ <;> simp [holds]

theorem forceCell_eq {β : Type} (c : Cell) (k : Cell → β) : forceCell c k = k c := by
  rcases c with _ | ⟨_ | _⟩ <;> rfl

theorem forceBoard_eq {β : Type} : ∀ (b : Board) (k : Board → β), forceBoard b k = k b := by
  intro b
  induction b with
  | nil => intro k; rfl
  | cons c cs ih =>
    intro k
    simp only [forceBoard, forceCell_eq, ih]

theorem isEmptyAt_iff : ∀ (i : Nat) (b : Board), isEmptyAt i b = true ↔ b[i]? = some none := by
  intro i
  induction i with
  | zero =>
    intro b
    rcases b with _ | ⟨_ | c, cs⟩ <;> simp [isEmptyAt]
  | succ j ih =>
    intro b
    rcases b with _ | ⟨c, cs⟩
    · simp [isEmptyAt]
    · simp only [isEmptyAt, List.getElem?_cons_succ]
      exact ih cs

theorem board_nine (b : Board) (h : b.length = 9) :
    ∃ c0 c1 c2 c3 c4 c5 c6 c7 c8, b = [c0, c1, c2, c3, c4, c5, c6, c7, c8] := by
  match b, h with
  | [c0, c1, c2, c3, c4, c5, c6, c7, c8], _ => exact ⟨c0, c1, c2, c3, c4, c5, c6, c7, c8, rfl⟩

theorem wins_of_lineHeld (b : Board) (m : Mark) (hlen : b.length = 9) (l : Nat × Nat × Nat)
    (hl : l ∈ lines) (h : lineHeld b l m) : wins m b = true := by
  obtain ⟨c0, c1, c2, c3, c4, c5, c6, c7, c8, rfl⟩ := board_nine b hlen
  have hm : holds m (some m) = true := (holds_iff m _).2 rfl
  simp only [lines, List.mem_cons, List.mem_singleton, List.not_mem_nil, or_false] at hl
  rcases hl with rfl | rfl | rfl | rfl | rfl | rfl | rfl | rfl <;>
  · obtain ⟨h1, h2, h3⟩ := h
    simp only [cellAt, List.getElem?_cons_zero, List.getElem?_cons_succ, Option.getD_some]
      at h1 h2 h3
    subst h1 h2 h3
    simp [wins, line3, hm]

theorem lineHeld_of_wins (b : Board) (m : Mark) (h : wins m b = true) :
    ∃ l ∈ lines, lineHeld b l m := by
  unfold wins at h
  split at h
  · rename_i c0 c1 c2 c3 c4 c5 c6 c7 c8
    simp only [line3, Bool.or_eq_true, Bool.and_eq_true, holds_iff] at h
    rcases h with h | h | h | h | h | h | h | h
    · exact ⟨(0, 1, 2), by simp [lines], by simpa [lineHeld, cellAt] using h⟩
    · exact ⟨(3, 4, 5), by simp [lines], by simpa [lineHeld, cellAt] using h⟩
    · exact ⟨(6, 7, 8), by simp [lines], by simpa [lineHeld, cellAt] using h⟩
    · exact ⟨(0, 3, 6), by simp [lines], by simpa [lineHeld, cellAt] using h⟩
    · exact ⟨(1, 4, 7), by simp [lines], by simpa [lineHeld, cellAt] using h⟩
    · exact ⟨(2, 5, 8), by simp [lines], by simpa [lineHeld, cellAt] using h⟩
    · exact ⟨(0, 4, 8), by simp [lines], by simpa [lineHeld, cellAt] using h⟩
    · exact ⟨(2, 4, 6), by simp [lines], by simpa [lineHeld, cellAt] using h⟩
  · simp at h

theorem mark_cases (botPlayer humanPlayer : Mark) (hne : botPlayer ≠ humanPlayer) (m : Mark) :
    m = botPlayer ∨ m = humanPlayer := by
  cases botPlayer <;> cases humanPlayer <;> cases m <;> simp at hne ⊢

/-- The test `botSafe` is sound: a position that passes it is not a forced win of the
human. -/
theorem botSafe_sound (botPlayer humanPlayer : Mark) (hne : botPlayer ≠ humanPlayer) :
    ∀ (fuel : Nat) (b : Board) (t : Bool), b.length = 9 →
      botSafe fuel b t botPlayer humanPlayer = true →
      humanForcesWin fuel b t botPlayer humanPlayer = false := by
  intro fuel
  induction fuel with
  | zero => intro b t _ _; rfl
  | succ fuel ih =>
    intro b t hlen hs
    simp only [botSafe, forceBoard_eq] at hs
    simp only [humanForcesWin]
    by_cases hwh : wins humanPlayer b = true
    · rw [if_pos hwh] at hs; exact absurd hs (by simp)
    · rw [if_neg hwh] at hs
      have hnoh : checkWinner b ≠ some humanPlayer := by
        intro hc
        obtain ⟨l, hl, hheld⟩ := checkWinner_some_held b humanPlayer hc
        exact hwh (wins_of_lineHeld b humanPlayer hlen l hl hheld)
      by_cases hcb : checkWinner b = some botPlayer
      · rw [if_pos hcb]
      · rw [if_neg hcb, if_neg hnoh]
        by_cases hfull : isBoardFull b = true
        · rw [if_pos hfull]
        · rw [if_neg hfull]
          have hnone : checkWinner b = none := by
            cases hw : checkWinner b with
            | none => rfl
            | some m =>
              rcases mark_cases botPlayer humanPlayer hne m with rfl | rfl
              · exact absurd hw hcb
              · exact absurd hw hnoh
          have hwb : ¬ wins botPlayer b = true := by
            intro hw
            obtain ⟨l, hl, hheld⟩ := lineHeld_of_wins b botPlayer hw
            exact (checkWinner_eq_none_iff b).1 hnone l hl botPlayer hheld
          rw [if_neg hwb] at hs
          cases t with
          | true =>
            simp only [if_true] at hs ⊢
            rw [List.all_eq_true] at hs
            rw [List.any_eq_false]
            intro idx hidx
            have hidx1 := (mem_getEmptySquares b idx).1 hidx
            have hlt : idx < 9 := hlen ▸ lt_length_of_getElem? hidx1
            have hmem : idx ∈ tryOrder := by
              unfold tryOrder
              have : idx = 0 ∨ idx = 1 ∨ idx = 2 ∨ idx = 3 ∨ idx = 4 ∨ idx = 5 ∨ idx = 6
                  ∨ idx = 7 ∨ idx = 8 := by omega
              rcases this with rfl | rfl | rfl | rfl | rfl | rfl | rfl | rfl | rfl <;> simp
            have h1 := hs idx hmem
            rw [(isEmptyAt_iff idx b).2 hidx1] at h1
            simp only [Bool.not_true, Bool.false_or] at h1
            rw [ih _ _ (by rw [List.length_set]; exact hlen) h1]
            simp
          | false =>
            simp only [Bool.false_eq_true, if_false] at hs ⊢
            rw [Bool.or_eq_true] at hs
            rcases hs with hs | hs
            · exact absurd hs hfull
            · rw [List.any_eq_true] at hs
              obtain ⟨idx, _, h1⟩ := hs
              rw [Bool.and_eq_true] at h1
              have hidx1 := (isEmptyAt_iff idx b).1 h1.1
              rw [List.all_eq_false]
              refine ⟨idx, (mem_getEmptySquares b idx).2 hidx1, ?_⟩
              rw [ih _ _ (by rw [List.length_set]; exact hlen) h1.2]
              simp


/-! ## The opening positions -/

set_option maxRecDepth 1000000 in
theorem botSafe_start_human_first_O :
    botSafe 10 emptyBoard true Mark.O Mark.X = true := by decide!

set_option maxRecDepth 1000000 in
theorem botSafe_start_human_first_X :
    botSafe 10 emptyBoard true Mark.X Mark.O = true := by decide!

set_option maxRecDepth 1000000 in
theorem botSafe_start_bot_first_O :
    botSafe 10 emptyBoard false Mark.O Mark.X = true := by decide!

set_option maxRecDepth 1000000 in
theorem botSafe_start_bot_first_X :
    botSafe 10 emptyBoard false Mark.X Mark.O = true := by decide!

set_option maxRecDepth 1000000 in
theorem botSafe_openings_O :
    [0, 2, 4, 6, 8].all
      (fun i => botSafe 10 (emptyBoard.set i (some Mark.O)) true Mark.O Mark.X) = true := by
  decide!

set_option maxRecDepth 1000000 in
theorem botSafe_openings_X :
    [0, 2, 4, 6, 8].all
      (fun i => botSafe 10 (emptyBoard.set i (some Mark.X)) true Mark.X Mark.O) = true := by
  decide!

/-- On the empty board, with either side to move, and after each of the five opening moves
of the bot, the human has no forced win. -/
theorem humanForcesWin_start (botPlayer humanPlayer : Mark) (hne : botPlayer ≠ humanPlayer) :
    (∀ t, humanForcesWin 10 emptyBoard t botPlayer humanPlayer = false) ∧
    (∀ i ∈ [0, 2, 4, 6, 8],
      humanForcesWin 10 (emptyBoard.set i (some botPlayer)) true botPlayer humanPlayer = false) := by
  have key : (∀ t, botSafe 10 emptyBoard t botPlayer humanPlayer = true) ∧
      ([0, 2, 4, 6, 8].all (fun i => botSafe 10 (emptyBoard.set i (some botPlayer)) true
        botPlayer humanPlayer) = true) := by
    cases botPlayer <;> cases humanPlayer
    · exact absurd rfl hne
    · exact ⟨fun t => by
        cases t
        · exact botSafe_start_bot_first_X
        · exact botSafe_start_human_first_X, botSafe_openings_X⟩
    · exact ⟨fun t => by
        cases t
        · exact botSafe_start_bot_first_O
        · exact botSafe_start_human_first_O, botSafe_openings_O⟩
    · exact absurd rfl hne
  refine ⟨fun t => botSafe_sound botPlayer humanPlayer hne 10 _ t rfl (key.1 t), ?_⟩
  intro i hi
  have h1 := List.all_eq_true.1 key.2 i hi
  exact botSafe_sound botPlayer humanPlayer hne 10 _ true
    (by rw [List.length_set]; rfl) h1

/-! ## The pro tier never hands the human a forced win -/

/-- Unfolding of `humanForcesWin` at an undecided position where the bot moves. -/
theorem humanForcesWin_bot_node (botPlayer humanPlayer : Mark) (fuel : Nat) (b : Board)
    (hw : checkWinner b = none) (hne : getEmptySquares b ≠ []) :
    humanForcesWin (fuel + 1) b false botPlayer humanPlayer
      = (getEmptySquares b).all (fun idx =>
          humanForcesWin fuel (b.set idx (some botPlayer)) true botPlayer humanPlayer) := by
  have hfull : ¬ isBoardFull b = true := by
    rw [isBoardFull_eq_true_iff]; exact hne
  simp [humanForcesWin, hw, hfull]

/-- Unfolding of `humanForcesWin` at an undecided position where the human moves. -/
theorem humanForcesWin_human_node (botPlayer humanPlayer : Mark) (fuel : Nat) (b : Board)
    (hw : checkWinner b = none) (hne : getEmptySquares b ≠ []) :
    humanForcesWin (fuel + 1) b true botPlayer humanPlayer
      = (getEmptySquares b).any (fun idx =>
          humanForcesWin fuel (b.set idx (some humanPlayer)) false botPlayer humanPlayer) := by
  have hfull : ¬ isBoardFull b = true := by
    rw [isBoardFull_eq_true_iff]; exact hne
  simp [humanForcesWin, hw, hfull]

theorem getEmptySquares_set_lt (b : Board) (m : Mark) (idx : Nat) (hlen : b.length = 9)
    (hidx : b[idx]? = some none) : (getEmptySquares (b.set idx (some m))).length < 9 := by
  have h1 := getEmptySquares_length_set b m idx hidx
  have h2 := getEmptySquares_length_le b
  omega

/-- The root score of a move is negative exactly when the move hands the human a forced
win. -/
theorem rootScore_neg_iff (b : Board) (botPlayer humanPlayer : Mark) (idx : Nat)
    (hlen : b.length = 9) (hidx : b[idx]? = some none) :
    rootScore b botPlayer humanPlayer idx < Score.fin 0 ↔
      humanForcesWin 10 (b.set idx (some botPlayer)) true botPlayer humanPlayer = true := by
  rw [rootScore_eq_plain, hlen]
  have h := getEmptySquares_set_lt b botPlayer idx hlen hidx
  exact plainMinimax_neg_iff botPlayer humanPlayer 10 _ 0 false (by omega)

/-- From an undecided nine-cell position in which the human has no forced win, the move kept
by `getProMove` leads to a position in which the human has no forced win. -/
theorem pickBest_keeps_safe (b : Board) (botPlayer humanPlayer : Mark) (hlen : b.length = 9)
    (hw : checkWinner b = none) (hne : getEmptySquares b ≠ [])
    (hsafe : humanForcesWin 10 b false botPlayer humanPlayer = false) (i : Nat)
    (hi : pickBest (rootScore b botPlayer humanPlayer) (getEmptySquares b) Score.negInf
      (elemAt (getEmptySquares b) 0) = Answer.cell i) :
    b[i]? = some none ∧
      humanForcesWin 10 (b.set i (some botPlayer)) true botPlayer humanPlayer = false := by
  obtain ⟨i1, hi1, hmem, hmax, _⟩ := pickBest_argmax (rootScore b botPlayer humanPlayer)
    (getEmptySquares b) (getEmptySquares_sorted b) hne
  have hii : i1 = i := by
    rw [hi] at hi1
    exact (Answer.cell.inj hi1).symm
  subst hii
  have hcell := (mem_getEmptySquares b i1).1 hmem
  refine ⟨hcell, ?_⟩
  rw [humanForcesWin_bot_node botPlayer humanPlayer 9 b hw hne, List.all_eq_false] at hsafe
  obtain ⟨j, hj, hjs⟩ := hsafe
  have hjcell := (mem_getEmptySquares b j).1 hj
  have hj10 : humanForcesWin 10 (b.set j (some botPlayer)) true botPlayer humanPlayer = false := by
    rw [humanForcesWin_fuel botPlayer humanPlayer 10 9 _ _
      (by have := getEmptySquares_set_lt b botPlayer j hlen hjcell; omega)
      (getEmptySquares_set_lt b botPlayer j hlen hjcell)]
    simpa using hjs
  have hjscore : ¬ rootScore b botPlayer humanPlayer j < Score.fin 0 := by
    rw [rootScore_neg_iff b botPlayer humanPlayer j hlen hjcell, hj10]
    simp
  have hiscore : ¬ rootScore b botPlayer humanPlayer i1 < Score.fin 0 :=
    fun h => hjscore (lt_of_le_of_lt (hmax j hj) h)
  rw [rootScore_neg_iff b botPlayer humanPlayer i1 hlen hcell] at hiscore
  simpa using hiscore

theorem eq_emptyBoard_of_all_empty (b : Board) (hlen : b.length = 9)
    (h9 : (getEmptySquares b).length = 9) : b = emptyBoard := by
  have hall := getEmptySquares_all_of_length b (by rw [h9, hlen])
  apply List.ext_getElem?
  intro i
  by_cases hi : i < 9
  · rw [hall i (by rw [hlen]; exact hi)]
    unfold emptyBoard
    rw [List.getElem?_replicate_of_lt hi]
  · rw [List.getElem?_eq_none (by rw [hlen]; omega)]
    unfold emptyBoard
    rw [List.getElem?_eq_none (by simp; omega)]

/-- One move of the pro tier, as `getBestMove` answers it, keeps the human without a forced
win. -/
theorem getBestMove_keeps_safe (b b1 : Board) (botPlayer humanPlayer : Mark) (rnd : Nat → ℚ)
    (i : Nat) (hne : botPlayer ≠ humanPlayer) (hlen : b.length = 9)
    (hw : checkWinner b = none) (hr : validRnd rnd)
    (hsafe : humanForcesWin 10 b false botPlayer humanPlayer = false)
    (hmove : getBestMove b botPlayer humanPlayer Difficulty.pro rnd
      = some (b1, Answer.cell i)) :
    b1 = b ∧ b[i]? = some none ∧
      humanForcesWin 10 (b.set i (some botPlayer)) true botPlayer humanPlayer = false := by
  obtain ⟨a, ha⟩ := getBestMove_total b botPlayer humanPlayer Difficulty.pro rnd
  have hb1 : b1 = b := by
    rw [ha] at hmove
    exact (Prod.mk.inj (Option.some.inj hmove)).1.symm
  subst hb1
  refine ⟨rfl, ?_⟩
  unfold getBestMove at hmove
  simp only at hmove
  by_cases h0 : (getEmptySquares b1).length = 0
  · rw [if_pos h0] at hmove
    simp at hmove
  · rw [if_neg h0] at hmove
    have hnempty : getEmptySquares b1 ≠ [] := fun h => h0 (by rw [h]; rfl)
    by_cases h9 : (getEmptySquares b1).length = 9
    · rw [if_pos h9] at hmove
      have hb := eq_emptyBoard_of_all_empty b1 hlen h9
      obtain ⟨v, hv, he⟩ := elemAt_floor [0, 2, 4, 6, 8] (rnd 0) (by simp) (by simp) (hr 0).1
        (hr 0).2.1 (hr 0).2.2
      have he2 : elemAt [0, 2, 4, 6, 8] ⌊roundDouble (rnd 0 * 5)⌋ = Answer.cell v := by
        have : ((([0, 2, 4, 6, 8] : List Nat).length : ℕ) : ℚ) = 5 := by norm_num
        rw [this] at he; exact he
      rw [he2] at hmove
      have hvi : v = i := Answer.cell.inj (Prod.mk.inj (Option.some.inj hmove)).2
      subst hvi
      have hcell : b1[v]? = some none := by
        apply getEmptySquares_all_of_length b1 (by rw [h9, hlen])
        rw [hlen]
        simp at hv
        omega
      refine ⟨hcell, ?_⟩
      rw [hb]
      exact (humanForcesWin_start botPlayer humanPlayer hne).2 v hv
    · rw [if_neg h9, if_neg (by decide), getProMove_eq] at hmove
      have hpick := (Prod.mk.inj (Option.some.inj hmove)).2
      exact pickBest_keeps_safe b1 botPlayer humanPlayer hlen hw hnempty hsafe i hpick

/-- Invariant of play against the pro tier: nine cells, and no forced win for the human. -/
theorem playFrom_invariant (botPlayer humanPlayer : Mark) (hne : botPlayer ≠ humanPlayer)
    (start : Board) (t0 : Bool) (hstart : start.length = 9)
    (hsafe0 : humanForcesWin 10 start (!t0) botPlayer humanPlayer = false)
    (b : Board) (botToMove : Bool)
    (h : PlayFrom botPlayer humanPlayer start t0 b botToMove) :
    b.length = 9 ∧ humanForcesWin 10 b (!botToMove) botPlayer humanPlayer = false := by
  induction h with
  | here => exact ⟨hstart, hsafe0⟩
  | human squares i _ hw hi ih =>
    obtain ⟨hlen, hsafe⟩ := ih
    refine ⟨by rw [List.length_set]; exact hlen, ?_⟩
    have hnempty : getEmptySquares squares ≠ [] := List.ne_nil_of_mem hi
    simp only [Bool.not_false] at hsafe
    rw [humanForcesWin_human_node botPlayer humanPlayer 9 squares hw hnempty,
      List.any_eq_false] at hsafe
    have hcell := (mem_getEmptySquares squares i).1 hi
    have h9 := getEmptySquares_set_lt squares humanPlayer i hlen hcell
    simp only [Bool.not_true]
    rw [humanForcesWin_fuel botPlayer humanPlayer 10 9 _ _ (by omega) h9]
    simpa using hsafe i hi
  | bot squares squares1 i rnd _ hw hr hmove ih =>
    obtain ⟨hlen, hsafe⟩ := ih
    simp only [Bool.not_true] at hsafe
    obtain ⟨hb, _, hnext⟩ := getBestMove_keeps_safe squares squares1 botPlayer humanPlayer rnd i
      hne hlen hw hr hsafe hmove
    subst hb
    exact ⟨by rw [List.length_set]; exact hlen, by simpa using hnext⟩

theorem play_invariant (botPlayer humanPlayer : Mark) (hne : botPlayer ≠ humanPlayer)
    (b : Board) (botToMove : Bool) (h : Play botPlayer humanPlayer b botToMove) :
    b.length = 9 ∧ humanForcesWin 10 b (!botToMove) botPlayer humanPlayer = false := by
  obtain ⟨botFirst, h⟩ := h
  exact playFrom_invariant botPlayer humanPlayer hne emptyBoard botFirst rfl
    ((humanForcesWin_start botPlayer humanPlayer hne).1 _) b botToMove h

theorem not_human_winner_of_safe (botPlayer humanPlayer : Mark) (hne : botPlayer ≠ humanPlayer)
    (fuel : Nat) (b : Board) (t : Bool)
    (h : humanForcesWin (fuel + 1) b t botPlayer humanPlayer = false) :
    checkWinner b ≠ some humanPlayer := by
  intro hc
  have hnb : checkWinner b ≠ some botPlayer := by
    rw [hc]; intro h1; exact hne (Option.some.inj h1).symm
  simp [humanForcesWin, hc, hnb] at h
  exact hne h.symm

/-! ## Lines held before and after a move -/

theorem cellAt_of_set (b : Board) (k x : Nat) (v : Cell) (m1 : Mark)
    (h : cellAt (b.set k v) x = some m1) (hv : v ≠ some m1) : cellAt b x = some m1 := by
  by_cases hk : k = x
  · subst hk
    by_cases hlt : k < b.length
    · rw [cellAt_set_self b k v hlt] at h
      exact absurd h hv
    · rw [List.set_eq_of_length_le (by omega)] at h
      exact h
  · rw [cellAt_set_ne b k x v hk] at h
    exact h

theorem cellAt_set_of_empty (b : Board) (k x : Nat) (v : Cell) (m1 : Mark)
    (h : cellAt b x = some m1) (hk : cellAt b k = none) : cellAt (b.set k v) x = some m1 := by
  have hne : k ≠ x := by
    intro e; subst e; rw [hk] at h; exact absurd h (by simp)
  rw [cellAt_set_ne b k x v hne]
  exact h

theorem lineHeld_of_set (b : Board) (k : Nat) (m m1 : Mark) (l : Nat × Nat × Nat)
    (h : lineHeld (b.set k (some m)) l m1) (hne : m1 ≠ m) : lineHeld b l m1 := by
  have hv : (some m : Cell) ≠ some m1 := fun e => hne (Option.some.inj e).symm
  exact ⟨cellAt_of_set b k _ _ m1 h.1 hv, cellAt_of_set b k _ _ m1 h.2.1 hv,
    cellAt_of_set b k _ _ m1 h.2.2 hv⟩

theorem lineHeld_set_of_empty (b : Board) (k : Nat) (v : Cell) (m1 : Mark)
    (l : Nat × Nat × Nat) (h : lineHeld b l m1) (hk : cellAt b k = none) :
    lineHeld (b.set k v) l m1 :=
  ⟨cellAt_set_of_empty b k _ v m1 h.1 hk, cellAt_set_of_empty b k _ v m1 h.2.1 hk,
    cellAt_set_of_empty b k _ v m1 h.2.2 hk⟩

/-- After a move on a board without winner only the mover can be the winner. -/
theorem checkWinner_set_eq (b : Board) (k : Nat) (m m1 : Mark) (hw : checkWinner b = none)
    (h : checkWinner (b.set k (some m)) = some m1) : m1 = m := by
  by_contra hne
  obtain ⟨l, hl, hheld⟩ := checkWinner_some_held _ m1 h
  exact (checkWinner_eq_none_iff b).1 hw l hl m1 (lineHeld_of_set b k m m1 l hheld hne)

theorem checkWinner_set_ne_other (b : Board) (k : Nat) (m m1 : Mark)
    (hw : checkWinner b = none) (hne : m1 ≠ m) : checkWinner (b.set k (some m)) ≠ some m1 :=
  fun h => hne (checkWinner_set_eq b k m m1 hw h)

theorem cellAt_eq_none_of_empty (b : Board) (k : Nat) (h : b[k]? = some none) :
    cellAt b k = none := cellAt_of_getElem? b k none h

/-! ## Terminal scores at the root -/

theorem plainMinimax_bot_win (botPlayer humanPlayer : Mark) (fuel : Nat) (b : Board)
    (depth : Nat) (isMax : Bool) (h : checkWinner b = some botPlayer) :
    plainMinimax (fuel + 1) b depth isMax botPlayer humanPlayer
      = Score.fin (10 - (depth : Int)) := by
  simp [plainMinimax, h]

theorem plainMinimax_human_win (botPlayer humanPlayer : Mark) (hne : botPlayer ≠ humanPlayer)
    (fuel : Nat) (b : Board) (depth : Nat) (isMax : Bool)
    (h : checkWinner b = some humanPlayer) :
    plainMinimax (fuel + 1) b depth isMax botPlayer humanPlayer
      = Score.fin ((depth : Int) - 10) := by
  have h1 : ¬ humanPlayer = botPlayer := fun e => hne e.symm
  simp [plainMinimax, h, h1]

theorem plainMinimax_step (botPlayer humanPlayer : Mark) (fuel : Nat) (b : Board)
    (depth : Nat) (isMax : Bool) (hb : checkWinner b ≠ some botPlayer)
    (hh : checkWinner b ≠ some humanPlayer) (hne : getEmptySquares b ≠ []) :
    plainMinimax (fuel + 1) b depth isMax botPlayer humanPlayer
      = if isMax then
          (getEmptySquares b).foldl (fun acc idx => max acc
            (plainMinimax fuel (b.set idx (some botPlayer)) (depth + 1) false
              botPlayer humanPlayer)) Score.negInf
        else
          (getEmptySquares b).foldl (fun acc idx => min acc
            (plainMinimax fuel (b.set idx (some humanPlayer)) (depth + 1) true
              botPlayer humanPlayer)) Score.posInf := by
  have hfull : ¬ isBoardFull b = true := by
    rw [isBoardFull_eq_true_iff]; exact hne
  simp only [plainMinimax, if_neg hb, if_neg hh, if_neg hfull]

theorem plainMinimax_full (botPlayer humanPlayer : Mark) (fuel : Nat) (b : Board)
    (depth : Nat) (isMax : Bool) (hb : checkWinner b ≠ some botPlayer)
    (hh : checkWinner b ≠ some humanPlayer) (hfull : getEmptySquares b = []) :
    plainMinimax (fuel + 1) b depth isMax botPlayer humanPlayer = Score.fin 0 := by
  have hf : isBoardFull b = true := (isBoardFull_eq_true_iff b).2 hfull
  simp [plainMinimax, hb, hh, hf]

/-- Every root score on a nine-cell board is at most 10. -/
theorem rootScore_le_ten (b : Board) (botPlayer humanPlayer : Mark) (idx : Nat)
    (hlen : b.length = 9) (hidx : b[idx]? = some none) :
    rootScore b botPlayer humanPlayer idx ≤ Score.fin 10 := by
  rw [rootScore_eq_plain]
  have h := getEmptySquares_set_lt b botPlayer idx hlen hidx
  obtain ⟨v, hv, _, h2⟩ := plainMinimax_bounds botPlayer humanPlayer (b.length + 1)
    (b.set idx (some botPlayer)) 0 false (by omega)
  rw [hv, score_fin_le_fin]
  simpa using h2

/-- A move that completes a line for the bot has root score 10. -/
theorem rootScore_of_win (b : Board) (botPlayer humanPlayer : Mark) (idx : Nat)
    (h : checkWinner (b.set idx (some botPlayer)) = some botPlayer) :
    rootScore b botPlayer humanPlayer idx = Score.fin 10 := by
  rw [rootScore_eq_plain, plainMinimax_bot_win botPlayer humanPlayer _ _ _ _ h]
  simp

/-- A move that does not complete a line for the bot has root score below 10. -/
theorem rootScore_lt_ten (b : Board) (botPlayer humanPlayer : Mark)
    (hne : botPlayer ≠ humanPlayer) (idx : Nat)
    (hlen : b.length = 9) (hidx : b[idx]? = some none)
    (h : checkWinner (b.set idx (some botPlayer)) ≠ some botPlayer) :
    rootScore b botPlayer humanPlayer idx < Score.fin 10 := by
  rw [rootScore_eq_plain]
  have he := getEmptySquares_set_lt b botPlayer idx hlen hidx
  by_cases hh : checkWinner (b.set idx (some botPlayer)) = some humanPlayer
  · rw [plainMinimax_human_win botPlayer humanPlayer hne _ _ _ _ hh, score_fin_lt_fin]
    simp
  · by_cases hfull : getEmptySquares (b.set idx (some botPlayer)) = []
    · rw [plainMinimax_full botPlayer humanPlayer _ _ _ _ h hh hfull, score_fin_lt_fin]
      simp
    · rw [plainMinimax_step botPlayer humanPlayer _ _ _ _ h hh hfull]
      simp only [Bool.false_eq_true, if_false]
      obtain ⟨j, hj, hatt⟩ := foldl_min_posInf_attained
        (fun j => plainMinimax b.length ((b.set idx (some botPlayer)).set j (some humanPlayer))
          (0 + 1) true botPlayer humanPlayer) _ hfull
      rw [hatt]
      have hj1 := getEmptySquares_length_set (b.set idx (some botPlayer)) humanPlayer j
        ((mem_getEmptySquares _ j).1 hj)
      obtain ⟨v, hv, _, h2⟩ := plainMinimax_bounds botPlayer humanPlayer b.length
        ((b.set idx (some botPlayer)).set j (some humanPlayer)) (0 + 1) true (by omega)
      rw [hv, score_fin_lt_fin]
      push_cast at h2
      omega

/-- With an immediately winning cell on the board, `getProMove` keeps the lowest such cell. -/
theorem pickBest_takes_win (b : Board) (botPlayer humanPlayer : Mark)
    (hne : botPlayer ≠ humanPlayer) (hlen : b.length = 9) (w : Nat)
    (hw : b[w]? = some none)
    (hwin : checkWinner (b.set w (some botPlayer)) = some botPlayer)
    (hfirst : ∀ j, j < w → b[j]? = some none →
      checkWinner (b.set j (some botPlayer)) ≠ some botPlayer) :
    pickBest (rootScore b botPlayer humanPlayer) (getEmptySquares b) Score.negInf
      (elemAt (getEmptySquares b) 0) = Answer.cell w := by
  have hwmem : w ∈ getEmptySquares b := (mem_getEmptySquares b w).2 hw
  obtain ⟨i, hi, hmem, hmax, hlow⟩ := pickBest_argmax (rootScore b botPlayer humanPlayer)
    (getEmptySquares b) (getEmptySquares_sorted b) (List.ne_nil_of_mem hwmem)
  have hcell := (mem_getEmptySquares b i).1 hmem
  have hw10 := rootScore_of_win b botPlayer humanPlayer w hwin
  have hi10 : Score.fin 10 ≤ rootScore b botPlayer humanPlayer i := hw10 ▸ hmax w hwmem
  have hiwin : checkWinner (b.set i (some botPlayer)) = some botPlayer := by
    by_contra hc
    exact absurd (rootScore_lt_ten b botPlayer humanPlayer hne i hlen hcell hc) (not_lt.2 hi10)
  have hiw : i = w := by
    rcases Nat.lt_trichotomy i w with h | h | h
    · exact absurd hiwin (hfirst i h hcell)
    · exact h
    · have := hlow w hwmem h
      rw [hw10] at this
      exact absurd (rootScore_le_ten b botPlayer humanPlayer i hlen hcell) (not_le.2 this)
  rw [hi, hiw]

/-! ## Blocking the only threat -/

theorem foldl_min_le_of_mem {α : Type} [LinearOrder α] (f : Nat → α) (l : List Nat) (x : α)
    (idx : Nat) (h : idx ∈ l) : l.foldl (fun acc idx => min acc (f idx)) x ≤ f idx :=
  ((le_foldl_min_iff f _ l x).1 (le_refl _)).2 idx h

/-- A move that leaves the human's winning cell `c` open has root score at most -9. -/
theorem rootScore_le_of_threat (b : Board) (botPlayer humanPlayer : Mark)
    (hne : botPlayer ≠ humanPlayer) (hlen : b.length = 9) (hw : checkWinner b = none)
    (hnowin : ∀ j, b[j]? = some none → checkWinner (b.set j (some botPlayer)) ≠ some botPlayer)
    (c : Nat) (hc : b[c]? = some none)
    (hthreat : checkWinner (b.set c (some humanPlayer)) = some humanPlayer)
    (j : Nat) (hj : b[j]? = some none) (hjc : j ≠ c) :
    rootScore b botPlayer humanPlayer j ≤ Score.fin (-9) := by
  rw [rootScore_eq_plain, hlen]
  have hjlt : j < b.length := lt_length_of_getElem? hj
  have hb1 : checkWinner (b.set j (some botPlayer)) ≠ some botPlayer := hnowin j hj
  have hh1 : checkWinner (b.set j (some botPlayer)) ≠ some humanPlayer :=
    checkWinner_set_ne_other b j botPlayer humanPlayer hw (fun e => hne e.symm)
  have hcmem : c ∈ getEmptySquares (b.set j (some botPlayer)) :=
    (mem_getEmptySquares_set b botPlayer j c hjlt).2
      ⟨fun e => hjc e.symm, (mem_getEmptySquares b c).2 hc⟩
  rw [plainMinimax_step botPlayer humanPlayer _ _ _ _ hb1 hh1 (List.ne_nil_of_mem hcmem)]
  simp only [Bool.false_eq_true, if_false]
  refine le_trans (foldl_min_le_of_mem _ _ _ c hcmem) ?_
  have hwin2 : checkWinner ((b.set j (some botPlayer)).set c (some humanPlayer))
      = some humanPlayer := by
    obtain ⟨l, hl, hheld⟩ := checkWinner_some_held _ humanPlayer hthreat
    have hcj : cellAt (b.set c (some humanPlayer)) j = none := by
      rw [cellAt_set_ne b c j _ (fun e => hjc e.symm)]
      exact cellAt_eq_none_of_empty b j hj
    have hheld2 : lineHeld ((b.set j (some botPlayer)).set c (some humanPlayer)) l humanPlayer := by
      rw [List.set_comm _ _ _ hjc]
      exact lineHeld_set_of_empty _ j _ humanPlayer l hheld hcj
    apply checkWinner_of_held _ humanPlayer l hl hheld2
    intro l1 hl1 m1 h1
    by_contra hm
    have h2 : lineHeld (b.set j (some botPlayer)) l1 m1 :=
      lineHeld_of_set _ c humanPlayer m1 l1 h1 hm
    have hm1 : m1 = botPlayer := by
      rcases mark_cases botPlayer humanPlayer hne m1 with h | h
      · exact h
      · exact absurd h hm
    subst hm1
    cases hcw : checkWinner (b.set j (some m1)) with
    | none => exact (checkWinner_eq_none_iff _).1 hcw l1 hl1 m1 h2
    | some m2 =>
      rcases mark_cases m1 humanPlayer hne m2 with h | h
      · exact hb1 (by rw [hcw, h])
      · exact hh1 (by rw [hcw, h])
  rw [plainMinimax_human_win botPlayer humanPlayer hne _ _ _ _ hwin2, score_fin_le_fin]
  simp

/-- Blocking the human's only winning cell has root score at least -8. -/
theorem rootScore_ge_of_block (b : Board) (botPlayer humanPlayer : Mark)
    (hne : botPlayer ≠ humanPlayer) (hlen : b.length = 9) (hw : checkWinner b = none)
    (hnowin : ∀ j, b[j]? = some none → checkWinner (b.set j (some botPlayer)) ≠ some botPlayer)
    (c : Nat) (hc : b[c]? = some none)
    (honly : ∀ j, b[j]? = some none →
      checkWinner (b.set j (some humanPlayer)) = some humanPlayer → j = c) :
    Score.fin (-8) ≤ rootScore b botPlayer humanPlayer c := by
  rw [rootScore_eq_plain, hlen]
  have hclt : c < b.length := lt_length_of_getElem? hc
  have hb1 : checkWinner (b.set c (some botPlayer)) ≠ some botPlayer := hnowin c hc
  have hh1 : checkWinner (b.set c (some botPlayer)) ≠ some humanPlayer :=
    checkWinner_set_ne_other b c botPlayer humanPlayer hw (fun e => hne e.symm)
  have he1 := getEmptySquares_set_lt b botPlayer c hlen hc
  by_cases hfull : getEmptySquares (b.set c (some botPlayer)) = []
  · rw [plainMinimax_full botPlayer humanPlayer _ _ _ _ hb1 hh1 hfull, score_fin_le_fin]
    simp
  · rw [plainMinimax_step botPlayer humanPlayer _ _ _ _ hb1 hh1 hfull]
    simp only [Bool.false_eq_true, if_false]
    rw [le_foldl_min_iff]
    refine ⟨score_le_posInf _, ?_⟩
    intro h hhmem
    have hh := (mem_getEmptySquares_set b botPlayer c h hclt).1 hhmem
    have hhcell : b[h]? = some none := (mem_getEmptySquares b h).1 hh.2
    have hhcell1 := (mem_getEmptySquares _ h).1 hhmem
    have he2 := getEmptySquares_length_set (b.set c (some botPlayer)) humanPlayer h hhcell1
    have hh2 : checkWinner ((b.set c (some botPlayer)).set h (some humanPlayer))
        ≠ some humanPlayer := by
      intro hcw
      apply hh.1
      apply honly h hhcell
      obtain ⟨l, hl, hheld⟩ := checkWinner_some_held _ humanPlayer hcw
      rw [List.set_comm _ _ _ (fun e => hh.1 e.symm)] at hheld
      have hheld2 : lineHeld (b.set h (some humanPlayer)) l humanPlayer :=
        lineHeld_of_set _ c botPlayer humanPlayer l hheld (fun e => hne e.symm)
      apply checkWinner_of_held _ humanPlayer l hl hheld2
      intro l1 hl1 m1 h1
      by_contra hm
      exact (checkWinner_eq_none_iff b).1 hw l1 hl1 m1
        (lineHeld_of_set b h humanPlayer m1 l1 h1 hm)
    by_cases hb2 : checkWinner ((b.set c (some botPlayer)).set h (some humanPlayer))
        = some botPlayer
    · rw [plainMinimax_bot_win botPlayer humanPlayer _ _ _ _ hb2, score_fin_le_fin]
      simp
    · by_cases hfull2 : getEmptySquares ((b.set c (some botPlayer)).set h (some humanPlayer)) = []
      · rw [plainMinimax_full botPlayer humanPlayer _ _ _ _ hb2 hh2 hfull2, score_fin_le_fin]
        simp
      · rw [plainMinimax_step botPlayer humanPlayer _ _ _ _ hb2 hh2 hfull2]
        simp only [if_true]
        obtain ⟨g, hg, hatt⟩ := foldl_max_negInf_attained
          (fun g => plainMinimax 8
            (((b.set c (some botPlayer)).set h (some humanPlayer)).set g (some botPlayer))
            (0 + 1 + 1) false botPlayer humanPlayer) _ hfull2
        rw [hatt]
        have he3 := getEmptySquares_length_set
          ((b.set c (some botPlayer)).set h (some humanPlayer)) botPlayer g
          ((mem_getEmptySquares _ g).1 hg)
        obtain ⟨v, hv, h1, _⟩ := plainMinimax_bounds botPlayer humanPlayer 8
          (((b.set c (some botPlayer)).set h (some humanPlayer)).set g (some botPlayer))
          (0 + 1 + 1) false (by omega)
        rw [hv, score_fin_le_fin]
        push_cast at h1
        omega

/-- With no winning cell for the bot and exactly one for the human, `getProMove` keeps the
human's winning cell. -/
theorem pickBest_blocks (b : Board) (botPlayer humanPlayer : Mark)
    (hne : botPlayer ≠ humanPlayer) (hlen : b.length = 9) (hw : checkWinner b = none)
    (hnowin : ∀ j, b[j]? = some none → checkWinner (b.set j (some botPlayer)) ≠ some botPlayer)
    (c : Nat) (hc : b[c]? = some none)
    (hthreat : checkWinner (b.set c (some humanPlayer)) = some humanPlayer)
    (honly : ∀ j, b[j]? = some none →
      checkWinner (b.set j (some humanPlayer)) = some humanPlayer → j = c) :
    pickBest (rootScore b botPlayer humanPlayer) (getEmptySquares b) Score.negInf
      (elemAt (getEmptySquares b) 0) = Answer.cell c := by
  have hcmem : c ∈ getEmptySquares b := (mem_getEmptySquares b c).2 hc
  obtain ⟨i, hi, hmem, hmax, _⟩ := pickBest_argmax (rootScore b botPlayer humanPlayer)
    (getEmptySquares b) (getEmptySquares_sorted b) (List.ne_nil_of_mem hcmem)
  have hcell := (mem_getEmptySquares b i).1 hmem
  have hic : i = c := by
    by_contra hne1
    have h1 := rootScore_le_of_threat b botPlayer humanPlayer hne hlen hw hnowin c hc hthreat
      i hcell hne1
    have h2 := rootScore_ge_of_block b botPlayer humanPlayer hne hlen hw hnowin c hc honly
    have h3 := le_trans (le_trans h2 (hmax c hcmem)) h1
    rw [score_fin_le_fin] at h3
    omega
  rw [hi, hic]

/-! ## Concrete random sources and small facts about boards -/

theorem validRnd_zero : validRnd (fun _ => 0) :=
  fun _ => ⟨le_refl 0, by norm_num, roundDouble_zero⟩

theorem checkWinner_after_first_move (w : Nat) (m : Mark) :
    checkWinner (emptyBoard.set w (some m)) = none := by
  by_cases h : w < 9
  · interval_cases w <;> cases m <;> decide
  · rw [List.set_eq_of_length_le (by simp [emptyBoard]; omega)]
    decide

theorem getBestMove_pro_eq (b : Board) (botPlayer humanPlayer : Mark) (rnd : Nat → ℚ)
    (hlen : b.length = 9) (w : Nat) (m : Mark) (hcell : b[w]? = some none)
    (hwin : checkWinner (b.set w (some m)) = some m) :
    getBestMove b botPlayer humanPlayer Difficulty.pro rnd = getProMove b botPlayer humanPlayer := by
  unfold getBestMove
  simp only
  have hmem : w ∈ getEmptySquares b := (mem_getEmptySquares b w).2 hcell
  have h0 : (getEmptySquares b).length ≠ 0 := by
    intro h
    rw [List.length_eq_zero.1 h] at hmem
    exact List.not_mem_nil _ hmem
  have h9 : (getEmptySquares b).length ≠ 9 := by
    intro h
    rw [eq_emptyBoard_of_all_empty b hlen h, checkWinner_after_first_move] at hwin
    exact absurd hwin (by simp)
  rw [if_neg h0, if_neg h9, if_neg (by decide)]

/-! ## The claims -/

/-- C1. In every game played from the empty board by alternating moves, the bot answering
with `getBestMove` at difficulty pro (any admissible random draw for its opening) and the
human filling any empty cell, whoever starts and whichever of the two marks the bot holds,
no position has the human's mark as `checkWinner`: the winner, if any, is the bot. -/
theorem pro_tier_never_loses (botPlayer humanPlayer : Mark) (hne : botPlayer ≠ humanPlayer)
    (squares : Board) (botToMove : Bool)
    (h : Play botPlayer humanPlayer squares botToMove) :
    checkWinner squares ≠ some humanPlayer ∧
      (checkWinner squares = some botPlayer ∨ checkWinner squares = none) := by
  have hinv := (play_invariant botPlayer humanPlayer hne squares botToMove h).2
  have h1 := not_human_winner_of_safe botPlayer humanPlayer hne 9 squares _ hinv
  refine ⟨h1, ?_⟩
  cases hw : checkWinner squares with
  | none => right; rfl
  | some m =>
    left
    rcases mark_cases botPlayer humanPlayer hne m with rfl | rfl
    · rfl
    · exact absurd hw h1

/-- Witness of C1: the bot (O) opens in the corner 0 and the human (X) takes the centre. -/
theorem pro_tier_never_loses_witness :
    (Mark.O ≠ Mark.X ∧
      Play Mark.O Mark.X ((emptyBoard.set 0 (some Mark.O)).set 4 (some Mark.X)) true) ∧
    (checkWinner ((emptyBoard.set 0 (some Mark.O)).set 4 (some Mark.X)) ≠ some Mark.X ∧
      (checkWinner ((emptyBoard.set 0 (some Mark.O)).set 4 (some Mark.X)) = some Mark.O ∨
        checkWinner ((emptyBoard.set 0 (some Mark.O)).set 4 (some Mark.X)) = none)) := by
  have hmove : getBestMove emptyBoard Mark.O Mark.X Difficulty.pro (fun _ => 0)
      = some (emptyBoard, Answer.cell 0) := by
    simp [getBestMove, getEmptySquares, emptyBoard, emptyFrom, elemAt, roundDouble_zero]
  have hplay : Play Mark.O Mark.X ((emptyBoard.set 0 (some Mark.O)).set 4 (some Mark.X)) true :=
    ⟨true, PlayFrom.human _ 4
      (PlayFrom.bot emptyBoard emptyBoard 0 (fun _ => 0) PlayFrom.here (by decide)
        validRnd_zero hmove)
      (by decide) (by decide)⟩
  exact ⟨⟨by decide, hplay⟩, pro_tier_never_loses Mark.O Mark.X (by decide) _ _ hplay⟩

/-- Counterexample to C2 as stated: on `[X, X, X, O, O, O, _, _, _]` the line 3-4-5 is held by
O, yet `checkWinner` answers X, the mark of the first complete line. -/
theorem checkWinner_two_lines :
    twoLinesBoard.length = 9 ∧ (3, 4, 5) ∈ lines ∧ lineHeld twoLinesBoard (3, 4, 5) Mark.O ∧
      checkWinner twoLinesBoard = some Mark.X ∧
      ¬ (checkWinner twoLinesBoard = some Mark.O ↔
          ∃ l ∈ lines, lineHeld twoLinesBoard l Mark.O) := by
  refine ⟨by decide, by decide, by decide, by decide, ?_⟩
  intro h
  have h1 : checkWinner twoLinesBoard = some Mark.O := h.2 ⟨(3, 4, 5), by decide, by decide⟩
  exact absurd h1 (by decide)

/-- C2 (amended). `checkWinner` answers the mark `m` exactly when the first line of the scan
order 0-1-2, 3-4-5, 6-7-8, 0-3-6, 1-4-7, 2-5-8, 0-4-8, 2-4-6 that is held entirely by one
mark is held by `m`; it answers `null` exactly when no line is held entirely by one mark;
hence a mark it answers holds some line, and when every held line is held by `m` it answers
`m` if and only if some line is held by `m`. -/
theorem checkWinner_first_held_line (squares : Board) (m : Mark) :
    (checkWinner squares = some m ↔
      ∃ pre l post, lines = pre ++ l :: post ∧ lineHeld squares l m ∧
        ∀ l1 ∈ pre, ∀ m1, ¬ lineHeld squares l1 m1) ∧
    (checkWinner squares = none ↔ ∀ l ∈ lines, ∀ m1, ¬ lineHeld squares l m1) ∧
    (checkWinner squares = some m → ∃ l ∈ lines, lineHeld squares l m) ∧
    ((∀ l ∈ lines, ∀ m1, lineHeld squares l m1 → m1 = m) →
      (checkWinner squares = some m ↔ ∃ l ∈ lines, lineHeld squares l m)) ∧
    lines = [(0, 1, 2), (3, 4, 5), (6, 7, 8), (0, 3, 6), (1, 4, 7), (2, 5, 8), (0, 4, 8),
      (2, 4, 6)] := by
  refine ⟨checkWinner_eq_some_iff squares m, checkWinner_eq_none_iff squares,
    checkWinner_some_held squares m, ?_, rfl⟩
  intro honly
  constructor
  · exact checkWinner_some_held squares m
  · rintro ⟨l, hl, hheld⟩
    exact checkWinner_of_held squares m l hl hheld honly

/-- C3. On a nine-cell board with an empty cell, for any marks, either difficulty and any
admissible random draws, `getBestMove` returns an index between 0 and 8 of an empty cell,
leaving the board as it was; when exactly one cell is empty it returns that cell. -/
theorem getBestMove_returns_empty_cell (squares : Board) (botPlayer humanPlayer : Mark)
    (difficulty : Difficulty) (rnd : Nat → ℚ) (hlen : squares.length = 9)
    (hr : validRnd rnd) (hne : getEmptySquares squares ≠ []) :
    ∃ i, getBestMove squares botPlayer humanPlayer difficulty rnd
        = some (squares, Answer.cell i) ∧
      i ≤ 8 ∧ squares[i]? = some none ∧ ∀ c, getEmptySquares squares = [c] → i = c := by
  obtain ⟨i, hi, hcell⟩ := getBestMove_spec squares botPlayer humanPlayer difficulty rnd hlen hr hne
  refine ⟨i, hi, ?_, hcell, ?_⟩
  · have := lt_length_of_getElem? hcell
    omega
  · intro c hc
    have hmem := (mem_getEmptySquares squares i).2 hcell
    rw [hc] at hmem
    simpa using hmem

/-- Witness of C3: the board `[X, O, X, X, O, O, O, X, _]`, friendly tier. -/
theorem getBestMove_returns_empty_cell_witness :
    (lastCellBoard.length = 9 ∧ validRnd (fun _ => 0) ∧ getEmptySquares lastCellBoard ≠ []) ∧
    ∃ i, getBestMove lastCellBoard Mark.O Mark.X Difficulty.friendly (fun _ => 0)
        = some (lastCellBoard, Answer.cell i) ∧
      i ≤ 8 ∧ lastCellBoard[i]? = some none ∧
      ∀ c, getEmptySquares lastCellBoard = [c] → i = c :=
  ⟨⟨by decide, validRnd_zero, by decide⟩,
    getBestMove_returns_empty_cell lastCellBoard Mark.O Mark.X Difficulty.friendly (fun _ => 0)
      (by decide) validRnd_zero (by decide)⟩

/-- C4. On a nine-cell board, for any marks, either difficulty and any admissible random
draws, `getBestMove` returns (leaving the board as it was), and it returns `null` if and
only if the board has no empty cell; the full board `[X, O, X, X, O, O, O, X, X]` has no
winner and gets `null`. -/
theorem getBestMove_null_iff_full (squares : Board) (botPlayer humanPlayer : Mark)
    (difficulty : Difficulty) (rnd : Nat → ℚ) (hlen : squares.length = 9)
    (hr : validRnd rnd) :
    (∃ a, getBestMove squares botPlayer humanPlayer difficulty rnd = some (squares, a)) ∧
    (getBestMove squares botPlayer humanPlayer difficulty rnd = some (squares, Answer.null) ↔
      getEmptySquares squares = []) ∧
    (getEmptySquares squares = [] ↔ ∀ i : Nat, squares[i]? ≠ some none) ∧
    (drawnBoard.length = 9 ∧ checkWinner drawnBoard = none ∧
      getBestMove drawnBoard botPlayer humanPlayer difficulty rnd
        = some (drawnBoard, Answer.null)) := by
  refine ⟨getBestMove_total squares botPlayer humanPlayer difficulty rnd, ?_, ?_, ?_⟩
  · constructor
    · intro h
      by_contra hne
      obtain ⟨i, hi, _⟩ := getBestMove_spec squares botPlayer humanPlayer difficulty rnd
        hlen hr hne
      rw [hi] at h
      simp at h
    · intro h
      simp [getBestMove, h]
  · constructor
    · intro h i hi
      have := (mem_getEmptySquares squares i).2 hi
      rw [h] at this
      exact List.not_mem_nil _ this
    · intro h
      apply List.eq_nil_iff_forall_not_mem.2
      intro i hi
      exact h i ((mem_getEmptySquares squares i).1 hi)
  · refine ⟨by decide, by decide, ?_⟩
    have h : getEmptySquares drawnBoard = [] := by decide
    simp [getBestMove, h]

/-- Witness of C4: the full board `[X, O, X, X, O, O, O, X, X]`, pro tier. -/
theorem getBestMove_null_iff_full_witness :
    (drawnBoard.length = 9 ∧ validRnd (fun _ => 0)) ∧
    ((∃ a, getBestMove drawnBoard Mark.O Mark.X Difficulty.pro (fun _ => 0)
        = some (drawnBoard, a)) ∧
    (getBestMove drawnBoard Mark.O Mark.X Difficulty.pro (fun _ => 0)
        = some (drawnBoard, Answer.null) ↔ getEmptySquares drawnBoard = []) ∧
    (getEmptySquares drawnBoard = [] ↔ ∀ i : Nat, drawnBoard[i]? ≠ some none) ∧
    (drawnBoard.length = 9 ∧ checkWinner drawnBoard = none ∧
      getBestMove drawnBoard Mark.O Mark.X Difficulty.pro (fun _ => 0)
        = some (drawnBoard, Answer.null))) :=
  ⟨⟨by decide, validRnd_zero⟩,
    getBestMove_null_iff_full drawnBoard Mark.O Mark.X Difficulty.pro (fun _ => 0)
      (by decide) validRnd_zero⟩

/-- Counterexample to C5 as stated: `[X, O, _, X, X, _, _, _, O]` arises by legal alternating
play (X0, O1, X4, O8, X3), has no winner, is not full and has the bot (O) to move; the human
already has a forced win there; the pro tier answers 2, and the human's reply 5 wins. -/
theorem pro_tier_lost_position :
    LegalPlay Mark.O Mark.X forkBoard true ∧ checkWinner forkBoard = none ∧
    isBoardFull forkBoard = false ∧
    humanForcesWin 10 forkBoard false Mark.O Mark.X = true ∧
    (∀ rnd, getBestMove forkBoard Mark.O Mark.X Difficulty.pro rnd
      = some (forkBoard, Answer.cell 2)) ∧
    (∃ b, PlayFrom Mark.O Mark.X (forkBoard.set 2 (some Mark.O)) false b true ∧
      checkWinner b = some Mark.X) := by
  have hreach : LegalPlay Mark.O Mark.X
      (((((emptyBoard.set 0 (some Mark.X)).set 1 (some Mark.O)).set 4 (some Mark.X)).set 8
        (some Mark.O)).set 3 (some Mark.X)) true :=
    LegalPlay.human _ 3
      (LegalPlay.bot _ 8
        (LegalPlay.human _ 4
          (LegalPlay.bot _ 1
            (LegalPlay.human _ 0 (LegalPlay.start false) (by decide) (by decide))
            (by decide) (by decide))
          (by decide) (by decide))
        (by decide) (by decide))
      (by decide) (by decide)
  have hpro : getProMove forkBoard Mark.O Mark.X = some (forkBoard, Answer.cell 2) := by
    decide!
  refine ⟨hreach, by decide, by decide, by decide!, ?_, ?_⟩
  · intro rnd
    rw [← hpro]
    exact getBestMove_pro_eq forkBoard Mark.O Mark.X rnd (by decide) 5 Mark.X (by decide)
      (by decide)
  · exact ⟨(forkBoard.set 2 (some Mark.O)).set 5 (some Mark.X),
      PlayFrom.human _ 5 PlayFrom.here (by decide) (by decide), by decide⟩

/-- C5 (amended). On every nine-cell board without winner and not full (so on every such
board reached by legal alternating play) with the bot to move, from which the human cannot
already force a win, the pro tier returns an empty cell leading to a position from which
the human cannot force a win; and however the human plays on, the bot answering with the
pro tier, no position has the human's mark as `checkWinner`. The budget 10 of
`humanForcesWin` exceeds the nine cells, so the verdict is that of the whole game tree. -/
theorem pro_tier_keeps_unlost_position (squares : Board) (botPlayer humanPlayer : Mark)
    (rnd : Nat → ℚ) (hne : botPlayer ≠ humanPlayer) (hlen : squares.length = 9)
    (hw : checkWinner squares = none) (hnf : isBoardFull squares = false)
    (hr : validRnd rnd)
    (hsafe : humanForcesWin 10 squares false botPlayer humanPlayer = false) :
    ∃ i, getBestMove squares botPlayer humanPlayer Difficulty.pro rnd
        = some (squares, Answer.cell i) ∧
      squares[i]? = some none ∧
      humanForcesWin 10 (squares.set i (some botPlayer)) true botPlayer humanPlayer = false ∧
      ∀ b t, PlayFrom botPlayer humanPlayer (squares.set i (some botPlayer)) false b t →
        checkWinner b ≠ some humanPlayer := by
  have hnempty : getEmptySquares squares ≠ [] := (isBoardFull_eq_false_iff squares).1 hnf
  obtain ⟨i, hi, _⟩ := getBestMove_spec squares botPlayer humanPlayer Difficulty.pro rnd
    hlen hr hnempty
  obtain ⟨_, hcell, hnext⟩ := getBestMove_keeps_safe squares squares botPlayer humanPlayer
    rnd i hne hlen hw hr hsafe hi
  refine ⟨i, hi, hcell, hnext, ?_⟩
  intro b t hplay
  have hinv := playFrom_invariant botPlayer humanPlayer hne (squares.set i (some botPlayer))
    false (by rw [List.length_set]; exact hlen) (by simpa using hnext) b t hplay
  exact not_human_winner_of_safe botPlayer humanPlayer hne 9 b _ hinv.2

/-- Reachability by legal alternating play keeps the nine cells. -/
theorem legalPlay_length (botPlayer humanPlayer : Mark) (b : Board) (t : Bool)
    (h : LegalPlay botPlayer humanPlayer b t) : b.length = 9 := by
  induction h with
  | start _ => rfl
  | human squares i _ _ _ ih => rw [List.length_set]; exact ih
  | bot squares i _ _ _ ih => rw [List.length_set]; exact ih

set_option maxRecDepth 1000000 in
theorem botSafe_after_centre :
    botSafe 10 (emptyBoard.set 4 (some Mark.X)) false Mark.O Mark.X = true := by decide!

/-- Witness of C5 (amended): the human (X) has taken the centre, the bot (O) is to move. -/
theorem pro_tier_keeps_unlost_position_witness :
    (Mark.O ≠ Mark.X ∧ (emptyBoard.set 4 (some Mark.X)).length = 9 ∧
      LegalPlay Mark.O Mark.X (emptyBoard.set 4 (some Mark.X)) true ∧
      checkWinner (emptyBoard.set 4 (some Mark.X)) = none ∧
      isBoardFull (emptyBoard.set 4 (some Mark.X)) = false ∧ validRnd (fun _ => 0) ∧
      humanForcesWin 10 (emptyBoard.set 4 (some Mark.X)) false Mark.O Mark.X = false) ∧
    ∃ i, getBestMove (emptyBoard.set 4 (some Mark.X)) Mark.O Mark.X Difficulty.pro (fun _ => 0)
        = some (emptyBoard.set 4 (some Mark.X), Answer.cell i) ∧
      (emptyBoard.set 4 (some Mark.X))[i]? = some none ∧
      humanForcesWin 10 ((emptyBoard.set 4 (some Mark.X)).set i (some Mark.O)) true
        Mark.O Mark.X = false ∧
      ∀ b t, PlayFrom Mark.O Mark.X ((emptyBoard.set 4 (some Mark.X)).set i (some Mark.O))
          false b t → checkWinner b ≠ some Mark.X := by
  have hsafe : humanForcesWin 10 (emptyBoard.set 4 (some Mark.X)) false Mark.O Mark.X = false :=
    botSafe_sound Mark.O Mark.X (by decide) 10 _ false (by decide) botSafe_after_centre
  have hreach : LegalPlay Mark.O Mark.X (emptyBoard.set 4 (some Mark.X)) true :=
    LegalPlay.human _ 4 (LegalPlay.start false) (by decide) (by decide)
  exact ⟨⟨by decide, by decide, hreach, by decide, by decide, validRnd_zero, hsafe⟩,
    pro_tier_keeps_unlost_position (emptyBoard.set 4 (some Mark.X)) Mark.O Mark.X (fun _ => 0)
      (by decide) (by decide) (by decide) (by decide) validRnd_zero hsafe⟩

/-- C6. For every board, marks, difficulty and random draws, `getBestMove` (and `getProMove`)
return with the array holding what it held before the call; for every board, depth, side to
move, alpha and beta, `minimax` returns as soon as its budget exceeds the number of empty
cells, again with the array as it was; and whenever `minimax` returns, with whatever budget
and however its loops were left, the array is the one it was given. -/
theorem search_restores_board (squares : Board) (botPlayer humanPlayer : Mark)
    (difficulty : Difficulty) (rnd : Nat → ℚ) (depth : Nat) (isMaximizing : Bool)
    (alpha beta : Score) (extra : Nat) :
    (∃ a, getBestMove squares botPlayer humanPlayer difficulty rnd = some (squares, a)) ∧
    (∃ a, getProMove squares botPlayer humanPlayer = some (squares, a)) ∧
    (∃ v, minimax ((getEmptySquares squares).length + 1 + extra) squares depth isMaximizing
        alpha beta botPlayer humanPlayer = some (squares, v)) ∧
    (∀ fuel squares1 v, minimax fuel squares depth isMaximizing alpha beta botPlayer
        humanPlayer = some (squares1, v) → squares1 = squares) := by
  refine ⟨getBestMove_total squares botPlayer humanPlayer difficulty rnd,
    ⟨_, getProMove_eq squares botPlayer humanPlayer⟩,
    ⟨_, minimax_eq botPlayer humanPlayer _ squares depth isMaximizing alpha beta (by omega)⟩,
    ?_⟩
  intro fuel squares1 v h
  exact minimax_frame botPlayer humanPlayer fuel squares depth isMaximizing alpha beta
    squares1 v h

/-- C7. On every nine-cell board on which the bot has an empty cell completing a line of
three for the bot, the pro tier returns the lowest-index such cell, whatever the human
threatens elsewhere. -/
theorem pro_tier_takes_lowest_win (squares : Board) (botPlayer humanPlayer : Mark)
    (rnd : Nat → ℚ) (w : Nat) (hne : botPlayer ≠ humanPlayer) (hlen : squares.length = 9)
    (hcell : squares[w]? = some none)
    (hwin : checkWinner (squares.set w (some botPlayer)) = some botPlayer)
    (hfirst : ∀ j, j < w → squares[j]? = some none →
      checkWinner (squares.set j (some botPlayer)) ≠ some botPlayer) :
    getBestMove squares botPlayer humanPlayer Difficulty.pro rnd
        = some (squares, Answer.cell w) ∧
      getProMove squares botPlayer humanPlayer = some (squares, Answer.cell w) := by
  have hpro : getProMove squares botPlayer humanPlayer = some (squares, Answer.cell w) := by
    rw [getProMove_eq, pickBest_takes_win squares botPlayer humanPlayer hne hlen w hcell hwin
      hfirst]
  exact ⟨by rw [getBestMove_pro_eq squares botPlayer humanPlayer rnd hlen w botPlayer hcell
    hwin, hpro], hpro⟩

/-- Witness of C7: on `[O, O, _, X, X, _, _, _, _]` the bot X returns 5 although O threatens
at 2. -/
theorem pro_tier_takes_lowest_win_witness :
    (Mark.X ≠ Mark.O ∧ bothThreatsBoard.length = 9 ∧ checkWinner bothThreatsBoard = none ∧
      bothThreatsBoard[5]? = some none ∧
      checkWinner (bothThreatsBoard.set 5 (some Mark.X)) = some Mark.X ∧
      checkWinner (bothThreatsBoard.set 2 (some Mark.O)) = some Mark.O ∧
      (∀ j, j < 5 → bothThreatsBoard[j]? = some none →
        checkWinner (bothThreatsBoard.set j (some Mark.X)) ≠ some Mark.X)) ∧
    (getBestMove bothThreatsBoard Mark.X Mark.O Difficulty.pro (fun _ => 0)
        = some (bothThreatsBoard, Answer.cell 5) ∧
      getProMove bothThreatsBoard Mark.X Mark.O = some (bothThreatsBoard, Answer.cell 5)) :=
  ⟨⟨by decide, by decide, by decide, by decide, by decide, by decide, by decide⟩,
    pro_tier_takes_lowest_win bothThreatsBoard Mark.X Mark.O (fun _ => 0) 5 (by decide)
      (by decide) (by decide) (by decide) (by decide)⟩

/-- C8. On every nine-cell board without winner on which the bot has no empty cell completing
a line for the bot and the human has exactly one empty cell `c` completing a line for the
human, the pro tier returns `c`. -/
theorem pro_tier_blocks_single_threat (squares : Board) (botPlayer humanPlayer : Mark)
    (rnd : Nat → ℚ) (c : Nat) (hne : botPlayer ≠ humanPlayer) (hlen : squares.length = 9)
    (hw : checkWinner squares = none)
    (hnowin : ∀ j, squares[j]? = some none →
      checkWinner (squares.set j (some botPlayer)) ≠ some botPlayer)
    (hcell : squares[c]? = some none)
    (hthreat : checkWinner (squares.set c (some humanPlayer)) = some humanPlayer)
    (honly : ∀ j, squares[j]? = some none →
      checkWinner (squares.set j (some humanPlayer)) = some humanPlayer → j = c) :
    getBestMove squares botPlayer humanPlayer Difficulty.pro rnd
        = some (squares, Answer.cell c) ∧
      getProMove squares botPlayer humanPlayer = some (squares, Answer.cell c) := by
  have hpro : getProMove squares botPlayer humanPlayer = some (squares, Answer.cell c) := by
    rw [getProMove_eq, pickBest_blocks squares botPlayer humanPlayer hne hlen hw hnowin c
      hcell hthreat honly]
  exact ⟨by rw [getBestMove_pro_eq squares botPlayer humanPlayer rnd hlen c humanPlayer hcell
    hthreat, hpro], hpro⟩

theorem blockBoard_cases (P : Nat → Prop) (h2 : P 2) (h3 : P 3) (h5 : P 5) (h6 : P 6)
    (h7 : P 7) (h8 : P 8) (j : Nat) (hj : blockBoard[j]? = some none) : P j := by
  have hlt : j < 9 := lt_length_of_getElem? hj
  interval_cases j
  · exact absurd hj (by decide)
  · exact absurd hj (by decide)
  · exact h2
  · exact h3
  · exact absurd hj (by decide)
  · exact h5
  · exact h6
  · exact h7
  · exact h8

/-- Witness of C8: on `[X, X, _, _, O, _, _, _, _]` the bot O returns 2. -/
theorem pro_tier_blocks_single_threat_witness :
    (Mark.O ≠ Mark.X ∧ blockBoard.length = 9 ∧ checkWinner blockBoard = none ∧
      blockBoard[2]? = some none ∧
      checkWinner (blockBoard.set 2 (some Mark.X)) = some Mark.X) ∧
    (getBestMove blockBoard Mark.O Mark.X Difficulty.pro (fun _ => 0)
        = some (blockBoard, Answer.cell 2) ∧
      getProMove blockBoard Mark.O Mark.X = some (blockBoard, Answer.cell 2)) :=
  ⟨⟨by decide, by decide, by decide, by decide, by decide⟩,
    pro_tier_blocks_single_threat blockBoard Mark.O Mark.X (fun _ => 0) 2 (by decide)
      (by decide) (by decide)
      (blockBoard_cases _ (by decide) (by decide) (by decide) (by decide) (by decide)
        (by decide))
      (by decide) (by decide)
      (blockBoard_cases _ (by decide) (by decide) (by decide) (by decide) (by decide)
        (by decide))⟩

/-- C9. On every board with an empty cell `getProMove` returns the lowest-index empty cell
whose score is maximal among the empty cells, the score of a cell being what `minimax`
returns for the array with the bot's mark in that cell, depth 0, the human to move and the
window from `-Infinity` to `Infinity`: no empty cell scores more than the returned one, and
every empty cell of lower index scores strictly less. -/
theorem getProMove_first_maximal (squares : Board) (botPlayer humanPlayer : Mark)
    (hne : getEmptySquares squares ≠ []) :
    ∃ i si, getProMove squares botPlayer humanPlayer = some (squares, Answer.cell i) ∧
      squares[i]? = some none ∧
      minimax (squares.length + 1) (squares.set i (some botPlayer)) 0 false Score.negInf
          Score.posInf botPlayer humanPlayer
        = some (squares.set i (some botPlayer), si) ∧
      ∀ j, squares[j]? = some none →
        ∃ sj, minimax (squares.length + 1) (squares.set j (some botPlayer)) 0 false
              Score.negInf Score.posInf botPlayer humanPlayer
            = some (squares.set j (some botPlayer), sj) ∧
          Score.le sj si = true ∧ (j < i → Score.gt si sj = true) := by
  obtain ⟨i, hi, hmem, hmax, hlow⟩ := pickBest_argmax (rootScore squares botPlayer humanPlayer)
    (getEmptySquares squares) (getEmptySquares_sorted squares) hne
  refine ⟨i, rootScore squares botPlayer humanPlayer i, ?_,
    (mem_getEmptySquares squares i).1 hmem, rootScore_eq squares botPlayer humanPlayer i, ?_⟩
  · rw [getProMove_eq, hi]
  · intro j hj
    have hjmem := (mem_getEmptySquares squares j).2 hj
    refine ⟨rootScore squares botPlayer humanPlayer j,
      rootScore_eq squares botPlayer humanPlayer j, hmax j hjmem, ?_⟩
    intro hji
    exact (score_gt_iff _ _).2 (hlow j hjmem hji)

/-- Witness of C9: the board `[X, X, _, _, O, _, _, _, _]` with the bot O. -/
theorem getProMove_first_maximal_witness :
    getEmptySquares blockBoard ≠ [] ∧
    ∃ i si, getProMove blockBoard Mark.O Mark.X = some (blockBoard, Answer.cell i) ∧
      blockBoard[i]? = some none ∧
      minimax (blockBoard.length + 1) (blockBoard.set i (some Mark.O)) 0 false Score.negInf
          Score.posInf Mark.O Mark.X
        = some (blockBoard.set i (some Mark.O), si) ∧
      ∀ j, blockBoard[j]? = some none →
        ∃ sj, minimax (blockBoard.length + 1) (blockBoard.set j (some Mark.O)) 0 false
              Score.negInf Score.posInf Mark.O Mark.X
            = some (blockBoard.set j (some Mark.O), sj) ∧
          Score.le sj si = true ∧ (j < i → Score.gt si sj = true) :=
  ⟨by decide, getProMove_first_maximal blockBoard Mark.O Mark.X (by decide)⟩

/-- C10. For every board, depth, side to move and window, `minimax` returns `10 - depth` when
`checkWinner` gives the bot's mark; otherwise `depth - 10` when it gives the human's mark
(so whenever it gives the human's mark and the two marks differ); otherwise 0 when every
cell is occupied. The array is untouched and a budget of one call suffices: no move is
explored. -/
theorem minimax_terminal_scores (fuel : Nat) (squares : Board) (depth : Nat)
    (isMaximizing : Bool) (alpha beta : Score) (botPlayer humanPlayer : Mark) :
    (checkWinner squares = some botPlayer →
      minimax (fuel + 1) squares depth isMaximizing alpha beta botPlayer humanPlayer
        = some (squares, Score.fin (10 - (depth : Int)))) ∧
    (checkWinner squares ≠ some botPlayer → checkWinner squares = some humanPlayer →
      minimax (fuel + 1) squares depth isMaximizing alpha beta botPlayer humanPlayer
        = some (squares, Score.fin ((depth : Int) - 10))) ∧
    (botPlayer ≠ humanPlayer → checkWinner squares = some humanPlayer →
      minimax (fuel + 1) squares depth isMaximizing alpha beta botPlayer humanPlayer
        = some (squares, Score.fin ((depth : Int) - 10))) ∧
    (checkWinner squares ≠ some botPlayer → checkWinner squares ≠ some humanPlayer →
      isBoardFull squares = true →
      minimax (fuel + 1) squares depth isMaximizing alpha beta botPlayer humanPlayer
        = some (squares, Score.fin 0)) ∧
    (checkWinner squares = none → isBoardFull squares = true →
      minimax 1 squares depth isMaximizing alpha beta botPlayer humanPlayer
        = some (squares, Score.fin 0)) := by
  refine ⟨?_, ?_, ?_, ?_, ?_⟩
  · intro h
    simp [minimax, h]
  · intro h1 h2
    have h3 : ¬ humanPlayer = botPlayer := fun e => h1 (by rw [h2, e])
    simp [minimax, h2, h3]
  · intro hne h2
    have h1 : ¬ humanPlayer = botPlayer := fun e => hne e.symm
    simp [minimax, h2, h1]
  · intro h1 h2 h3
    simp [minimax, h1, h2, h3]
  · intro h1 h3
    simp [minimax, h1, h3]

/-- Witness of C10: the three terminal tests on concrete boards at depth 3. -/
theorem minimax_terminal_scores_witness :
    minimax 1 twoLinesBoard 3 true Score.negInf Score.posInf Mark.X Mark.O
        = some (twoLinesBoard, Score.fin 7) ∧
    minimax 1 twoLinesBoard 3 true Score.negInf Score.posInf Mark.O Mark.X
        = some (twoLinesBoard, Score.fin (-7)) ∧
    minimax 1 drawnBoard 3 false Score.negInf Score.posInf Mark.O Mark.X
        = some (drawnBoard, Score.fin 0) :=
  ⟨(minimax_terminal_scores 0 twoLinesBoard 3 true Score.negInf Score.posInf Mark.X Mark.O).1
      (by decide),
    (minimax_terminal_scores 0 twoLinesBoard 3 true Score.negInf Score.posInf Mark.O
      Mark.X).2.1 (by decide) (by decide),
    (minimax_terminal_scores 0 drawnBoard 3 false Score.negInf Score.posInf Mark.O
      Mark.X).2.2.2.2 (by decide) (by decide)⟩

/-! ## The opening move -/

theorem getBestMove_emptyBoard (botPlayer humanPlayer : Mark) (difficulty : Difficulty)
    (rnd : Nat → ℚ) :
    getBestMove emptyBoard botPlayer humanPlayer difficulty rnd
      = some (emptyBoard, elemAt [0, 2, 4, 6, 8] ⌊roundDouble (rnd 0 * 5)⌋) := by
  simp [getBestMove, getEmptySquares, emptyBoard, emptyFrom]

theorem elemAt_opening (k : Nat) (hk : k < 5) :
    elemAt [0, 2, 4, 6, 8] (k : Int) = Answer.cell (2 * k) := by
  interval_cases k <;> rfl

theorem floor_opening (r : ℚ) (h0 : 0 ≤ r) (h1 : r < 1) (hd : roundDouble r = r) :
    ∃ k : Nat, k < 5 ∧ ⌊roundDouble (r * 5)⌋ = (k : Int) := by
  obtain ⟨hk0, hk1⟩ := floor_mulDouble r 5 h0 h1 hd (by norm_num) (by norm_num)
  simp only [Nat.cast_ofNat] at hk0 hk1
  exact ⟨⌊roundDouble (r * 5)⌋.toNat, by omega, by omega⟩

/-- Five doubles whose products with 5 are doubles with the integer parts 0, 1, 2, 3, 4:
0, 1/4, 1/2, 5/8 and 7/8. -/
theorem floor_opening_reached (k : Nat) (hk : k < 5) :
    ∃ r : ℚ, 0 ≤ r ∧ r < 1 ∧ roundDouble r = r ∧ ⌊roundDouble (r * 5)⌋ = (k : Int) := by
  interval_cases k
  · refine ⟨0, le_refl 0, by norm_num, roundDouble_zero, ?_⟩
    rw [zero_mul, roundDouble_zero]
    simp
  · refine ⟨1 / 4, by norm_num, by norm_num, ?_, ?_⟩
    · exact roundDouble_of_multiple (1 / 4) (-2) (2 ^ 52) (by norm_num) (by norm_num)
        (by norm_num) (by norm_num [zpow_neg])
    · rw [roundDouble_of_multiple (1 / 4 * 5) 0 (5 * 2 ^ 50) (by norm_num) (by norm_num)
        (by norm_num) (by norm_num [zpow_neg]), Int.floor_eq_iff]
      norm_num
  · refine ⟨1 / 2, by norm_num, by norm_num, roundDouble_half, ?_⟩
    rw [roundDouble_of_multiple (1 / 2 * 5) 1 (5 * 2 ^ 50) (by norm_num) (by norm_num)
      (by norm_num) (by norm_num [zpow_neg]), Int.floor_eq_iff]
    norm_num
  · refine ⟨5 / 8, by norm_num, by norm_num, ?_, ?_⟩
    · exact roundDouble_of_multiple (5 / 8) (-1) (5 * 2 ^ 50) (by norm_num) (by norm_num)
        (by norm_num) (by norm_num [zpow_neg])
    · rw [roundDouble_of_multiple (5 / 8 * 5) 1 (25 * 2 ^ 48) (by norm_num) (by norm_num)
        (by norm_num) (by norm_num [zpow_neg]), Int.floor_eq_iff]
      norm_num
  · refine ⟨7 / 8, by norm_num, by norm_num, ?_, ?_⟩
    · exact roundDouble_of_multiple (7 / 8) (-1) (7 * 2 ^ 50) (by norm_num) (by norm_num)
        (by norm_num) (by norm_num [zpow_neg])
    · rw [roundDouble_of_multiple (7 / 8 * 5) 2 (35 * 2 ^ 47) (by norm_num) (by norm_num)
        (by norm_num) (by norm_num [zpow_neg]), Int.floor_eq_iff]
      norm_num

/-! ## Budgets of the unpruned recursion -/

theorem foldl_congr_mem {α : Type} (l : List Nat) (f g : α → Nat → α)
    (h : ∀ acc, ∀ x ∈ l, f acc x = g acc x) (init : α) : l.foldl f init = l.foldl g init := by
  induction l generalizing init with
  | nil => rfl
  | cons a rest ih =>
    simp only [List.foldl_cons]
    rw [h init a (List.mem_cons_self _ _)]
    exact ih (fun acc x hx => h acc x (List.mem_cons_of_mem _ hx)) _

/-- Any two budgets above the number of empty squares give the same unpruned score. -/
theorem plainMinimax_fuel (botPlayer humanPlayer : Mark) :
    ∀ (fuel1 fuel2 : Nat) (b : Board) (depth : Nat) (isMax : Bool),
      (getEmptySquares b).length < fuel1 → (getEmptySquares b).length < fuel2 →
      plainMinimax fuel1 b depth isMax botPlayer humanPlayer
        = plainMinimax fuel2 b depth isMax botPlayer humanPlayer := by
  intro fuel1
  induction fuel1 with
  | zero => intro fuel2 b depth isMax h; omega
  | succ n ih =>
    intro fuel2 b depth isMax h1 h2
    cases fuel2 with
    | zero => omega
    | succ m =>
      simp only [plainMinimax]
      have hrec : ∀ (mk : Mark) (idx : Nat), idx ∈ getEmptySquares b →
          (getEmptySquares (b.set idx (some mk))).length < n ∧
          (getEmptySquares (b.set idx (some mk))).length < m := by
        intro mk idx hidx
        have := getEmptySquares_length_set b mk idx ((mem_getEmptySquares b idx).1 hidx)
        omega
      split
      · rfl
      · split
        · rfl
        · split
          · rfl
          · split
            · exact foldl_congr_mem _ _ _ (fun acc idx hidx => by
                rw [ih m _ _ _ (hrec botPlayer idx hidx).1 (hrec botPlayer idx hidx).2]) _
            · exact foldl_congr_mem _ _ _ (fun acc idx hidx => by
                rw [ih m _ _ _ (hrec humanPlayer idx hidx).1 (hrec humanPlayer idx hidx).2]) _

/-! ## Nested calls of the search -/

/-- Along nested calls the depth grows as the empty squares shrink. -/
theorem minimaxCall_measure (botPlayer humanPlayer : Mark) (c1 c2 : Board × Nat × Bool)
    (h : MinimaxCall botPlayer humanPlayer c1 c2) :
    (getEmptySquares c2.1).length + 1 = (getEmptySquares c1.1).length ∧
      c2.2.1 = c1.2.1 + 1 := by
  cases h with
  | maxCall squares depth idx _ _ _ hidx =>
    exact ⟨getEmptySquares_length_set squares botPlayer idx
      ((mem_getEmptySquares squares idx).1 hidx), rfl⟩
  | minCall squares depth idx _ _ _ hidx =>
    exact ⟨getEmptySquares_length_set squares humanPlayer idx
      ((mem_getEmptySquares squares idx).1 hidx), rfl⟩

theorem minimaxCall_chain (botPlayer humanPlayer : Mark) (c1 c2 : Board × Nat × Bool)
    (h : Relation.ReflTransGen (MinimaxCall botPlayer humanPlayer) c1 c2) :
    c2.2.1 + (getEmptySquares c2.1).length = c1.2.1 + (getEmptySquares c1.1).length := by
  induction h with
  | refl => rfl
  | tail _ hstep ih =>
    have := minimaxCall_measure botPlayer humanPlayer _ _ hstep
    omega

/-- The maximizing loop asks its search only about the boards `b.set idx (some botPlayer)`
for the cells `idx` of its list: two searches that agree there give the same loop. -/
theorem maxLoop_congr (search1 search2 : Board → Score → Score → Option (Board × Score))
    (botPlayer : Mark) (beta : Score) (b : Board)
    (hframe : ∀ sq a bt sq1 v, search1 sq a bt = some (sq1, v) → sq1 = sq) :
    ∀ (l : List Nat) (ms a : Score), (∀ idx ∈ l, b[idx]? = some none) →
      (∀ idx ∈ l, ∀ a1 b1, search1 (b.set idx (some botPlayer)) a1 b1
        = search2 (b.set idx (some botPlayer)) a1 b1) →
      maxLoop search1 botPlayer beta l b ms a = maxLoop search2 botPlayer beta l b ms a := by
  intro l
  induction l with
  | nil => intro ms a _ _; rfl
  | cons idx rest ih =>
    intro ms a hl hs
    simp only [maxLoop]
    rw [← hs idx (List.mem_cons_self _ _)]
    cases hsr : search1 (b.set idx (some botPlayer)) a beta with
    | none => rfl
    | some r =>
      obtain ⟨sq1, score⟩ := r
      have e1 : sq1 = b.set idx (some botPlayer) := hframe _ _ _ _ _ hsr
      have e2 : sq1.set idx none = b := by
        rw [e1]; exact set_restore b idx _ (hl idx (List.mem_cons_self _ _))
      simp only [e2]
      split
      · rfl
      · exact ih _ _ (fun j hj => hl j (List.mem_cons_of_mem _ hj))
          (fun j hj => hs j (List.mem_cons_of_mem _ hj))

/-- The minimizing loop asks its search only about the boards `b.set idx (some humanPlayer)`
for the cells `idx` of its list. -/
theorem minLoop_congr (search1 search2 : Board → Score → Score → Option (Board × Score))
    (humanPlayer : Mark) (alpha : Score) (b : Board)
    (hframe : ∀ sq a bt sq1 v, search1 sq a bt = some (sq1, v) → sq1 = sq) :
    ∀ (l : List Nat) (ms bt : Score), (∀ idx ∈ l, b[idx]? = some none) →
      (∀ idx ∈ l, ∀ a1 b1, search1 (b.set idx (some humanPlayer)) a1 b1
        = search2 (b.set idx (some humanPlayer)) a1 b1) →
      minLoop search1 humanPlayer alpha l b ms bt
        = minLoop search2 humanPlayer alpha l b ms bt := by
  intro l
  induction l with
  | nil => intro ms bt _ _; rfl
  | cons idx rest ih =>
    intro ms bt hl hs
    simp only [minLoop]
    rw [← hs idx (List.mem_cons_self _ _)]
    cases hsr : search1 (b.set idx (some humanPlayer)) alpha bt with
    | none => rfl
    | some r =>
      obtain ⟨sq1, score⟩ := r
      have e1 : sq1 = b.set idx (some humanPlayer) := hframe _ _ _ _ _ hsr
      have e2 : sq1.set idx none = b := by
        rw [e1]; exact set_restore b idx _ (hl idx (List.mem_cons_self _ _))
      simp only [e2]
      split
      · rfl
      · exact ih _ _ (fun j hj => hl j (List.mem_cons_of_mem _ hj))
          (fun j hj => hs j (List.mem_cons_of_mem _ hj))

/-- The relation `MinimaxCall` holds exactly between an activation on a board without winner
that is not full and the boards with one more cell filled by the mover, at the depth one
larger and with the other side to move. -/
theorem minimaxCall_iff (botPlayer humanPlayer : Mark) (b : Board) (depth : Nat)
    (c : Board × Nat × Bool) :
    (MinimaxCall botPlayer humanPlayer (b, depth, true) c ↔
      checkWinner b ≠ some botPlayer ∧ checkWinner b ≠ some humanPlayer ∧
        isBoardFull b = false ∧
        c.1 ∈ (getEmptySquares b).map (fun idx => b.set idx (some botPlayer)) ∧
        c.2 = (depth + 1, false)) ∧
    (MinimaxCall botPlayer humanPlayer (b, depth, false) c ↔
      checkWinner b ≠ some botPlayer ∧ checkWinner b ≠ some humanPlayer ∧
        isBoardFull b = false ∧
        c.1 ∈ (getEmptySquares b).map (fun idx => b.set idx (some humanPlayer)) ∧
        c.2 = (depth + 1, true)) := by
  constructor
  · constructor
    · intro h
      cases h with
      | maxCall _ _ idx h1 h2 h3 h4 =>
        exact ⟨h1, h2, h3, List.mem_map.2 ⟨idx, h4, rfl⟩, rfl⟩
    · rintro ⟨h1, h2, h3, h4, h5⟩
      obtain ⟨idx, hidx, e⟩ := List.mem_map.1 h4
      obtain ⟨sq, d, s⟩ := c
      simp only at e h5
      obtain ⟨rfl, rfl⟩ := Prod.mk.inj h5
      rw [← e]
      exact MinimaxCall.maxCall b depth idx h1 h2 h3 hidx
  · constructor
    · intro h
      cases h with
      | minCall _ _ idx h1 h2 h3 h4 =>
        exact ⟨h1, h2, h3, List.mem_map.2 ⟨idx, h4, rfl⟩, rfl⟩
    · rintro ⟨h1, h2, h3, h4, h5⟩
      obtain ⟨idx, hidx, e⟩ := List.mem_map.1 h4
      obtain ⟨sq, d, s⟩ := c
      simp only at e h5
      obtain ⟨rfl, rfl⟩ := Prod.mk.inj h5
      rw [← e]
      exact MinimaxCall.minCall b depth idx h1 h2 h3 hidx

/-! ## The friendly cascade -/

theorem findWinningLoop_eq_none (b : Board) (p : Mark) :
    ∀ l : List Nat, findWinningLoop b p l = none ↔
      ∀ j ∈ l, checkWinner (b.set j (some p)) ≠ some p := by
  intro l
  induction l with
  | nil => simp [findWinningLoop]
  | cons idx rest ih =>
    simp only [findWinningLoop, List.mem_cons, forall_eq_or_imp]
    by_cases h : checkWinner (b.set idx (some p)) = some p
    · rw [if_pos h]
      simp [h]
    · rw [if_neg h, ih]
      exact ⟨fun h1 => ⟨h, h1⟩, fun h1 => h1.2⟩

theorem findWinningLoop_eq_some (b : Board) (p : Mark) :
    ∀ (l : List Nat) (w : Nat), l.Pairwise (fun x y => x < y) →
      (findWinningLoop b p l = some w ↔
        w ∈ l ∧ checkWinner (b.set w (some p)) = some p ∧
          ∀ j ∈ l, j < w → checkWinner (b.set j (some p)) ≠ some p) := by
  intro l
  induction l with
  | nil => intro w _; simp [findWinningLoop]
  | cons idx rest ih =>
    intro w hs
    have hs1 := List.pairwise_cons.1 hs
    simp only [findWinningLoop]
    by_cases h : checkWinner (b.set idx (some p)) = some p
    · rw [if_pos h]
      constructor
      · intro e
        have e1 : idx = w := Option.some.inj e
        subst e1
        refine ⟨List.mem_cons_self _ _, h, ?_⟩
        intro j hj hlt
        rcases List.mem_cons.1 hj with rfl | hj
        · omega
        · have := hs1.1 j hj
          omega
      · rintro ⟨hw, _, hfirst⟩
        rcases List.mem_cons.1 hw with rfl | hw
        · rfl
        · exact absurd h (hfirst idx (List.mem_cons_self _ _) (hs1.1 w hw))
    · rw [if_neg h, ih w hs1.2]
      constructor
      · rintro ⟨hw, hwin, hfirst⟩
        refine ⟨List.mem_cons_of_mem _ hw, hwin, ?_⟩
        intro j hj hlt
        rcases List.mem_cons.1 hj with rfl | hj
        · exact h
        · exact hfirst j hj hlt
      · rintro ⟨hw, hwin, hfirst⟩
        rcases List.mem_cons.1 hw with rfl | hw
        · exact absurd hwin h
        · exact ⟨hw, hwin, fun j hj hlt => hfirst j (List.mem_cons_of_mem _ hj) hlt⟩

/-- `findWinningMove` answers the lowest-index empty cell that completes a line for the
player. -/
theorem findWinningMove_eq_some (b : Board) (p : Mark) (w : Nat) :
    findWinningMove b p = some w ↔
      b[w]? = some none ∧ checkWinner (b.set w (some p)) = some p ∧
        ∀ j, j < w → b[j]? = some none → checkWinner (b.set j (some p)) ≠ some p := by
  unfold findWinningMove
  rw [findWinningLoop_eq_some b p _ w (getEmptySquares_sorted b), mem_getEmptySquares]
  constructor
  · rintro ⟨h1, h2, h3⟩
    exact ⟨h1, h2, fun j hlt hj => h3 j ((mem_getEmptySquares b j).2 hj) hlt⟩
  · rintro ⟨h1, h2, h3⟩
    exact ⟨h1, h2, fun j hj hlt => h3 j hlt ((mem_getEmptySquares b j).1 hj)⟩

/-- `findWinningMove` answers `null` when no empty cell completes a line for the player. -/
theorem findWinningMove_eq_none (b : Board) (p : Mark) :
    findWinningMove b p = none ↔
      ∀ j, b[j]? = some none → checkWinner (b.set j (some p)) ≠ some p := by
  unfold findWinningMove
  rw [findWinningLoop_eq_none]
  constructor
  · intro h j hj; exact h j ((mem_getEmptySquares b j).2 hj)
  · intro h j hj; exact h j ((mem_getEmptySquares b j).1 hj)

/-- Step 1 of the cascade fires. -/
theorem getFriendlyMove_step1 (b : Board) (botPlayer humanPlayer : Mark) (rnd : Nat → ℚ)
    (w : Nat) (h1 : rnd 0 > roundDouble (3 / 10)) (hw : findWinningMove b botPlayer = some w) :
    getFriendlyMove b botPlayer humanPlayer rnd = Answer.cell w := by
  unfold getFriendlyMove
  simp only [if_pos h1, hw]

/-- Step 1 does not fire and step 2 does. -/
theorem getFriendlyMove_step2 (b : Board) (botPlayer humanPlayer : Mark) (rnd : Nat → ℚ)
    (c : Nat) (h1 : ¬ rnd 0 > roundDouble (3 / 10) ∨ findWinningMove b botPlayer = none)
    (h2 : rnd 1 > roundDouble (4 / 10)) (hc : findWinningMove b humanPlayer = some c) :
    getFriendlyMove b botPlayer humanPlayer rnd = Answer.cell c := by
  have e1 : (if rnd 0 > roundDouble (3 / 10) then findWinningMove b botPlayer else none)
      = none := by
    rcases h1 with h | h
    · rw [if_neg h]
    · rw [h]; simp
  unfold getFriendlyMove
  simp only [e1, if_pos h2, hc]

/-- Neither step 1 nor step 2 fires: the rest of the cascade decides. -/
theorem getFriendlyMove_rest (b : Board) (botPlayer humanPlayer : Mark) (rnd : Nat → ℚ)
    (h1 : ¬ rnd 0 > roundDouble (3 / 10) ∨ findWinningMove b botPlayer = none)
    (h2 : ¬ rnd 1 > roundDouble (4 / 10) ∨ findWinningMove b humanPlayer = none) :
    getFriendlyMove b botPlayer humanPlayer rnd =
      if b[4]? = some none ∧ rnd 2 > roundDouble (5 / 10) then Answer.cell 4
      else
        if ([0, 2, 6, 8].filter (fun idx => b[idx]? = some none)).length > 0 ∧
            rnd (if b[4]? = some none then 3 else 2) > roundDouble (6 / 10) then
          elemAt ([0, 2, 6, 8].filter (fun idx => b[idx]? = some none))
            ⌊roundDouble (rnd ((if b[4]? = some none then 3 else 2) + 1) *
              (([0, 2, 6, 8].filter (fun idx => b[idx]? = some none)).length : ℚ))⌋
        else
          elemAt (getEmptySquares b)
            ⌊roundDouble (rnd (if ([0, 2, 6, 8].filter
                  (fun idx => b[idx]? = some none)).length > 0
                then (if b[4]? = some none then 3 else 2) + 1
                else (if b[4]? = some none then 3 else 2)) *
              ((getEmptySquares b).length : ℚ))⌋ := by
  have e1 : (if rnd 0 > roundDouble (3 / 10) then findWinningMove b botPlayer else none)
      = none := by
    rcases h1 with h | h
    · rw [if_neg h]
    · rw [h]; simp
  have e2 : (if rnd 1 > roundDouble (4 / 10) then findWinningMove b humanPlayer else none)
      = none := by
    rcases h2 with h | h
    · rw [if_neg h]
    · rw [h]; simp
  unfold getFriendlyMove
  simp only [e1, e2]

theorem getBestMove_friendly_eq (b : Board) (botPlayer humanPlayer : Mark) (rnd : Nat → ℚ)
    (h0 : getEmptySquares b ≠ []) (h9 : (getEmptySquares b).length ≠ 9) :
    getBestMove b botPlayer humanPlayer Difficulty.friendly rnd
      = some (b, getFriendlyMove b botPlayer humanPlayer rnd) := by
  unfold getBestMove
  have h : (getEmptySquares b).length ≠ 0 := fun e => h0 (List.length_eq_zero.1 e)
  simp only [if_neg h, if_neg h9, if_true]

theorem length_ne_nine_of_win (b : Board) (hlen : b.length = 9) (w : Nat) (m : Mark)
    (hwin : checkWinner (b.set w (some m)) = some m) : (getEmptySquares b).length ≠ 9 := by
  intro h
  rw [eq_emptyBoard_of_all_empty b hlen h, checkWinner_after_first_move] at hwin
  exact absurd hwin (by simp)

theorem roundDouble_five_tenths : roundDouble (5 / 10) = 1 / 2 := by
  rw [show (5 : ℚ) / 10 = 1 / 2 by norm_num]
  exact roundDouble_half

theorem roundDouble_five_halves : roundDouble (5 / 2) = 5 / 2 :=
  roundDouble_of_multiple (5 / 2) 1 (5 * 2 ^ 50) (by norm_num) (by norm_num) (by norm_num)
    (by norm_num [zpow_neg])

theorem validRnd_skipRnd : validRnd skipRnd := by
  intro k
  unfold skipRnd
  split
  · exact ⟨le_refl 0, by norm_num, roundDouble_zero⟩
  · exact ⟨by norm_num, by norm_num, roundDouble_half⟩

theorem floor_five_halves : ⌊(5 / 2 : ℚ)⌋ = 2 := by
  rw [Int.floor_eq_iff]
  norm_num

theorem getFriendlyMove_skips_both :
    getFriendlyMove bothThreatsBoard Mark.X Mark.O skipRnd = Answer.cell 6 := by
  rw [getFriendlyMove_rest bothThreatsBoard Mark.X Mark.O skipRnd
    (Or.inl (by rw [roundDouble_three_tenths]; norm_num [skipRnd]))
    (Or.inl (by rw [roundDouble_four_tenths]; norm_num [skipRnd]))]
  have h4 : ¬ (bothThreatsBoard[4]? = some none) := by decide
  have hc : [0, 2, 6, 8].filter (fun idx => decide (bothThreatsBoard[idx]? = some none))
      = [2, 6, 8] := by decide
  have he : getEmptySquares bothThreatsBoard = [2, 5, 6, 7, 8] := by decide
  have hflip : ¬ (skipRnd 2 > roundDouble (6 / 10)) := by
    rw [roundDouble_six_tenths]
    norm_num [skipRnd]
  have hprod : skipRnd 3 * (([2, 5, 6, 7, 8] : List Nat).length : ℚ) = 5 / 2 := by
    norm_num [skipRnd]
  simp only [h4, false_and, if_false, hc, he, hflip, and_false, List.length_cons,
    List.length_nil, Nat.zero_add, Nat.reduceAdd, Nat.lt_irrefl, gt_iff_lt, Nat.zero_lt_succ,
    if_true, Nat.ofNat_pos] at hprod ⊢
  rw [hprod, roundDouble_five_halves, floor_five_halves]
  rfl

/-! ## Renaming the marks -/

theorem renameBoard_getElem? (s : Mark → Mark) (b : Board) (i : Nat) :
    (renameBoard s b)[i]? = (b[i]?).map (Option.map s) := by
  simp [renameBoard]

theorem renameBoard_length (s : Mark → Mark) (b : Board) :
    (renameBoard s b).length = b.length := by
  simp [renameBoard]

theorem renameBoard_null_iff (s : Mark → Mark) (b : Board) (i : Nat) :
    (renameBoard s b)[i]? = some none ↔ b[i]? = some none := by
  rw [renameBoard_getElem?]
  cases h : b[i]? with
  | none => simp
  | some c => cases c <;> simp

theorem cellAt_rename (s : Mark → Mark) (b : Board) (i : Nat) :
    cellAt (renameBoard s b) i = (cellAt b i).map s := by
  unfold cellAt
  rw [renameBoard_getElem?]
  cases b[i]? <;> rfl

theorem renameBoard_set (s : Mark → Mark) (b : Board) (i : Nat) (c : Cell) :
    (renameBoard s b).set i (c.map s) = renameBoard s (b.set i c) := by
  unfold renameBoard
  induction b generalizing i with
  | nil => rfl
  | cons d rest ih =>
    cases i with
    | zero => rfl
    | succ j => simp only [List.map_cons, List.set_cons_succ, ih]

theorem renameBoard_set_mark (s : Mark → Mark) (b : Board) (i : Nat) (m : Mark) :
    (renameBoard s b).set i (some (s m)) = renameBoard s (b.set i (some m)) :=
  renameBoard_set s b i (some m)

theorem emptyFrom_rename (s : Mark → Mark) (b : Board) :
    ∀ k, emptyFrom k (renameBoard s b) = emptyFrom k b := by
  unfold renameBoard
  induction b with
  | nil => intro k; rfl
  | cons c rest ih =>
    intro k
    cases c with
    | none => simp only [List.map_cons, Option.map_none', emptyFrom, ih]
    | some m => simp only [List.map_cons, Option.map_some', emptyFrom, ih]

theorem getEmptySquares_rename (s : Mark → Mark) (b : Board) :
    getEmptySquares (renameBoard s b) = getEmptySquares b := emptyFrom_rename s b 0

theorem isBoardFull_rename (s : Mark → Mark) (b : Board) :
    isBoardFull (renameBoard s b) = isBoardFull b := by
  unfold isBoardFull renameBoard
  induction b with
  | nil => rfl
  | cons c rest ih =>
    cases c <;> simp_all

theorem option_map_eq_iff (s : Mark → Mark) (hs : Function.Injective s) (x y : Cell) :
    x.map s = y.map s ↔ x = y :=
  (Option.map_injective hs).eq_iff

theorem checkLines_rename (s : Mark → Mark) (hs : Function.Injective s) (b : Board) :
    ∀ ls, checkLines (renameBoard s b) ls = (checkLines b ls).map s := by
  intro ls
  induction ls with
  | nil => rfl
  | cons l rest ih =>
    obtain ⟨x, y, z⟩ := l
    simp only [checkLines, cellAt_rename, option_map_eq_iff s hs, Option.isSome_map']
    split
    · rfl
    · exact ih

theorem checkWinner_rename (s : Mark → Mark) (hs : Function.Injective s) (b : Board) :
    checkWinner (renameBoard s b) = (checkWinner b).map s :=
  checkLines_rename s hs b lines

theorem checkWinner_rename_eq_iff (s : Mark → Mark) (hs : Function.Injective s) (b : Board)
    (m : Mark) : checkWinner (renameBoard s b) = some (s m) ↔ checkWinner b = some m := by
  rw [checkWinner_rename s hs]
  exact option_map_eq_iff s hs (checkWinner b) (some m)

theorem minimaxScore_rename (s : Mark → Mark) (hs : Function.Injective s)
    (botPlayer humanPlayer : Mark) :
    ∀ (fuel : Nat) (b : Board) (depth : Nat) (isMax : Bool) (alpha beta : Score),
      minimaxScore fuel (renameBoard s b) depth isMax alpha beta (s botPlayer) (s humanPlayer)
        = minimaxScore fuel b depth isMax alpha beta botPlayer humanPlayer := by
  intro fuel
  induction fuel with
  | zero => intro b depth isMax alpha beta; rfl
  | succ fuel ih =>
    intro b depth isMax alpha beta
    simp only [minimaxScore, checkWinner_rename_eq_iff s hs, isBoardFull_rename,
      getEmptySquares_rename, renameBoard_set_mark, ih]

theorem rootScore_rename (s : Mark → Mark) (hs : Function.Injective s) (b : Board)
    (botPlayer humanPlayer : Mark) :
    rootScore (renameBoard s b) (s botPlayer) (s humanPlayer)
      = rootScore b botPlayer humanPlayer := by
  funext idx
  unfold rootScore
  rw [renameBoard_length, renameBoard_set_mark, minimaxScore_rename s hs]

theorem findWinningLoop_rename (s : Mark → Mark) (hs : Function.Injective s) (b : Board)
    (p : Mark) : ∀ l, findWinningLoop (renameBoard s b) (s p) l = findWinningLoop b p l := by
  intro l
  induction l with
  | nil => rfl
  | cons idx rest ih =>
    simp only [findWinningLoop, renameBoard_set_mark, checkWinner_rename_eq_iff s hs, ih]

theorem findWinningMove_rename (s : Mark → Mark) (hs : Function.Injective s) (b : Board)
    (p : Mark) : findWinningMove (renameBoard s b) (s p) = findWinningMove b p := by
  unfold findWinningMove
  rw [getEmptySquares_rename, findWinningLoop_rename s hs]

theorem getFriendlyMove_rename (s : Mark → Mark) (hs : Function.Injective s) (b : Board)
    (botPlayer humanPlayer : Mark) (rnd : Nat → ℚ) :
    getFriendlyMove (renameBoard s b) (s botPlayer) (s humanPlayer) rnd
      = getFriendlyMove b botPlayer humanPlayer rnd := by
  unfold getFriendlyMove
  simp only [findWinningMove_rename s hs, getEmptySquares_rename, renameBoard_null_iff]

theorem getProMove_rename (s : Mark → Mark) (hs : Function.Injective s) (b : Board)
    (botPlayer humanPlayer : Mark) :
    getProMove (renameBoard s b) (s botPlayer) (s humanPlayer)
      = some (renameBoard s b, pickBest (rootScore b botPlayer humanPlayer)
          (getEmptySquares b) Score.negInf (elemAt (getEmptySquares b) 0)) := by
  rw [getProMove_eq, rootScore_rename s hs, getEmptySquares_rename]

theorem getBestMove_rename (s : Mark → Mark) (hs : Function.Injective s) (b : Board)
    (botPlayer humanPlayer : Mark) (difficulty : Difficulty) (rnd : Nat → ℚ) :
    getBestMove (renameBoard s b) (s botPlayer) (s humanPlayer) difficulty rnd
      = (getBestMove b botPlayer humanPlayer difficulty rnd).map
          (fun r => (renameBoard s r.1, r.2)) := by
  unfold getBestMove
  simp only [getEmptySquares_rename, getFriendlyMove_rename s hs, getProMove_rename s hs,
    getProMove_eq]
  split
  · rfl
  · split
    · rfl
    · split <;> rfl

/-! ## Root scores one and two plies from the root -/

/-- A root move after which the human wins with the very next reply has root score -9. -/
theorem rootScore_of_next_loss (b : Board) (botPlayer humanPlayer : Mark)
    (hne : botPlayer ≠ humanPlayer) (hlen : b.length = 9) (idx c : Nat)
    (hidx : b[idx]? = some none)
    (hc : (b.set idx (some botPlayer))[c]? = some none)
    (hnb : checkWinner (b.set idx (some botPlayer)) ≠ some botPlayer)
    (hnh : checkWinner (b.set idx (some botPlayer)) ≠ some humanPlayer)
    (hloss : checkWinner ((b.set idx (some botPlayer)).set c (some humanPlayer))
      = some humanPlayer) :
    rootScore b botPlayer humanPlayer idx = Score.fin (-9) := by
  rw [rootScore_eq_plain, hlen]
  have hcmem : c ∈ getEmptySquares (b.set idx (some botPlayer)) :=
    (mem_getEmptySquares _ c).2 hc
  have he := getEmptySquares_set_lt b botPlayer idx hlen hidx
  rw [plainMinimax_step botPlayer humanPlayer _ _ _ _ hnb hnh (List.ne_nil_of_mem hcmem)]
  simp only [Bool.false_eq_true, if_false]
  apply le_antisymm
  · refine le_trans (foldl_min_le_of_mem _ _ _ c hcmem) ?_
    rw [plainMinimax_human_win botPlayer humanPlayer hne _ _ _ _ hloss, score_fin_le_fin]
    simp
  · rw [le_foldl_min_iff]
    refine ⟨score_le_posInf _, ?_⟩
    intro j hj
    have hj1 := getEmptySquares_length_set (b.set idx (some botPlayer)) humanPlayer j
      ((mem_getEmptySquares _ j).1 hj)
    obtain ⟨v, hv, h1, _⟩ := plainMinimax_bounds botPlayer humanPlayer 9
      ((b.set idx (some botPlayer)).set j (some humanPlayer)) (0 + 1) true (by omega)
    rw [hv, score_fin_le_fin]
    push_cast at h1
    omega

/-! ## The claims, continued -/

/-- C11. On the empty board, for either difficulty, any marks and any admissible draws,
`getBestMove` returns the element of `[0, 2, 4, 6, 8]` at position `Math.floor(r * 5)` for
the first draw `r`, the product being the double the multiplication yields; that position is
some `k < 5` and the answer is the cell `2 k`; the answer is a function of the first draw
alone (no search, no cascade); and each of the five cells is the answer for some admissible
draw. -/
theorem opening_move_from_first_draw (botPlayer humanPlayer : Mark) (difficulty : Difficulty)
    (rnd : Nat → ℚ) (hr : validRnd rnd) :
    getBestMove emptyBoard botPlayer humanPlayer difficulty rnd
        = some (emptyBoard, elemAt [0, 2, 4, 6, 8] ⌊roundDouble (rnd 0 * 5)⌋) ∧
    (∃ k : Nat, k < 5 ∧ ⌊roundDouble (rnd 0 * 5)⌋ = (k : Int) ∧
      [0, 2, 4, 6, 8][k]? = some (2 * k) ∧
      getBestMove emptyBoard botPlayer humanPlayer difficulty rnd
        = some (emptyBoard, Answer.cell (2 * k))) ∧
    (∀ (bot1 human1 : Mark) (difficulty1 : Difficulty) (rnd1 : Nat → ℚ), rnd1 0 = rnd 0 →
      getBestMove emptyBoard bot1 human1 difficulty1 rnd1
        = getBestMove emptyBoard botPlayer humanPlayer difficulty rnd) ∧
    (∀ k, k < 5 → ∃ rnd1, validRnd rnd1 ∧
      getBestMove emptyBoard botPlayer humanPlayer difficulty rnd1
        = some (emptyBoard, Answer.cell (2 * k))) := by
  refine ⟨getBestMove_emptyBoard _ _ _ _, ?_, ?_, ?_⟩
  · obtain ⟨k, hk, hfl⟩ := floor_opening (rnd 0) (hr 0).1 (hr 0).2.1 (hr 0).2.2
    refine ⟨k, hk, hfl, ?_, ?_⟩
    · interval_cases k <;> rfl
    · rw [getBestMove_emptyBoard, hfl, elemAt_opening k hk]
  · intro bot1 human1 difficulty1 rnd1 h
    rw [getBestMove_emptyBoard, getBestMove_emptyBoard, h]
  · intro k hk
    obtain ⟨r, h0, h1, hd, hfl⟩ := floor_opening_reached k hk
    refine ⟨fun _ => r, fun _ => ⟨h0, h1, hd⟩, ?_⟩
    rw [getBestMove_emptyBoard, hfl, elemAt_opening k hk]

theorem validRnd_sixTenthsRnd : validRnd sixTenthsRnd := by
  intro k
  unfold sixTenthsRnd
  exact ⟨by norm_num, by norm_num,
    roundDouble_of_multiple _ (-1) 5404319552844595 (by norm_num) (by norm_num) (by norm_num)
      (by norm_num [zpow_neg])⟩

/-- The product of the double `0.6` and 5 lies strictly between two doubles, nearer to 3: the
exact product is below 3, the double product is 3. -/
theorem floor_sixTenths_mul_five :
    ⌊sixTenthsRnd 0 * 5⌋ = 2 ∧ ⌊roundDouble (sixTenthsRnd 0 * 5)⌋ = 3 := by
  unfold sixTenthsRnd
  constructor
  · rw [Int.floor_eq_iff]
    norm_num
  · rw [roundDouble_in_binade _ 1 (by norm_num) (by norm_num) (by norm_num)]
    rw [roundHalfEven_eq_of_gt _ 6755399441055743 (by norm_num [zpow_neg])
      (by norm_num [zpow_neg])]
    rw [Int.floor_eq_iff]
    norm_num [zpow_neg]

/-- Witness of C11: when the first draw is the double `0.6` the double product with 5 is 3,
and the answer is the corner 6. -/
theorem opening_move_from_first_draw_witness :
    validRnd sixTenthsRnd ∧ ⌊roundDouble (sixTenthsRnd 0 * 5)⌋ = 3 ∧
    getBestMove emptyBoard Mark.O Mark.X Difficulty.friendly sixTenthsRnd
      = some (emptyBoard, Answer.cell 6) :=
  ⟨validRnd_sixTenthsRnd, floor_sixTenths_mul_five.2,
    (opening_move_from_first_draw Mark.O Mark.X Difficulty.friendly sixTenthsRnd
      validRnd_sixTenthsRnd).1.trans (by rw [floor_sixTenths_mul_five.2]; rfl)⟩

/-- C12. On a nine-cell board that is not empty the pro tier does not look at the random
source: any two streams of draws give the same answer, which on a board that is not full is
the answer of `getProMove`, a function of the board and the two marks. -/
theorem pro_tier_ignores_random (squares : Board) (botPlayer humanPlayer : Mark)
    (rnd1 rnd2 : Nat → ℚ) (hlen : squares.length = 9) (hne : squares ≠ emptyBoard) :
    getBestMove squares botPlayer humanPlayer Difficulty.pro rnd1
        = getBestMove squares botPlayer humanPlayer Difficulty.pro rnd2 ∧
    (getEmptySquares squares ≠ [] →
      getBestMove squares botPlayer humanPlayer Difficulty.pro rnd1
        = getProMove squares botPlayer humanPlayer) := by
  have h9 : (getEmptySquares squares).length ≠ 9 :=
    fun h => hne (eq_emptyBoard_of_all_empty squares hlen h)
  constructor
  · unfold getBestMove
    simp only [if_neg h9,
      if_neg (show ¬ Difficulty.pro = Difficulty.friendly by decide)]
  · intro h0
    have h : (getEmptySquares squares).length ≠ 0 := fun e => h0 (List.length_eq_zero.1 e)
    unfold getBestMove
    simp only [if_neg h9, if_neg h, if_neg (show ¬ Difficulty.pro = Difficulty.friendly by decide)]

/-- Witness of C12: the board `[X, X, _, _, O, _, _, _, _]` with two constant streams. -/
theorem pro_tier_ignores_random_witness :
    (blockBoard.length = 9 ∧ blockBoard ≠ emptyBoard) ∧
    (getBestMove blockBoard Mark.O Mark.X Difficulty.pro (fun _ => 0)
        = getBestMove blockBoard Mark.O Mark.X Difficulty.pro (fun _ => 1 / 2) ∧
    (getEmptySquares blockBoard ≠ [] →
      getBestMove blockBoard Mark.O Mark.X Difficulty.pro (fun _ => 0)
        = getProMove blockBoard Mark.O Mark.X)) :=
  ⟨⟨by decide, by decide⟩,
    pro_tier_ignores_random blockBoard Mark.O Mark.X (fun _ => 0) (fun _ => 1 / 2)
      (by decide) (by decide)⟩

/-- C13. On a nine-cell board on which the bot has an empty cell completing a line for the
bot, whenever the first draw exceeds 0.3 the friendly tier returns the lowest-index such
cell, whatever the later draws: it is the answer of `findWinningMove` for the bot. -/
theorem friendly_takes_win_on_first_flip (squares : Board) (botPlayer humanPlayer : Mark)
    (rnd : Nat → ℚ) (w : Nat) (hlen : squares.length = 9) (h1 : rnd 0 > 3 / 10)
    (hcell : squares[w]? = some none)
    (hwin : checkWinner (squares.set w (some botPlayer)) = some botPlayer)
    (hfirst : ∀ j, j < w → squares[j]? = some none →
      checkWinner (squares.set j (some botPlayer)) ≠ some botPlayer) :
    findWinningMove squares botPlayer = some w ∧
    getFriendlyMove squares botPlayer humanPlayer rnd = Answer.cell w ∧
    getBestMove squares botPlayer humanPlayer Difficulty.friendly rnd
      = some (squares, Answer.cell w) := by
  have hfw : findWinningMove squares botPlayer = some w :=
    (findWinningMove_eq_some squares botPlayer w).2 ⟨hcell, hwin, hfirst⟩
  have h1d : rnd 0 > roundDouble (3 / 10) := by
    rw [roundDouble_three_tenths]
    exact lt_trans (by norm_num) h1
  have hfm := getFriendlyMove_step1 squares botPlayer humanPlayer rnd w h1d hfw
  refine ⟨hfw, hfm, ?_⟩
  rw [getBestMove_friendly_eq squares botPlayer humanPlayer rnd
    (List.ne_nil_of_mem ((mem_getEmptySquares squares w).2 hcell))
    (length_ne_nine_of_win squares hlen w botPlayer hwin), hfm]

/-- Witness of C13: on `[O, O, _, X, X, _, _, _, _]` the friendly bot X with first draw 1/2
returns 5. -/
theorem friendly_takes_win_on_first_flip_witness :
    (bothThreatsBoard.length = 9 ∧ ((fun _ => 1 / 2) : Nat → ℚ) 0 > 3 / 10 ∧
      bothThreatsBoard[5]? = some none ∧
      checkWinner (bothThreatsBoard.set 5 (some Mark.X)) = some Mark.X) ∧
    (findWinningMove bothThreatsBoard Mark.X = some 5 ∧
    getFriendlyMove bothThreatsBoard Mark.X Mark.O (fun _ => 1 / 2) = Answer.cell 5 ∧
    getBestMove bothThreatsBoard Mark.X Mark.O Difficulty.friendly (fun _ => 1 / 2)
      = some (bothThreatsBoard, Answer.cell 5)) :=
  ⟨⟨by decide, by norm_num, by decide, by decide⟩,
    friendly_takes_win_on_first_flip bothThreatsBoard Mark.X Mark.O (fun _ => 1 / 2) 5
      (by decide) (by norm_num) (by decide) (by decide) (by decide)⟩

/-- C14. On a nine-cell board on which the human has an empty cell completing a line for the
human, whenever step 1 does not fire (the first draw is at most the double `0.3`, or no empty
cell completes a line for the bot) and the second draw exceeds the double `0.4`, the friendly
tier returns the lowest-index cell completing a line for the human: the answer of
`findWinningMove` for the human. -/
theorem friendly_blocks_on_second_flip (squares : Board) (botPlayer humanPlayer : Mark)
    (rnd : Nat → ℚ) (c : Nat) (hlen : squares.length = 9)
    (h1 : rnd 0 ≤ roundDouble (3 / 10) ∨ ∀ j, squares[j]? = some none →
      checkWinner (squares.set j (some botPlayer)) ≠ some botPlayer)
    (h2 : rnd 1 > roundDouble (4 / 10))
    (hcell : squares[c]? = some none)
    (hthreat : checkWinner (squares.set c (some humanPlayer)) = some humanPlayer)
    (hfirst : ∀ j, j < c → squares[j]? = some none →
      checkWinner (squares.set j (some humanPlayer)) ≠ some humanPlayer) :
    findWinningMove squares humanPlayer = some c ∧
    getFriendlyMove squares botPlayer humanPlayer rnd = Answer.cell c ∧
    getBestMove squares botPlayer humanPlayer Difficulty.friendly rnd
      = some (squares, Answer.cell c) := by
  have hfw : findWinningMove squares humanPlayer = some c :=
    (findWinningMove_eq_some squares humanPlayer c).2 ⟨hcell, hthreat, hfirst⟩
  have hstep1 : ¬ rnd 0 > roundDouble (3 / 10) ∨ findWinningMove squares botPlayer = none := by
    rcases h1 with h | h
    · exact Or.inl (not_lt.2 h)
    · exact Or.inr ((findWinningMove_eq_none squares botPlayer).2 h)
  have hfm := getFriendlyMove_step2 squares botPlayer humanPlayer rnd c hstep1 h2 hfw
  refine ⟨hfw, hfm, ?_⟩
  rw [getBestMove_friendly_eq squares botPlayer humanPlayer rnd
    (List.ne_nil_of_mem ((mem_getEmptySquares squares c).2 hcell))
    (length_ne_nine_of_win squares hlen c humanPlayer hthreat), hfm]

/-- Witness of C14: on `[O, O, _, X, X, _, _, _, _]` the friendly bot X with draws 0 and 1/2
skips its own win at 5 and blocks at 2. -/
theorem friendly_blocks_on_second_flip_witness :
    (bothThreatsBoard.length = 9 ∧
      ((fun k => if k = 0 then 0 else 1 / 2) : Nat → ℚ) 0 ≤ roundDouble (3 / 10) ∧
      ((fun k => if k = 0 then 0 else 1 / 2) : Nat → ℚ) 1 > roundDouble (4 / 10) ∧
      bothThreatsBoard[2]? = some none ∧
      checkWinner (bothThreatsBoard.set 2 (some Mark.O)) = some Mark.O) ∧
    (findWinningMove bothThreatsBoard Mark.O = some 2 ∧
    getFriendlyMove bothThreatsBoard Mark.X Mark.O (fun k => if k = 0 then 0 else 1 / 2)
      = Answer.cell 2 ∧
    getBestMove bothThreatsBoard Mark.X Mark.O Difficulty.friendly
        (fun k => if k = 0 then 0 else 1 / 2)
      = some (bothThreatsBoard, Answer.cell 2)) := by
  have h1 : ((fun k => if k = 0 then 0 else 1 / 2) : Nat → ℚ) 0 ≤ roundDouble (3 / 10) := by
    rw [roundDouble_three_tenths]
    norm_num
  have h2 : ((fun k => if k = 0 then 0 else 1 / 2) : Nat → ℚ) 1 > roundDouble (4 / 10) := by
    rw [roundDouble_four_tenths]
    norm_num
  exact ⟨⟨by decide, h1, h2, by decide, by decide⟩,
    friendly_blocks_on_second_flip bothThreatsBoard Mark.X Mark.O
      (fun k => if k = 0 then 0 else 1 / 2) 2 (by decide) (Or.inl h1) h2 (by decide)
      (by decide) (by decide)⟩

/-- C15. On a nine-cell board with an empty cell, when neither the win step nor the block
step of `getFriendlyMove` fires (for each, the draw is at most its threshold, the double
`0.3` or `0.4`, or `findWinningMove` finds nothing): if the centre is empty and the third
draw exceeds 0.5 the result is 4; otherwise, if a corner is empty and the next draw exceeds
the double `0.6`, the result is the element of the empty corners (in the order 0, 2, 6, 8)
at position `Math.floor(r * k)` for the following draw `r` and the number `k` of empty
corners; otherwise the result is the element of the empty cells (in index order) at position
`Math.floor(r * n)` for the next draw `r` and the number `n` of empty cells. The products are
the doubles the multiplications yield. In the last two cases the position is in range, so
the result is such a cell. -/
theorem friendly_fallback_steps (squares : Board) (botPlayer humanPlayer : Mark)
    (rnd : Nat → ℚ) (hlen : squares.length = 9) (hr : validRnd rnd)
    (hne : getEmptySquares squares ≠ [])
    (h1 : rnd 0 ≤ roundDouble (3 / 10) ∨ findWinningMove squares botPlayer = none)
    (h2 : rnd 1 ≤ roundDouble (4 / 10) ∨ findWinningMove squares humanPlayer = none) :
    (squares[4]? = some none → rnd 2 > 1 / 2 →
      getFriendlyMove squares botPlayer humanPlayer rnd = Answer.cell 4) ∧
    (¬ (squares[4]? = some none ∧ rnd 2 > 1 / 2) → emptyCorners squares ≠ [] →
      rnd (drawsBeforeCorners squares) > roundDouble (6 / 10) →
      getFriendlyMove squares botPlayer humanPlayer rnd
          = elemAt (emptyCorners squares)
              ⌊roundDouble (rnd (drawsBeforeCorners squares + 1) *
                ((emptyCorners squares).length : ℚ))⌋ ∧
        ∃ v ∈ emptyCorners squares,
          getFriendlyMove squares botPlayer humanPlayer rnd = Answer.cell v) ∧
    (¬ (squares[4]? = some none ∧ rnd 2 > 1 / 2) →
      ¬ (emptyCorners squares ≠ [] ∧
        rnd (drawsBeforeCorners squares) > roundDouble (6 / 10)) →
      getFriendlyMove squares botPlayer humanPlayer rnd
          = elemAt (getEmptySquares squares)
              ⌊roundDouble (rnd (drawsBeforeLast squares) *
                ((getEmptySquares squares).length : ℚ))⌋ ∧
        ∃ v ∈ getEmptySquares squares,
          getFriendlyMove squares botPlayer humanPlayer rnd = Answer.cell v) := by
  have hstep1 : ¬ rnd 0 > roundDouble (3 / 10) ∨ findWinningMove squares botPlayer = none :=
    h1.imp (fun h => not_lt.2 h) id
  have hstep2 : ¬ rnd 1 > roundDouble (4 / 10) ∨ findWinningMove squares humanPlayer = none :=
    h2.imp (fun h => not_lt.2 h) id
  have hrest := getFriendlyMove_rest squares botPlayer humanPlayer rnd hstep1 hstep2
  rw [roundDouble_five_tenths] at hrest
  have hlenpos : ∀ l : List Nat, l.length > 0 ↔ l ≠ [] := fun l => List.length_pos
  have hc9 : (emptyCorners squares).length ≤ 9 :=
    le_trans (List.length_filter_le _ _) (by simp)
  have he9 : (getEmptySquares squares).length ≤ 9 := by
    have := getEmptySquares_length_le squares
    omega
  refine ⟨?_, ?_, ?_⟩
  · intro hc hd
    rw [hrest, if_pos ⟨hc, hd⟩]
  · intro hc hk hd
    have he : getFriendlyMove squares botPlayer humanPlayer rnd
        = elemAt (emptyCorners squares)
            ⌊roundDouble (rnd (drawsBeforeCorners squares + 1) *
              ((emptyCorners squares).length : ℚ))⌋ := by
      rw [hrest, if_neg hc]
      exact if_pos ⟨(hlenpos _).2 hk, hd⟩
    refine ⟨he, ?_⟩
    obtain ⟨v, hv, hev⟩ := elemAt_floor (emptyCorners squares)
      (rnd (drawsBeforeCorners squares + 1)) hk hc9 (hr _).1 (hr _).2.1 (hr _).2.2
    exact ⟨v, hv, by rw [he, hev]⟩
  · intro hc hk
    have he : getFriendlyMove squares botPlayer humanPlayer rnd
        = elemAt (getEmptySquares squares)
            ⌊roundDouble (rnd (drawsBeforeLast squares) *
              ((getEmptySquares squares).length : ℚ))⌋ := by
      rw [hrest, if_neg hc]
      exact if_neg (fun h => hk ⟨(hlenpos _).1 h.1, h.2⟩)
    refine ⟨he, ?_⟩
    obtain ⟨v, hv, hev⟩ := elemAt_floor (getEmptySquares squares)
      (rnd (drawsBeforeLast squares)) hne he9 (hr _).1 (hr _).2.1 (hr _).2.2
    exact ⟨v, hv, by rw [he, hev]⟩

theorem roundHalfEven_tie_odd (q : ℚ) (k : Int) (h : q = (k : ℚ) + 1 / 2) (hk : k % 2 = 1) :
    roundHalfEven q = k + 1 := by
  have hf : ⌊q⌋ = k := Int.floor_eq_iff.mpr ⟨by linarith, by linarith⟩
  unfold roundHalfEven
  rw [hf, if_neg (by linarith), if_neg (by linarith), if_neg (by omega)]

theorem validRnd_lastStepRnd : validRnd lastStepRnd := by
  intro k
  unfold lastStepRnd
  split
  · exact ⟨le_refl 0, by norm_num, roundDouble_zero⟩
  · split
    · exact ⟨by norm_num, by norm_num,
        roundDouble_of_multiple (1 / 4) (-2) (2 ^ 52) (by norm_num) (by norm_num)
          (by norm_num) (by norm_num [zpow_neg])⟩
    · split
      · exact ⟨by norm_num, by norm_num, roundDouble_half⟩
      · exact ⟨by norm_num, by norm_num,
          roundDouble_of_multiple _ (-1) 7505999378950826 (by norm_num) (by norm_num)
            (by norm_num) (by norm_num [zpow_neg])⟩

/-- The product of the double `0.8333333333333333` and 6 lies halfway between two doubles,
and the tie goes to 5: the exact product is below 5, the double product is 5. -/
theorem floor_lastStepRnd_mul_six :
    ⌊lastStepRnd 4 * 6⌋ = 4 ∧ ⌊roundDouble (lastStepRnd 4 * 6)⌋ = 5 := by
  have h4 : lastStepRnd 4 = 3752999689475413 / 4503599627370496 := by
    norm_num [lastStepRnd]
  rw [h4]
  constructor
  · rw [Int.floor_eq_iff]
    norm_num
  · rw [roundDouble_in_binade _ 2 (by norm_num) (by norm_num) (by norm_num)]
    rw [roundHalfEven_tie_odd _ 5629499534213119 (by norm_num [zpow_neg]) (by norm_num)]
    rw [Int.floor_eq_iff]
    norm_num [zpow_neg]

/-- Witness of C15: on `[X, O, X, _, _, _, _, _, _]` with the draws 0, 0, 1/4, 1/2 and the
double `0.8333333333333333` neither flip of the cascade succeeds, and the last step reads
position `Math.floor(0.8333333333333333 * 6) = 5` of `[3, 4, 5, 6, 7, 8]`: the cell 8. -/
theorem friendly_fallback_steps_witness :
    (lastStepBoard.length = 9 ∧ validRnd lastStepRnd ∧ getEmptySquares lastStepBoard ≠ [] ∧
      lastStepRnd 0 ≤ roundDouble (3 / 10) ∧ lastStepRnd 1 ≤ roundDouble (4 / 10) ∧
      ¬ (lastStepBoard[4]? = some none ∧ lastStepRnd 2 > 1 / 2) ∧
      ¬ (emptyCorners lastStepBoard ≠ [] ∧
        lastStepRnd (drawsBeforeCorners lastStepBoard) > roundDouble (6 / 10))) ∧
    (getFriendlyMove lastStepBoard Mark.O Mark.X lastStepRnd
        = elemAt (getEmptySquares lastStepBoard)
            ⌊roundDouble (lastStepRnd (drawsBeforeLast lastStepBoard) *
              ((getEmptySquares lastStepBoard).length : ℚ))⌋ ∧
      ∃ v ∈ getEmptySquares lastStepBoard,
        getFriendlyMove lastStepBoard Mark.O Mark.X lastStepRnd = Answer.cell v) ∧
    getFriendlyMove lastStepBoard Mark.O Mark.X lastStepRnd = Answer.cell 8 := by
  have h0 : lastStepRnd 0 ≤ roundDouble (3 / 10) := by
    rw [roundDouble_three_tenths]
    norm_num [lastStepRnd]
  have h1 : lastStepRnd 1 ≤ roundDouble (4 / 10) := by
    rw [roundDouble_four_tenths]
    norm_num [lastStepRnd]
  have hc : ¬ (lastStepBoard[4]? = some none ∧ lastStepRnd 2 > 1 / 2) := by
    intro h
    have := h.2
    norm_num [lastStepRnd] at this
  have hd : drawsBeforeCorners lastStepBoard = 3 := by decide
  have hl : drawsBeforeLast lastStepBoard = 4 := by decide
  have he : getEmptySquares lastStepBoard = [3, 4, 5, 6, 7, 8] := by decide
  have hk : ¬ (emptyCorners lastStepBoard ≠ [] ∧
      lastStepRnd (drawsBeforeCorners lastStepBoard) > roundDouble (6 / 10)) := by
    intro h
    have := h.2
    rw [hd, roundDouble_six_tenths] at this
    norm_num [lastStepRnd] at this
  have hthm := (friendly_fallback_steps lastStepBoard Mark.O Mark.X lastStepRnd (by decide)
      validRnd_lastStepRnd (by decide) (Or.inl h0) (Or.inl h1)).2.2 hc hk
  refine ⟨⟨by decide, validRnd_lastStepRnd, by decide, h0, h1, hc, hk⟩, hthm, ?_⟩
  rw [hthm.1, hl, he]
  have h6 : (([3, 4, 5, 6, 7, 8] : List Nat).length : ℚ) = 6 := by norm_num
  rw [h6, floor_lastStepRnd_mul_six.2]
  rfl

theorem validRnd_fourTenthsRnd : validRnd fourTenthsRnd := by
  intro k
  unfold fourTenthsRnd
  split
  · exact ⟨le_refl 0, by norm_num, roundDouble_zero⟩
  · split
    · exact ⟨by norm_num, by norm_num,
        roundDouble_of_multiple _ (-2) 7205759403792794 (by norm_num) (by norm_num)
          (by norm_num) (by norm_num [zpow_neg])⟩
    · exact ⟨by norm_num, by norm_num, roundDouble_half⟩

/-- The block flip at the threshold: on `[O, O, _, X, X, _, _, _, _]` with the bot X, when
the second draw is the double `0.4` itself (a number above 2/5) the test `> 0.4` fails, the
block at 2 is skipped, and with the further draws 1/2, 1/2 the answer is 6. -/
theorem friendly_block_flip_at_threshold :
    validRnd fourTenthsRnd ∧ fourTenthsRnd 1 > 4 / 10 ∧
    fourTenthsRnd 1 = roundDouble (4 / 10) ∧
    findWinningMove bothThreatsBoard Mark.O = some 2 ∧
    getFriendlyMove bothThreatsBoard Mark.X Mark.O fourTenthsRnd = Answer.cell 6 := by
  have h1 : fourTenthsRnd 1 = roundDouble (4 / 10) := by
    rw [roundDouble_four_tenths]
    norm_num [fourTenthsRnd]
  refine ⟨validRnd_fourTenthsRnd, by norm_num [fourTenthsRnd], h1, by decide, ?_⟩
  rw [getFriendlyMove_rest bothThreatsBoard Mark.X Mark.O fourTenthsRnd
    (Or.inl (by rw [roundDouble_three_tenths]; norm_num [fourTenthsRnd]))
    (Or.inl (by rw [h1]; exact lt_irrefl _))]
  have h4 : ¬ (bothThreatsBoard[4]? = some none) := by decide
  have hc : [0, 2, 6, 8].filter (fun idx => decide (bothThreatsBoard[idx]? = some none))
      = [2, 6, 8] := by decide
  have he : getEmptySquares bothThreatsBoard = [2, 5, 6, 7, 8] := by decide
  have hflip : ¬ (fourTenthsRnd 2 > roundDouble (6 / 10)) := by
    rw [roundDouble_six_tenths]
    norm_num [fourTenthsRnd]
  have hprod : fourTenthsRnd 3 * (([2, 5, 6, 7, 8] : List Nat).length : ℚ) = 5 / 2 := by
    norm_num [fourTenthsRnd]
  simp only [h4, false_and, if_false, hc, he, hflip, and_false, List.length_cons,
    List.length_nil, Nat.zero_add, Nat.reduceAdd, Nat.lt_irrefl, gt_iff_lt, Nat.zero_lt_succ,
    if_true, Nat.ofNat_pos] at hprod ⊢
  rw [hprod, roundDouble_five_halves, floor_five_halves]
  rfl

/-- C16. For every board and every injective renaming `s` of the marks, renaming every
occupied cell and both player arguments leaves the answer of `getBestMove` unchanged, for
the same difficulty and the same draws; the array comes back renamed. -/
theorem getBestMove_renaming (s : Mark → Mark) (hs : Function.Injective s) (squares : Board)
    (botPlayer humanPlayer : Mark) (difficulty : Difficulty) (rnd : Nat → ℚ) :
    getBestMove (renameBoard s squares) (s botPlayer) (s humanPlayer) difficulty rnd
        = (getBestMove squares botPlayer humanPlayer difficulty rnd).map
            (fun r => (renameBoard s r.1, r.2)) ∧
    ∃ a, getBestMove squares botPlayer humanPlayer difficulty rnd = some (squares, a) ∧
      getBestMove (renameBoard s squares) (s botPlayer) (s humanPlayer) difficulty rnd
        = some (renameBoard s squares, a) := by
  have h := getBestMove_rename s hs squares botPlayer humanPlayer difficulty rnd
  refine ⟨h, ?_⟩
  obtain ⟨a, ha⟩ := getBestMove_total squares botPlayer humanPlayer difficulty rnd
  exact ⟨a, ha, by rw [h, ha]; rfl⟩

/-- Witness of C16: swapping X and O on `[X, X, _, _, O, _, _, _, _]`, pro tier. -/
theorem getBestMove_renaming_witness :
    Function.Injective Mark.other ∧
    (getBestMove (renameBoard Mark.other blockBoard) (Mark.other Mark.O)
          (Mark.other Mark.X) Difficulty.pro (fun _ => 0)
        = (getBestMove blockBoard Mark.O Mark.X Difficulty.pro (fun _ => 0)).map
            (fun r => (renameBoard Mark.other r.1, r.2)) ∧
    ∃ a, getBestMove blockBoard Mark.O Mark.X Difficulty.pro (fun _ => 0)
        = some (blockBoard, a) ∧
      getBestMove (renameBoard Mark.other blockBoard) (Mark.other Mark.O)
          (Mark.other Mark.X) Difficulty.pro (fun _ => 0)
        = some (renameBoard Mark.other blockBoard, a)) := by
  have hinj : Function.Injective Mark.other := by
    intro a b h
    cases a <;> cases b <;> simp [Mark.other] at h ⊢
  exact ⟨hinj, getBestMove_renaming Mark.other hinj blockBoard Mark.O Mark.X Difficulty.pro
    (fun _ => 0)⟩

/-- C17. There are a board without winner on which both the bot and the human have an
immediately winning empty cell, and admissible draws, the first at most 0.3 and the second
at most 0.4, for which `getFriendlyMove` returns a cell that neither completes a line for
the bot nor is a cell completing a line for the human: `[O, O, _, X, X, _, _, _, _]` with the
bot X and the draws 0, 0, 1/2, 1/2 gives 6. -/
theorem friendly_can_skip_win_and_block :
    ∃ (squares : Board) (botPlayer humanPlayer : Mark) (rnd : Nat → ℚ) (wb wh i : Nat),
      squares.length = 9 ∧ botPlayer ≠ humanPlayer ∧ checkWinner squares = none ∧
      squares[wb]? = some none ∧
      checkWinner (squares.set wb (some botPlayer)) = some botPlayer ∧
      squares[wh]? = some none ∧
      checkWinner (squares.set wh (some humanPlayer)) = some humanPlayer ∧
      validRnd rnd ∧ rnd 0 ≤ 3 / 10 ∧ rnd 1 ≤ 4 / 10 ∧
      getFriendlyMove squares botPlayer humanPlayer rnd = Answer.cell i ∧
      getBestMove squares botPlayer humanPlayer Difficulty.friendly rnd
        = some (squares, Answer.cell i) ∧
      squares[i]? = some none ∧
      checkWinner (squares.set i (some botPlayer)) ≠ some botPlayer ∧
      checkWinner (squares.set i (some humanPlayer)) ≠ some humanPlayer := by
  refine ⟨bothThreatsBoard, Mark.X, Mark.O, skipRnd, 5, 2, 6, by decide, by decide, by decide,
    by decide, by decide, by decide, by decide, validRnd_skipRnd, by norm_num [skipRnd],
    by norm_num [skipRnd], getFriendlyMove_skips_both, ?_, by decide, by decide, by decide⟩
  rw [getBestMove_friendly_eq bothThreatsBoard Mark.X Mark.O skipRnd (by decide) (by decide),
    getFriendlyMove_skips_both]

set_option maxRecDepth 100000 in
/-- Counterexample to C18 as stated: on `[O, O, _, X, X, _, _, _, _]` with the bot X the root
move 5 completes the line 3-4-5 and `getProMove` scores it 10, not 9; after the root move 6
the human wins with the very next reply 2, and `getProMove` scores that move -9, not -8. -/
theorem root_scores_count_from_the_move :
    checkWinner bothThreatsBoard = none ∧
    checkWinner (bothThreatsBoard.set 5 (some Mark.X)) = some Mark.X ∧
    minimax (bothThreatsBoard.length + 1) (bothThreatsBoard.set 5 (some Mark.X)) 0 false
        Score.negInf Score.posInf Mark.X Mark.O
      = some (bothThreatsBoard.set 5 (some Mark.X), Score.fin 10) ∧
    Score.fin 10 ≠ Score.fin (10 - 1) ∧
    checkWinner (bothThreatsBoard.set 6 (some Mark.X)) = none ∧
    checkWinner ((bothThreatsBoard.set 6 (some Mark.X)).set 2 (some Mark.O)) = some Mark.O ∧
    minimax (bothThreatsBoard.length + 1) (bothThreatsBoard.set 6 (some Mark.X)) 0 false
        Score.negInf Score.posInf Mark.X Mark.O
      = some (bothThreatsBoard.set 6 (some Mark.X), Score.fin (-9)) ∧
    Score.fin (-9) ≠ Score.fin (2 - 10) := by
  refine ⟨by decide, by decide, by decide!, by decide, by decide, by decide, by decide!,
    by decide⟩

/-- C18 (amended). In the pro-tier search the depth used to score a terminal position is the
number of plies played from the board passed to `minimax`, which `getProMove` calls with
depth 0 on the board that already holds the candidate root move: on a nine-cell board, a
candidate root move that completes a line for the bot is scored `10 - 0 = 10`, and a
candidate root move that leaves no winner and after which some reply of the human completes
a line for the human is scored `1 - 10 = -9`. -/
theorem root_score_of_win_and_next_loss (squares : Board) (botPlayer humanPlayer : Mark)
    (idx : Nat) (hne : botPlayer ≠ humanPlayer) (hlen : squares.length = 9)
    (hidx : squares[idx]? = some none) :
    (checkWinner (squares.set idx (some botPlayer)) = some botPlayer →
      minimax (squares.length + 1) (squares.set idx (some botPlayer)) 0 false Score.negInf
          Score.posInf botPlayer humanPlayer
        = some (squares.set idx (some botPlayer), Score.fin (10 - 0))) ∧
    (∀ c, checkWinner (squares.set idx (some botPlayer)) = none →
      (squares.set idx (some botPlayer))[c]? = some none →
      checkWinner ((squares.set idx (some botPlayer)).set c (some humanPlayer))
        = some humanPlayer →
      minimax (squares.length + 1) (squares.set idx (some botPlayer)) 0 false Score.negInf
          Score.posInf botPlayer humanPlayer
        = some (squares.set idx (some botPlayer), Score.fin (1 - 10))) := by
  constructor
  · intro hwin
    rw [rootScore_eq, rootScore_of_win squares botPlayer humanPlayer idx hwin]
    rfl
  · intro c hnone hc hloss
    rw [rootScore_eq, rootScore_of_next_loss squares botPlayer humanPlayer hne hlen idx c hidx
      hc (by rw [hnone]; simp) (by rw [hnone]; simp) hloss]
    rfl

/-- Witness of C18 (amended): the root moves 5 and 6 of the bot X on
`[O, O, _, X, X, _, _, _, _]`. -/
theorem root_score_of_win_and_next_loss_witness :
    (Mark.X ≠ Mark.O ∧ bothThreatsBoard.length = 9 ∧ bothThreatsBoard[5]? = some none ∧
      bothThreatsBoard[6]? = some none) ∧
    minimax (bothThreatsBoard.length + 1) (bothThreatsBoard.set 5 (some Mark.X)) 0 false
        Score.negInf Score.posInf Mark.X Mark.O
      = some (bothThreatsBoard.set 5 (some Mark.X), Score.fin (10 - 0)) ∧
    minimax (bothThreatsBoard.length + 1) (bothThreatsBoard.set 6 (some Mark.X)) 0 false
        Score.negInf Score.posInf Mark.X Mark.O
      = some (bothThreatsBoard.set 6 (some Mark.X), Score.fin (1 - 10)) :=
  ⟨⟨by decide, by decide, by decide, by decide⟩,
    (root_score_of_win_and_next_loss bothThreatsBoard Mark.X Mark.O 5 (by decide) (by decide)
      (by decide)).1 (by decide),
    (root_score_of_win_and_next_loss bothThreatsBoard Mark.X Mark.O 6 (by decide) (by decide)
      (by decide)).2 2 (by decide) (by decide) (by decide)⟩

/-- C19. For every board, depth and side to move, `minimax` called with alpha `-Infinity` and
beta `Infinity` (and a budget above the number of empty cells) returns exactly the value of
the unpruned recursion `plainMinimax`: the same terminal scores, the maximum over all empty
cells when the bot moves, the minimum over all empty cells when the human moves. That value
does not depend on the budget. -/
theorem minimax_full_window_is_unpruned (squares : Board) (depth : Nat) (isMaximizing : Bool)
    (botPlayer humanPlayer : Mark) (extra extra1 : Nat) :
    minimax ((getEmptySquares squares).length + 1 + extra) squares depth isMaximizing
        Score.negInf Score.posInf botPlayer humanPlayer
      = some (squares, plainMinimax ((getEmptySquares squares).length + 1 + extra) squares
          depth isMaximizing botPlayer humanPlayer) ∧
    plainMinimax ((getEmptySquares squares).length + 1 + extra) squares depth isMaximizing
        botPlayer humanPlayer
      = plainMinimax ((getEmptySquares squares).length + 1 + extra1) squares depth
          isMaximizing botPlayer humanPlayer := by
  constructor
  · rw [minimax_eq botPlayer humanPlayer _ squares depth isMaximizing _ _ (by omega),
      minimaxScore_full_window]
  · exact plainMinimax_fuel botPlayer humanPlayer _ _ squares depth isMaximizing (by omega)
      (by omega)

/-- C20. `minimax` terminates: with a budget above the number of empty cells it returns, for
every board, depth, side to move and window.  Its recursive calls, on a board without winner
that is not full, are those of its loop: `minimax` with the budget one lower, the depth one
larger and the other side to move, on the boards with one more cell filled by the mover;
answering `none` on every other board leaves the result unchanged.  `MinimaxCall` relates an
activation to exactly these calls, each on a board with exactly one empty cell fewer than
its caller's.  So for a nine-cell board the call `getProMove` makes for a candidate move
returns within a budget of 9 (the call itself and at most 8 levels below it), and in every
call nested in it the depth is at most 8. -/
theorem minimax_terminates (squares : Board) (botPlayer humanPlayer : Mark) (idx : Nat)
    (hlen : squares.length = 9) (hidx : squares[idx]? = some none) :
    (∀ (b : Board) (depth : Nat) (isMaximizing : Bool) (alpha beta : Score) (extra : Nat),
      ∃ v, minimax ((getEmptySquares b).length + 1 + extra) b depth isMaximizing alpha beta
        botPlayer humanPlayer = some (b, v)) ∧
    (∀ (fuel : Nat) (b : Board) (depth : Nat) (alpha beta : Score),
      checkWinner b ≠ some botPlayer → checkWinner b ≠ some humanPlayer →
      isBoardFull b = false →
      minimax (fuel + 1) b depth true alpha beta botPlayer humanPlayer
        = maxLoop
            (fun sq a bt =>
              if sq ∈ (getEmptySquares b).map (fun i => b.set i (some botPlayer)) then
                minimax fuel sq (depth + 1) false a bt botPlayer humanPlayer
              else none)
            botPlayer beta (getEmptySquares b) b Score.negInf alpha ∧
      minimax (fuel + 1) b depth false alpha beta botPlayer humanPlayer
        = minLoop
            (fun sq a bt =>
              if sq ∈ (getEmptySquares b).map (fun i => b.set i (some humanPlayer)) then
                minimax fuel sq (depth + 1) true a bt botPlayer humanPlayer
              else none)
            humanPlayer alpha (getEmptySquares b) b Score.posInf beta) ∧
    (∀ (b : Board) (depth : Nat) (c : Board × Nat × Bool),
      (MinimaxCall botPlayer humanPlayer (b, depth, true) c ↔
        checkWinner b ≠ some botPlayer ∧ checkWinner b ≠ some humanPlayer ∧
          isBoardFull b = false ∧
          c.1 ∈ (getEmptySquares b).map (fun i => b.set i (some botPlayer)) ∧
          c.2 = (depth + 1, false)) ∧
      (MinimaxCall botPlayer humanPlayer (b, depth, false) c ↔
        checkWinner b ≠ some botPlayer ∧ checkWinner b ≠ some humanPlayer ∧
          isBoardFull b = false ∧
          c.1 ∈ (getEmptySquares b).map (fun i => b.set i (some humanPlayer)) ∧
          c.2 = (depth + 1, true))) ∧
    (∀ c1 c2, MinimaxCall botPlayer humanPlayer c1 c2 →
      (getEmptySquares c2.1).length + 1 = (getEmptySquares c1.1).length ∧
        c2.2.1 = c1.2.1 + 1) ∧
    (∃ v, minimax 9 (squares.set idx (some botPlayer)) 0 false Score.negInf Score.posInf
        botPlayer humanPlayer = some (squares.set idx (some botPlayer), v)) ∧
    (∀ c, Relation.ReflTransGen (MinimaxCall botPlayer humanPlayer)
        (squares.set idx (some botPlayer), 0, false) c →
      c.2.1 ≤ 8 ∧ c.2.1 + (getEmptySquares c.1).length ≤ 8) := by
  have he := getEmptySquares_set_lt squares botPlayer idx hlen hidx
  refine ⟨?_, ?_, minimaxCall_iff botPlayer humanPlayer,
    minimaxCall_measure botPlayer humanPlayer, ?_, ?_⟩
  · intro b depth isMaximizing alpha beta extra
    exact ⟨_, minimax_eq botPlayer humanPlayer _ b depth isMaximizing alpha beta (by omega)⟩
  · intro fuel b depth alpha beta hb hh hf
    constructor
    · simp only [minimax, if_neg hb, if_neg hh, hf, Bool.false_eq_true, if_false, if_true]
      exact maxLoop_congr _ _ botPlayer beta b
        (fun sq a bt sq1 v h => minimax_frame botPlayer humanPlayer fuel sq (depth + 1) false
          a bt sq1 v h)
        _ _ _ (fun i hi => (mem_getEmptySquares b i).1 hi)
        (fun i hi a1 b1 => by rw [if_pos (List.mem_map.2 ⟨i, hi, rfl⟩)])
    · simp only [minimax, if_neg hb, if_neg hh, hf, Bool.false_eq_true, if_false]
      exact minLoop_congr _ _ humanPlayer alpha b
        (fun sq a bt sq1 v h => minimax_frame botPlayer humanPlayer fuel sq (depth + 1) true
          a bt sq1 v h)
        _ _ _ (fun i hi => (mem_getEmptySquares b i).1 hi)
        (fun i hi a1 b1 => by rw [if_pos (List.mem_map.2 ⟨i, hi, rfl⟩)])
  · exact ⟨_, minimax_eq botPlayer humanPlayer 9 _ 0 false _ _ he⟩
  · intro c hc
    have := minimaxCall_chain botPlayer humanPlayer _ c hc
    simp only at this
    omega

/-- Witness of C20: the candidate move 2 of the bot O on `[X, X, _, _, O, _, _, _, _]`. -/
theorem minimax_terminates_witness :
    (blockBoard.length = 9 ∧ blockBoard[2]? = some none) ∧
    ∃ v, minimax 9 (blockBoard.set 2 (some Mark.O)) 0 false Score.negInf Score.posInf
        Mark.O Mark.X = some (blockBoard.set 2 (some Mark.O), v) :=
  ⟨⟨by decide, by decide⟩,
    (minimax_terminates blockBoard Mark.O Mark.X 2 (by decide) (by decide)).2.2.2.2.1⟩

end TickyBot
